import Mathlib

/-! gomailchimp: request construction and dispatch

A shallow embedding of `mailchimp.go` (package `mailchimp`).

Go strings are immutable byte sequences and are modelled as `List Nat`
(one number below 256 per byte).  The functions of the Go standard library
that the package calls (`strings`, `net/url`, `net/http`, `encoding/base64`,
`encoding/json`, as of Go 1.21) are embedded as far as the package reaches
them; each one carries the name it has in Go.
-/

namespace Mailchimp

/-! ## Strings -/

/-- A Go `string`: a sequence of bytes. -/
abbrev GoString := List Nat

/-- The bytes of an ASCII literal. -/
def lit (s : String) : GoString := s.toList.map Char.toNat

/-- `strings.Split(s, sep)` for a separator `sep` of one byte: the pieces of
`s` between the occurrences of `sep`; a string without `sep` (the empty
string too) gives the one-element slice `[s]`. -/
def Split (s : GoString) (sep : Nat) : List GoString :=
  match s with
  | [] => [[]]
  | c :: cs =>
    if c = sep then [] :: Split cs sep
    else
      match Split cs sep with
      | [] => [[c]]
      | x :: xs => (c :: x) :: xs

/-- `strings.Join(elems, sep)` for a separator of one byte. -/
def Join (elems : List GoString) (sep : Nat) : GoString :=
  match elems with
  | [] => []
  | [x] => x
  | x :: y :: rest => x ++ sep :: Join (y :: rest) sep

/-- `strings.Cut(s, sep)` for a separator of one byte: the text before the
first `sep`, the text after it, and whether `sep` occurs. -/
def Cut (s : GoString) (sep : Nat) : GoString × GoString × Bool :=
  (s.takeWhile (fun c => c != sep), (s.dropWhile (fun c => c != sep)).tail,
    s.contains sep)

/-- `strings.LastIndexByte(s, c)`, with `none` for the result `-1`. -/
def LastIndexByte (s : GoString) (c : Nat) : Option Nat :=
  match s with
  | [] => none
  | x :: xs =>
    match LastIndexByte xs c with
    | some i => some (i + 1)
    | none => if x = c then some 0 else none

/-- `strings.Index(s, sub)`, with `none` for the result `-1`. -/
def Index (s sub : GoString) : Option Nat :=
  match s with
  | [] => if sub = [] then some 0 else none
  | x :: xs =>
    if sub.isPrefixOf (x :: xs) then some 0
    else (Index xs sub).map (fun i => i + 1)

/-- `strings.HasPrefix(s, p)`. -/
def startsWith (s p : GoString) : Bool := p.isPrefixOf s

/-- `strings.HasSuffix(s, p)`. -/
def endsWith (s p : GoString) : Bool := p.isSuffixOf s

/-- `strings.ToLower` on ASCII text. -/
def ToLower (s : GoString) : GoString :=
  s.map (fun c => if 'A'.toNat ≤ c ∧ c ≤ 'Z'.toNat then c + 32 else c)

/-- Byte-wise lexicographic order of Go strings (`s < t`). -/
def strLt : GoString → GoString → Bool
  | [], [] => false
  | [], _ :: _ => true
  | _ :: _, [] => false
  | a :: s, b :: t => if a < b then true else if b < a then false else strLt s t

/-! ## Errors -/

/-- The error values the package can return. -/
inductive Error where
  /-- `ErrAPIKeyFormat`: "Invalid API key format". -/
  | ErrAPIKeyFormat
  /-- net/url: invalid control character in URL. -/
  | urlControlCharacter
  /-- net/url: missing protocol scheme. -/
  | urlMissingScheme
  /-- net/url: first path segment in URL cannot contain colon. -/
  | urlColonInFirstSegment
  /-- net/url `EscapeError`: invalid URL escape. -/
  | urlEscapeError (s : GoString)
  /-- net/url `InvalidHostError`: invalid character in host name. -/
  | urlInvalidHostError (s : GoString)
  /-- net/url: missing `]` in host. -/
  | urlMissingBracket
  /-- net/url: invalid port after host. -/
  | urlInvalidPort (s : GoString)
  /-- net/url: invalid userinfo. -/
  | urlInvalidUserinfo
  /-- net/http: invalid method. -/
  | httpInvalidMethod (m : GoString)
  /-- An error of `query.Values` (go-querystring). -/
  | queryValues (code : Nat)
  /-- An error of `json.Marshal`. -/
  | jsonMarshal (code : Nat)
  /-- An error of the HTTP transport (`http.Client.Do`). -/
  | transport (code : Nat)
  /-- encoding/json `SyntaxError`. -/
  | jsonSyntax
  /-- `io.EOF`: the body holds no JSON value. -/
  | EOF
  /-- `io.ErrUnexpectedEOF`: the body ends inside a JSON value. -/
  | ErrUnexpectedEOF
  /-- encoding/json `UnmarshalTypeError` for the named struct field
  (empty for the top-level value). -/
  | jsonUnmarshalType (field : GoString)
  deriving DecidableEq, Repr

/-! ## net/url: escaping -/

/-- The escaping modes of net/url. -/
inductive encoding where
  | encodePath
  | encodePathSegment
  | encodeHost
  | encodeZone
  | encodeUserPassword
  | encodeQueryComponent
  | encodeFragment
  deriving DecidableEq, Repr

open encoding

/-- ASCII letter or digit. -/
def isAlnum (c : Nat) : Bool :=
  ('a'.toNat ≤ c ∧ c ≤ 'z'.toNat) ∨ ('A'.toNat ≤ c ∧ c ≤ 'Z'.toNat) ∨
    ('0'.toNat ≤ c ∧ c ≤ '9'.toNat)

/-- The net/url function `shouldEscape(c, mode)`: whether the byte `c` is
percent-escaped when it appears in the part of a URL given by `mode`. -/
def shouldEscape (c : Nat) (mode : encoding) : Bool :=
  if isAlnum c then false
  else if (mode = encodeHost ∨ mode = encodeZone) ∧
      c ∈ ['!'.toNat, '$'.toNat, '&'.toNat, 39, '('.toNat, ')'.toNat, '*'.toNat,
        '+'.toNat, ','.toNat, ';'.toNat, '='.toNat, ':'.toNat, '['.toNat,
        ']'.toNat, '<'.toNat, '>'.toNat, '"'.toNat] then false
  else if c ∈ ['-'.toNat, '_'.toNat, '.'.toNat, '~'.toNat] then false
  else if c ∈ ['$'.toNat, '&'.toNat, '+'.toNat, ','.toNat, '/'.toNat, ':'.toNat,
      ';'.toNat, '='.toNat, '?'.toNat, '@'.toNat] then
    match mode with
    | encodePath => c = '?'.toNat
    | encodePathSegment =>
      c = '/'.toNat ∨ c = ';'.toNat ∨ c = ','.toNat ∨ c = '?'.toNat
    | encodeUserPassword =>
      c = '@'.toNat ∨ c = '/'.toNat ∨ c = '?'.toNat ∨ c = ':'.toNat
    | encodeQueryComponent => true
    | encodeFragment => false
    | _ => true
  else if mode = encodeFragment ∧
      c ∈ ['!'.toNat, '('.toNat, ')'.toNat, '*'.toNat] then false
  else true

/-- The digit of `"0123456789ABCDEF"` at index `n`. -/
def upperhex (n : Nat) : Nat :=
  if n < 10 then '0'.toNat + n else 'A'.toNat + (n - 10)

/-- The net/url function `ishex`. -/
def ishex (c : Nat) : Bool :=
  ('0'.toNat ≤ c ∧ c ≤ '9'.toNat) ∨ ('a'.toNat ≤ c ∧ c ≤ 'f'.toNat) ∨
    ('A'.toNat ≤ c ∧ c ≤ 'F'.toNat)

/-- The net/url function `unhex`. -/
def unhex (c : Nat) : Nat :=
  if '0'.toNat ≤ c ∧ c ≤ '9'.toNat then c - '0'.toNat
  else if 'a'.toNat ≤ c ∧ c ≤ 'f'.toNat then c - 'a'.toNat + 10
  else if 'A'.toNat ≤ c ∧ c ≤ 'F'.toNat then c - 'A'.toNat + 10
  else 0

/-- The net/url function `escape(s, mode)`: a space becomes `+` in a query
component, every other byte that `shouldEscape` names becomes `%XX`. -/
def escape (s : GoString) (mode : encoding) : GoString :=
  match s with
  | [] => []
  | c :: cs =>
    if c = ' '.toNat ∧ mode = encodeQueryComponent then '+'.toNat :: escape cs mode
    else if shouldEscape c mode then
      '%'.toNat :: upperhex (c / 16) :: upperhex (c % 16) :: escape cs mode
    else c :: escape cs mode

/-- The first loop of the net/url function `unescape(s, mode)`: the check
that every `%` starts a well-formed escape and that a host holds no byte
that may not stand there. -/
def unescapeCheck (s : GoString) (mode : encoding) : Option Error :=
  match s with
  | [] => none
  | c :: cs =>
    if c = '%'.toNat then
      match cs with
      | h1 :: h2 :: tl =>
        if !(ishex h1 && ishex h2) then some (Error.urlEscapeError [c, h1, h2])
        else if mode = encodeHost ∧ unhex h1 < 8 ∧ [c, h1, h2] ≠ lit "%25" then
          some (Error.urlEscapeError [c, h1, h2])
        else if mode = encodeZone ∧ [c, h1, h2] ≠ lit "%25" ∧
            unhex h1 * 16 + unhex h2 ≠ ' '.toNat ∧
            shouldEscape (unhex h1 * 16 + unhex h2) encodeHost then
          some (Error.urlEscapeError [c, h1, h2])
        else unescapeCheck tl mode
      | _ => some (Error.urlEscapeError (c :: cs))
    else if c = '+'.toNat then unescapeCheck cs mode
    else if (mode = encodeHost ∨ mode = encodeZone) ∧ c < 128 ∧
        shouldEscape c encodeHost then
      some (Error.urlInvalidHostError [c])
    else unescapeCheck cs mode

/-- The second loop of the net/url function `unescape(s, mode)`: `%XX`
becomes the byte `XX`, and `+` a space in a query component. -/
def unescapeBytes (s : GoString) (mode : encoding) : GoString :=
  match s with
  | [] => []
  | c :: cs =>
    if c = '%'.toNat then
      match cs with
      | h1 :: h2 :: tl => (unhex h1 * 16 + unhex h2) :: unescapeBytes tl mode
      | _ => []
    else if c = '+'.toNat then
      (if mode = encodeQueryComponent then ' '.toNat else '+'.toNat) ::
        unescapeBytes cs mode
    else c :: unescapeBytes cs mode

/-- The net/url function `unescape(s, mode)`. -/
def unescape (s : GoString) (mode : encoding) : Except Error GoString :=
  match unescapeCheck s mode with
  | some e => .error e
  | none => .ok (unescapeBytes s mode)

/-- The net/url function `validEncoded(s, mode)`. -/
def validEncoded (s : GoString) (mode : encoding) : Bool :=
  s.all (fun c =>
    if c ∈ ['!'.toNat, '$'.toNat, '&'.toNat, 39, '('.toNat, ')'.toNat,
        '*'.toNat, '+'.toNat, ','.toNat, ';'.toNat, '='.toNat, ':'.toNat,
        '@'.toNat, '['.toNat, ']'.toNat, '%'.toNat] then true
    else !shouldEscape c mode)

/-- `url.QueryEscape`. -/
def QueryEscape (s : GoString) : GoString := escape s encodeQueryComponent

/-- `url.QueryUnescape`. -/
def QueryUnescape (s : GoString) : Except Error GoString :=
  unescape s encodeQueryComponent

/-! ## net/url: the URL type, `Parse`, `String`, `ResolveReference` -/

/-- `url.Userinfo`. -/
structure Userinfo where
  username : GoString
  password : GoString
  passwordSet : Bool
  deriving DecidableEq, Repr

/-- `url.URL`. -/
structure URL where
  Scheme : GoString
  Opaque : GoString
  User : Option Userinfo
  Host : GoString
  Path : GoString
  RawPath : GoString
  OmitHost : Bool
  ForceQuery : Bool
  RawQuery : GoString
  Fragment : GoString
  RawFragment : GoString
  deriving DecidableEq, Repr

/-- The zero value of `url.URL` (`new(URL)`). -/
def URL.zero : URL :=
  { Scheme := [], Opaque := [], User := none, Host := [], Path := [], RawPath := [],
    OmitHost := false, ForceQuery := false, RawQuery := [], Fragment := [],
    RawFragment := [] }

/-- The net/url function `stringContainsCTLByte`. -/
def stringContainsCTLByte (s : GoString) : Bool :=
  s.any (fun b => b < ' '.toNat ∨ b = 0x7f)

/-- The loop of the net/url function `getScheme`, at index `i` of `rawURL`
with `s` the text from `i` on. -/
def getSchemeLoop (rawURL s : GoString) (i : Nat) : Except Error (GoString × GoString) :=
  match s with
  | [] => .ok ([], rawURL)
  | c :: cs =>
    if ('a'.toNat ≤ c ∧ c ≤ 'z'.toNat) ∨ ('A'.toNat ≤ c ∧ c ≤ 'Z'.toNat) then
      getSchemeLoop rawURL cs (i + 1)
    else if ('0'.toNat ≤ c ∧ c ≤ '9'.toNat) ∨ c = '+'.toNat ∨ c = '-'.toNat ∨
        c = '.'.toNat then
      if i = 0 then .ok ([], rawURL) else getSchemeLoop rawURL cs (i + 1)
    else if c = ':'.toNat then
      if i = 0 then .error Error.urlMissingScheme
      else .ok (rawURL.take i, rawURL.drop (i + 1))
    else .ok ([], rawURL)

/-- The net/url function `getScheme`: the scheme before the first `:` and the
rest, or no scheme when the text before it is not a scheme name. -/
def getScheme (rawURL : GoString) : Except Error (GoString × GoString) :=
  getSchemeLoop rawURL rawURL 0

/-- The net/url function `validOptionalPort`. -/
def validOptionalPort (port : GoString) : Bool :=
  match port with
  | [] => true
  | c :: rest =>
    if c ≠ ':'.toNat then false
    else rest.all (fun b => !(decide (b < '0'.toNat) || decide (b > '9'.toNat)))

/-- The net/url function `validUserinfo`. -/
def validUserinfo (s : GoString) : Bool :=
  s.all (fun r => isAlnum r ||
    decide (r ∈ ['-'.toNat, '.'.toNat, '_'.toNat, ':'.toNat, '~'.toNat, '!'.toNat,
      '$'.toNat, '&'.toNat, 39, '('.toNat, ')'.toNat, '*'.toNat, '+'.toNat,
      ','.toNat, ';'.toNat, '='.toNat, '%'.toNat, '@'.toNat]))

/-- The net/url function `parseHost`. -/
def parseHost (host : GoString) : Except Error GoString :=
  if startsWith host (lit "[") then
    match LastIndexByte host ']'.toNat with
    | none => .error Error.urlMissingBracket
    | some i =>
      let colonPort := host.drop (i + 1)
      if !validOptionalPort colonPort then .error (Error.urlInvalidPort colonPort)
      else
        match Index (host.take i) (lit "%25") with
        | some zone =>
          match unescape (host.take zone) encodeHost with
          | .error e => .error e
          | .ok host1 =>
            match unescape ((host.take i).drop zone) encodeZone with
            | .error e => .error e
            | .ok host2 =>
              match unescape (host.drop i) encodeHost with
              | .error e => .error e
              | .ok host3 => .ok (host1 ++ host2 ++ host3)
        | none => unescape host encodeHost
  else
    match LastIndexByte host ':'.toNat with
    | some i =>
      let colonPort := host.drop i
      if !validOptionalPort colonPort then .error (Error.urlInvalidPort colonPort)
      else unescape host encodeHost
    | none => unescape host encodeHost

/-- The net/url function `parseAuthority`: user information and host of
`[userinfo@]host`. -/
def parseAuthority (authority : GoString) : Except Error (Option Userinfo × GoString) :=
  match LastIndexByte authority '@'.toNat with
  | none =>
    match parseHost authority with
    | .error e => .error e
    | .ok host => .ok (none, host)
  | some i =>
    match parseHost (authority.drop (i + 1)) with
    | .error e => .error e
    | .ok host =>
      let userinfo := authority.take i
      if !validUserinfo userinfo then .error Error.urlInvalidUserinfo
      else if !userinfo.contains ':'.toNat then
        match unescape userinfo encodeUserPassword with
        | .error e => .error e
        | .ok u => .ok (some { username := u, password := [], passwordSet := false }, host)
      else
        match unescape (Cut userinfo ':'.toNat).1 encodeUserPassword with
        | .error e => .error e
        | .ok username =>
          match unescape (Cut userinfo ':'.toNat).2.1 encodeUserPassword with
          | .error e => .error e
          | .ok password =>
            .ok (some { username := username, password := password, passwordSet := true },
              host)

/-- The method `(*URL).setPath`: sets `Path` to the unescaped text and keeps
the given text as `RawPath` when it is not the default escaping of `Path`. -/
def URL.setPath (u : URL) (p : GoString) : Except Error URL :=
  match unescape p encodePath with
  | .error e => .error e
  | .ok path =>
    .ok { u with Path := path, RawPath := if p = escape path encodePath then [] else p }

/-- The method `(*URL).setFragment`. -/
def URL.setFragment (u : URL) (f : GoString) : Except Error URL :=
  match unescape f encodeFragment with
  | .error e => .error e
  | .ok frag =>
    .ok { u with Fragment := frag,
                 RawFragment := if f = escape frag encodeFragment then [] else f }

/-- The net/url function `parse(rawURL, viaRequest)` at `viaRequest = false`,
the way `url.Parse` calls it, on a URL without its fragment. -/
def parse (rawURL : GoString) : Except Error URL :=
  if stringContainsCTLByte rawURL then .error Error.urlControlCharacter
  else if rawURL = lit "*" then .ok { URL.zero with Path := lit "*" }
  else
    match getScheme rawURL with
    | .error e => .error e
    | .ok (scheme, rest0) =>
      let url : URL := { URL.zero with Scheme := ToLower scheme }
      let forced : Bool := endsWith rest0 (lit "?") && rest0.count '?'.toNat == 1
      let rest : GoString := if forced then rest0.dropLast else (Cut rest0 '?'.toNat).1
      let url : URL :=
        if forced then { url with ForceQuery := true }
        else { url with RawQuery := (Cut rest0 '?'.toNat).2.1 }
      if !startsWith rest (lit "/") ∧ url.Scheme ≠ [] then
        .ok { url with Opaque := rest }
      else if !startsWith rest (lit "/") ∧ (Cut rest '/'.toNat).1.contains ':'.toNat then
        .error Error.urlColonInFirstSegment
      else if (url.Scheme ≠ [] ∨ !startsWith rest (lit "///")) ∧
          startsWith rest (lit "//") then
        let authority := (rest.drop 2).takeWhile (fun c => c != '/'.toNat)
        let rest := (rest.drop 2).dropWhile (fun c => c != '/'.toNat)
        match parseAuthority authority with
        | .error e => .error e
        | .ok (user, host) => URL.setPath { url with User := user, Host := host } rest
      else if url.Scheme ≠ [] ∧ startsWith rest (lit "/") then
        URL.setPath { url with OmitHost := true } rest
      else URL.setPath url rest

/-- `url.Parse(rawURL)`: cuts off the fragment, parses the rest and sets the
fragment. -/
def Parse (rawURL : GoString) : Except Error URL :=
  match parse (Cut rawURL '#'.toNat).1 with
  | .error e => .error e
  | .ok url =>
    if (Cut rawURL '#'.toNat).2.1 = [] then .ok url
    else URL.setFragment url (Cut rawURL '#'.toNat).2.1

/-- Whether `unescape(raw, mode)` succeeds with the result `text`. -/
def unescapesTo (raw text : GoString) (mode : encoding) : Bool :=
  match unescape raw mode with
  | .ok p => p = text
  | .error _ => false

/-- The method `(*URL).EscapedPath`. -/
def URL.EscapedPath (u : URL) : GoString :=
  if u.RawPath ≠ [] ∧ validEncoded u.RawPath encodePath ∧
      unescapesTo u.RawPath u.Path encodePath then u.RawPath
  else if u.Path = lit "*" then lit "*"
  else escape u.Path encodePath

/-- The method `(*URL).EscapedFragment`. -/
def URL.EscapedFragment (u : URL) : GoString :=
  if u.RawFragment ≠ [] ∧ validEncoded u.RawFragment encodeFragment ∧
      unescapesTo u.RawFragment u.Fragment encodeFragment then u.RawFragment
  else escape u.Fragment encodeFragment

/-- The method `(*Userinfo).String`. -/
def Userinfo.String (u : Userinfo) : GoString :=
  escape u.username encodeUserPassword ++
    (if u.passwordSet then ':'.toNat :: escape u.password encodeUserPassword else [])

/-- The method `(*URL).String`: the URL reassembled as
`scheme://userinfo@host/path?query#fragment`. -/
def URL.String (u : URL) : GoString :=
  let buf : GoString := if u.Scheme ≠ [] then u.Scheme ++ lit ":" else []
  let buf : GoString :=
    if u.Opaque ≠ [] then buf ++ u.Opaque
    else
      let buf : GoString :=
        if u.Scheme ≠ [] ∨ u.Host ≠ [] ∨ u.User ≠ none then
          if u.OmitHost ∧ u.Host = [] ∧ u.User = none then buf
          else
            buf ++ (if u.Host ≠ [] ∨ u.Path ≠ [] ∨ u.User ≠ none then lit "//" else [])
              ++ (match u.User with
                  | some ui => ui.String ++ lit "@"
                  | none => [])
              ++ (if u.Host ≠ [] then escape u.Host encodeHost else [])
        else buf
      let path := u.EscapedPath
      let buf : GoString :=
        if path ≠ [] ∧ path.head? ≠ some '/'.toNat ∧ u.Host ≠ [] then buf ++ lit "/"
        else buf
      let buf : GoString :=
        if buf = [] ∧ (Cut path '/'.toNat).1.contains ':'.toNat then buf ++ lit "./"
        else buf
      buf ++ path
  let buf : GoString :=
    if u.ForceQuery ∨ u.RawQuery ≠ [] then buf ++ lit "?" ++ u.RawQuery else buf
  if u.Fragment ≠ [] then buf ++ lit "#" ++ u.EscapedFragment else buf

/-- One round of the loop of the net/url function `resolvePath`, on the path
element `elem`: the state is the text written so far and the flag `first`. -/
def resolveStep (st : GoString × Bool) (elem : GoString) : GoString × Bool :=
  if elem = lit "." then (st.1, false)
  else if elem = lit ".." then
    match LastIndexByte (st.1.drop 1) '/'.toNat with
    | none => (lit "/", true)
    | some index => (lit "/" ++ (st.1.drop 1).take index, st.2)
  else ((if !st.2 then st.1 ++ lit "/" else st.1) ++ elem, false)

/-- The first part of the net/url function `resolvePath(base, ref)`: the
path `full`, which is `base` for an empty `ref`, `ref` put behind the last
`/` of `base` for a relative `ref`, and `ref` itself when it starts with
`/`. -/
def resolveFull (base ref : GoString) : GoString :=
  if ref = [] then base
  else if ref.head? ≠ some '/'.toNat then
    base.take (((LastIndexByte base '/'.toNat).map (fun i => i + 1)).getD 0) ++ ref
  else ref

/-- The net/url function `resolvePath(base, ref)`: `ref` is appended to the
directory of `base` when it is relative, and the dot segments are removed. -/
def resolvePath (base ref : GoString) : GoString :=
  let full : GoString := resolveFull base ref
  if full = [] then []
  else
    let elems := Split full '/'.toNat
    let dst := (elems.foldl resolveStep (lit "/", true)).1
    let dst :=
      if elems.getLast? = some (lit ".") ∨ elems.getLast? = some (lit "..") then
        dst ++ lit "/"
      else dst
    if dst.length > 1 ∧ (dst.drop 1).head? = some '/'.toNat then dst.drop 1 else dst

/-- The method `(*URL).ResolveReference`: the reference `ref` resolved
against the base URL `u` (RFC 3986 section 5.2). -/
def URL.ResolveReference (u ref : URL) : URL :=
  let url : URL := if ref.Scheme = [] then { ref with Scheme := u.Scheme } else ref
  if ref.Scheme ≠ [] ∨ ref.Host ≠ [] ∨ ref.User ≠ none then
    match URL.setPath url (resolvePath ref.EscapedPath []) with
    | .ok r => r
    | .error _ => url
  else if ref.Opaque ≠ [] then { url with User := none, Host := [], Path := [] }
  else
    let url : URL :=
      if ref.Path = [] ∧ !ref.ForceQuery ∧ ref.RawQuery = [] then
        if ref.Fragment = [] then
          { url with RawQuery := u.RawQuery, Fragment := u.Fragment,
                     RawFragment := u.RawFragment }
        else { url with RawQuery := u.RawQuery }
      else url
    if ref.Path = [] ∧ u.Opaque ≠ [] then
      { url with Opaque := u.Opaque, User := none, Host := [], Path := [] }
    else
      let url : URL := { url with Host := u.Host, User := u.User }
      match URL.setPath url (resolvePath u.EscapedPath ref.EscapedPath) with
      | .ok r => r
      | .error _ => url

/-! ## net/url: query values -/

/-- `url.Values`, a `map[string][]string`: the keys with their lists of
values, no key twice. -/
abbrev Values := List (GoString × List GoString)

/-- The map index `v[key]`: the values of `key`, none for a missing key. -/
def Values.lookup (v : Values) (key : GoString) : List GoString :=
  match v with
  | [] => []
  | (k, vs) :: rest => if k = key then vs else Values.lookup rest key

/-- `Values.Add(key, value)`: `v[key] = append(v[key], value)`. -/
def Values.Add (v : Values) (key value : GoString) : Values :=
  match v with
  | [] => [(key, [value])]
  | (k, vs) :: rest =>
    if k = key then (k, vs ++ [value]) :: rest else (k, vs) :: Values.Add rest key value

/-- One round of the loop of the net/url function `parseQuery`, on the text
`piece` between two `&`: a malformed pair is skipped. -/
def parseQueryStep (m : Values) (piece : GoString) : Values :=
  if piece.contains ';'.toNat then m
  else if piece = [] then m
  else
    match QueryUnescape (Cut piece '='.toNat).1 with
    | .error _ => m
    | .ok key =>
      match QueryUnescape (Cut piece '='.toNat).2.1 with
      | .error _ => m
      | .ok value => Values.Add m key value

/-- The method `(*URL).Query`: `RawQuery` parsed by `url.ParseQuery`, the
error dropped. -/
def URL.Query (u : URL) : Values :=
  (Split u.RawQuery '&'.toNat).foldl parseQueryStep []

/-- Insertion of a key into a sorted list of keys. -/
def insertKey (k : GoString) : List GoString → List GoString
  | [] => [k]
  | x :: xs => if strLt x k then x :: insertKey k xs else k :: x :: xs

/-- The keys in ascending order (`slices.Sort(keys)`). -/
def sortKeys (keys : List GoString) : List GoString :=
  keys.foldr insertKey []

/-- `Values.Encode()`: `key=value` pairs, escaped, joined by `&`, in the
order of the sorted keys and for each key in the order of its values. -/
def Values.Encode (v : Values) : GoString :=
  Join ((sortKeys (v.map Prod.fst)).flatMap (fun k =>
    (Values.lookup v k).map (fun x => QueryEscape k ++ '='.toNat :: QueryEscape x)))
    '&'.toNat

/-! ## encoding/base64 -/

/-- The character of the standard base64 alphabet with index `n`. -/
def encodeStd (n : Nat) : Nat :=
  if n < 26 then 'A'.toNat + n
  else if n < 52 then 'a'.toNat + (n - 26)
  else if n < 62 then '0'.toNat + (n - 52)
  else if n = 62 then '+'.toNat
  else '/'.toNat

/-- `base64.StdEncoding.EncodeToString`. -/
def EncodeToString : GoString → GoString
  | [] => []
  | [a] => [encodeStd (a / 4), encodeStd (a % 4 * 16), '='.toNat, '='.toNat]
  | [a, b] =>
    [encodeStd (a / 4), encodeStd (a % 4 * 16 + b / 16), encodeStd (b % 16 * 4), '='.toNat]
  | a :: b :: c :: rest =>
    encodeStd (a / 4) :: encodeStd (a % 4 * 16 + b / 16) ::
      encodeStd (b % 16 * 4 + c / 64) :: encodeStd (c % 64) :: EncodeToString rest

/-! ## net/http: requests -/

/-- `http.Header`, a `map[string][]string`. -/
abbrev Header := List (GoString × List GoString)

/-- `Header.Add(key, value)` for a key in canonical form. -/
def Header.Add (h : Header) (key value : GoString) : Header := Values.Add h key value

/-- `Header.Set(key, value)` for a key in canonical form: the values of the
key are replaced by the one value. -/
def Header.Set (h : Header) (key value : GoString) : Header :=
  match h with
  | [] => [(key, [value])]
  | (k, vs) :: rest =>
    if k = key then (k, [value]) :: rest else (k, vs) :: Header.Set rest key value

/-- `http.Request`, the fields this package sets or reads. -/
structure Request where
  Method : GoString
  URL : URL
  Header : Header
  Body : GoString
  Host : GoString
  deriving DecidableEq, Repr

/-- `http.Response`: the status code and the bytes of the body. -/
structure Response where
  StatusCode : Nat
  Body : GoString
  deriving DecidableEq, Repr

/-- `httpguts.IsTokenRune` on a byte: the characters an HTTP method may
hold. -/
def isTokenByte (c : Nat) : Bool :=
  isAlnum c ||
    decide (c ∈ ['!'.toNat, '#'.toNat, '$'.toNat, '%'.toNat, '&'.toNat, 39, '*'.toNat,
      '+'.toNat, '-'.toNat, '.'.toNat, '^'.toNat, '_'.toNat, 96, '|'.toNat, '~'.toNat])

/-- The net/http function `validMethod`. -/
def validMethod (method : GoString) : Bool :=
  decide (method.length > 0) && method.all isTokenByte

/-- The net/http function `removeEmptyPort`: `host:` becomes `host`. -/
def removeEmptyPort (host : GoString) : GoString :=
  let hasPort : Bool :=
    match LastIndexByte host ':'.toNat, LastIndexByte host ']'.toNat with
    | some i, some j => decide (i > j)
    | some _, none => true
    | none, _ => false
  if hasPort ∧ endsWith host (lit ":") then host.dropLast else host

/-- `http.NewRequest(method, url, body)` with the bytes of a `*bytes.Buffer`
as the body: an empty method stands for `GET`, the method must be a token,
the URL must parse; the request starts with an empty header. -/
def http.NewRequest (method url body : GoString) : Except Error Request :=
  let method := if method = [] then lit "GET" else method
  if !validMethod method then .error (Error.httpInvalidMethod method)
  else
    match Parse url with
    | .error e => .error e
    | .ok u =>
      let u : URL := { u with Host := removeEmptyPort u.Host }
      .ok { Method := method, URL := u, Header := [], Body := body, Host := u.Host }

/-- `(*Request).SetBasicAuth(username, password)`: the `Authorization` header
is set to `Basic ` and the base64 text of `username:password`. -/
def Request.SetBasicAuth (r : Request) (username password : GoString) : Request :=
  let auth := username ++ lit ":" ++ password
  { r with Header := Header.Set r.Header (lit "Authorization") (lit "Basic " ++ EncodeToString auth) }

/-! ## encoding/json: reading a value -/

/-- A JSON value, as the decoder reads it from the input. -/
inductive JSON where
  | null
  | bool (b : Bool)
  | number (text : GoString)
  | string (s : GoString)
  | array (elems : List JSON)
  | object (members : List (GoString × JSON))

/-- JSON white space: space, tab, carriage return, line feed. -/
def isSpace (c : Nat) : Bool := c = ' '.toNat ∨ c = 9 ∨ c = 13 ∨ c = 10

/-- The input without its leading white space. -/
def skipSpace (s : GoString) : GoString := s.dropWhile isSpace

/-- The error for input that cannot continue a JSON value: the unexpected
end of the input, or a syntax error at a byte. -/
def syntaxError (s : GoString) : Error :=
  if s = [] then Error.ErrUnexpectedEOF else Error.jsonSyntax

/-- The constant `utf8.RuneError`, the replacement character U+FFFD. -/
def RuneError : Nat := 0xFFFD

/-- The constant `maxNestingDepth` of the scanner of encoding/json. -/
def maxNestingDepth : Nat := 10000

/-- `utf8.EncodeRune`: the UTF-8 bytes of the code point `r`; a surrogate or
a value above U+10FFFF is written as `RuneError`. -/
def EncodeRune (r : Nat) : GoString :=
  if r < 0x80 then [r]
  else if r < 0x800 then [0xC0 + r / 64, 0x80 + r % 64]
  else if 0x10FFFF < r ∨ (0xD800 ≤ r ∧ r ≤ 0xDFFF) then [0xEF, 0xBF, 0xBD]
  else if r < 0x10000 then [0xE0 + r / 4096, 0x80 + r / 64 % 64, 0x80 + r % 64]
  else [0xF0 + r / 262144, 0x80 + r / 4096 % 64, 0x80 + r / 64 % 64, 0x80 + r % 64]

/-- The table `first` of unicode/utf8: for the first byte of a sequence, `0xF0`
for ASCII, `0xF1` for a byte that starts no sequence, and else the length of
the sequence in the low bits and the index of the range of the second byte in
the high bits. -/
def first (b : Nat) : Nat :=
  if b < 0x80 then 0xF0
  else if b < 0xC2 then 0xF1
  else if b < 0xE0 then 0x02
  else if b = 0xE0 then 0x13
  else if b < 0xED then 0x03
  else if b = 0xED then 0x23
  else if b < 0xF0 then 0x03
  else if b = 0xF0 then 0x34
  else if b < 0xF4 then 0x04
  else if b = 0xF4 then 0x44
  else 0xF1

/-- The table `acceptRanges` of unicode/utf8: the lowest and the highest
second byte of a sequence. -/
def acceptRanges (i : Nat) : Nat × Nat :=
  if i = 0 then (0x80, 0xBF)
  else if i = 1 then (0xA0, 0xBF)
  else if i = 2 then (0x80, 0x9F)
  else if i = 3 then (0x90, 0xBF)
  else if i = 4 then (0x80, 0x8F)
  else (0, 0)

/-- `utf8.DecodeRune(p)`: the code point of the UTF-8 sequence at the start of
`p` and the number of its bytes; `(RuneError, 1)` when the bytes at the start
are no well-formed sequence, `(RuneError, 0)` for the empty input. -/
def DecodeRune (p : GoString) : Nat × Nat :=
  match p with
  | [] => (RuneError, 0)
  | p0 :: t0 =>
    if first p0 ≥ 0xF0 then (if first p0 = 0xF1 then RuneError else p0, 1)
    else if (p0 :: t0).length < first p0 % 8 then (RuneError, 1)
    else
      match t0 with
      | [] => (RuneError, 1)
      | b1 :: t1 =>
        if b1 < (acceptRanges (first p0 / 16)).1 ∨ (acceptRanges (first p0 / 16)).2 < b1 then
          (RuneError, 1)
        else if first p0 % 8 ≤ 2 then (p0 % 32 * 64 + b1 % 64, 2)
        else
          match t1 with
          | [] => (RuneError, 1)
          | b2 :: t2 =>
            if b2 < 0x80 ∨ 0xBF < b2 then (RuneError, 1)
            else if first p0 % 8 ≤ 3 then (p0 % 16 * 4096 + b1 % 64 * 64 + b2 % 64, 3)
            else
              match t2 with
              | [] => (RuneError, 1)
              | b3 :: _ =>
                if b3 < 0x80 ∨ 0xBF < b3 then (RuneError, 1)
                else (p0 % 8 * 262144 + b1 % 64 * 4096 + b2 % 64 * 64 + b3 % 64, 4)

/-- The value of four hexadecimal digits, if they are such. -/
def hex4 (a b c d : Nat) : Option Nat :=
  if ishex a && ishex b && ishex c && ishex d then
    some (((unhex a * 16 + unhex b) * 16 + unhex c) * 16 + unhex d)
  else none

/-- The escape `\e` of a JSON string for a byte `e` other than `u`. -/
def plainEscape (e : Nat) : Option Nat :=
  if e = '"'.toNat then some '"'.toNat
  else if e = 92 then some 92
  else if e = '/'.toNat then some '/'.toNat
  else if e = 'b'.toNat then some 8
  else if e = 'f'.toNat then some 12
  else if e = 'n'.toNat then some 10
  else if e = 'r'.toNat then some 13
  else if e = 't'.toNat then some 9
  else none

/-- The low surrogate that follows in the input as a `\u` escape of six
bytes, if one does. -/
def lowSurrogate (s : GoString) : Option Nat :=
  match s with
  | b :: u :: a2 :: b2 :: c2 :: d2 :: _ =>
    if b = 92 ∧ u = 'u'.toNat then
      match hex4 a2 b2 c2 d2 with
      | some r2 => if 0xDC00 ≤ r2 ∧ r2 < 0xE000 then some r2 else none
      | none => none
    else none
  | _ => none

/-- The text `t` put behind the bytes `pre` in the result of reading the
rest of a string. -/
def consBytes (pre : GoString) (r : Except Error (GoString × GoString)) :
    Except Error (GoString × GoString) :=
  match r with
  | .error err => .error err
  | .ok (t, after) => .ok (pre ++ t, after)

/-- One round of reading a JSON string. -/
inductive StringStep where
  /-- The closing quote was read; the input after it. -/
  | done (rest : GoString)
  /-- The bytes of a character or an escape were read; the input after it. -/
  | emit (bytes : GoString) (rest : GoString)
  /-- The input cannot go on as a string. -/
  | fail (err : Error)

/-- One round of reading the text of a JSON string, as the scanner checks
it and `unquoteBytes` decodes it: the closing quote, an ASCII byte, an
escape, or a UTF-8 sequence. A lone surrogate of a `\u` escape and a byte
that is not part of well-formed UTF-8 become U+FFFD. The UTF-8 sequence is
decoded from the rest of the input: every byte of a sequence after the first
is `0x80` or above, so no sequence reaches over the closing quote, and the
result is that of `utf8.DecodeRune` on the text of the string. -/
def stringStep (s : GoString) : StringStep :=
  match s with
  | [] => .fail Error.ErrUnexpectedEOF
  | c :: cs =>
    if c = '"'.toNat then .done cs
    else if c < 0x20 then .fail Error.jsonSyntax
    else if c = 92 then
      match cs with
      | [] => .fail Error.ErrUnexpectedEOF
      | e :: rest =>
        if e = 'u'.toNat then
          match rest with
          | a :: b :: c2 :: d :: rest2 =>
            match hex4 a b c2 d with
            | none => .fail Error.jsonSyntax
            | some r =>
              if 0xD800 ≤ r ∧ r < 0xDC00 then
                match lowSurrogate rest2 with
                | some r2 =>
                  .emit (EncodeRune ((r - 0xD800) * 1024 + (r2 - 0xDC00) + 0x10000))
                    (rest2.drop 6)
                | none => .emit (EncodeRune RuneError) rest2
              else .emit (EncodeRune (if 0xDC00 ≤ r ∧ r < 0xE000 then RuneError else r)) rest2
          | _ =>
            .fail (if rest.all ishex then Error.ErrUnexpectedEOF else Error.jsonSyntax)
        else
          match plainEscape e with
          | none => .fail Error.jsonSyntax
          | some b => .emit [b] rest
    else if c < 0x80 then .emit [c] cs
    else .emit (EncodeRune (DecodeRune (c :: cs)).1) ((c :: cs).drop (DecodeRune (c :: cs)).2)

/-- The text of a JSON string after its opening quote, read in at most
`fuel` rounds: the bytes up to the closing quote with the escapes replaced,
and the input after the quote. -/
def readStringFuel (fuel : Nat) (s : GoString) : Except Error (GoString × GoString) :=
  match fuel with
  | 0 => .error Error.ErrUnexpectedEOF
  | fuel + 1 =>
    match stringStep s with
    | .done rest => .ok ([], rest)
    | .emit bytes rest => consBytes bytes (readStringFuel fuel rest)
    | .fail err => .error err

/-- The text of a JSON string after its opening quote; every round of
`readStringFuel` uses up a byte, so the length of the input is fuel enough
(`readStringFuel_fuel`). -/
def readString (s : GoString) : Except Error (GoString × GoString) :=
  readStringFuel s.length s

/-- ASCII digit. -/
def isDigit (c : Nat) : Bool := '0'.toNat ≤ c ∧ c ≤ '9'.toNat

/-- A run of digits that must not be empty, and the input after it. -/
def readDigits (s : GoString) : Except Error (GoString × GoString) :=
  if s.takeWhile isDigit = [] then .error (syntaxError s)
  else .ok (s.takeWhile isDigit, s.dropWhile isDigit)

/-- The optional fraction and exponent of a JSON number. -/
def readFracExp (s : GoString) : Except Error (GoString × GoString) :=
  let frac : Except Error (GoString × GoString) :=
    match s with
    | c :: cs =>
      if c = '.'.toNat then
        match readDigits cs with
        | .error e => .error e
        | .ok (ds, rest) => .ok (c :: ds, rest)
      else .ok ([], s)
    | [] => .ok ([], s)
  match frac with
  | .error e => .error e
  | .ok (f, rest) =>
    match rest with
    | e :: r =>
      if e = 'e'.toNat ∨ e = 'E'.toNat then
        let sign : GoString := r.takeWhile (fun c => c = '+'.toNat ∨ c = '-'.toNat) |>.take 1
        match readDigits (r.drop sign.length) with
        | .error err => .error err
        | .ok (ds, rest2) => .ok (f ++ e :: sign ++ ds, rest2)
      else .ok (f, rest)
    | [] => .ok (f, rest)

/-- A JSON number at the start of the input: its text and the input after
it. -/
def readNumber (s : GoString) : Except Error (GoString × GoString) :=
  let neg : GoString := if s.head? = some '-'.toNat then ['-'.toNat] else []
  match s.drop neg.length with
  | [] => .error Error.ErrUnexpectedEOF
  | c :: cs =>
    if c = '0'.toNat then
      match readFracExp cs with
      | .error e => .error e
      | .ok (t, rest) => .ok (neg ++ c :: t, rest)
    else if isDigit c then
      match readFracExp (cs.dropWhile isDigit) with
      | .error e => .error e
      | .ok (t, rest) => .ok (neg ++ c :: cs.takeWhile isDigit ++ t, rest)
    else .error Error.jsonSyntax

/-- The literal `word` (`true`, `false`, `null`) at the start of the input,
read as the value `v`. -/
def readLiteral (word : GoString) (v : JSON) (s : GoString) : Except Error (JSON × GoString) :=
  if startsWith s word then .ok (v, s.drop word.length)
  else if startsWith word s then .error Error.ErrUnexpectedEOF
  else .error Error.jsonSyntax

mutual

/-- The JSON value at the start of the input, read with at most `fuel`
nested calls inside `depth` open objects and arrays: the value and the input
after it. An object or an array that would be open at a depth above
`maxNestingDepth` is a syntax error. -/
def readValueFuel (fuel depth : Nat) (s : GoString) : Except Error (JSON × GoString) :=
  match fuel with
  | 0 => .error Error.jsonSyntax
  | fuel + 1 =>
    match skipSpace s with
    | [] => .error Error.ErrUnexpectedEOF
    | c :: cs =>
      if c = '{'.toNat then
        if maxNestingDepth ≤ depth then .error Error.jsonSyntax
        else
          match skipSpace cs with
          | [] => .error Error.ErrUnexpectedEOF
          | d :: ds =>
            if d = '}'.toNat then .ok (JSON.object [], ds)
            else
              match readMembersFuel fuel (depth + 1) (d :: ds) with
              | .error e => .error e
              | .ok (ms, rest) => .ok (JSON.object ms, rest)
      else if c = '['.toNat then
        if maxNestingDepth ≤ depth then .error Error.jsonSyntax
        else
          match skipSpace cs with
          | [] => .error Error.ErrUnexpectedEOF
          | d :: ds =>
            if d = ']'.toNat then .ok (JSON.array [], ds)
            else
              match readElemsFuel fuel (depth + 1) (d :: ds) with
              | .error e => .error e
              | .ok (es, rest) => .ok (JSON.array es, rest)
      else if c = '"'.toNat then
        match readString cs with
        | .error e => .error e
        | .ok (t, rest) => .ok (JSON.string t, rest)
      else if c = 't'.toNat then readLiteral (lit "true") (JSON.bool true) (c :: cs)
      else if c = 'f'.toNat then readLiteral (lit "false") (JSON.bool false) (c :: cs)
      else if c = 'n'.toNat then readLiteral (lit "null") JSON.null (c :: cs)
      else if c = '-'.toNat ∨ isDigit c then
        match readNumber (c :: cs) with
        | .error e => .error e
        | .ok (t, rest) => .ok (JSON.number t, rest)
      else .error Error.jsonSyntax

/-- The members of a JSON object from the first key on, up to the closing
brace; the object is one of the `depth` open objects and arrays. -/
def readMembersFuel (fuel depth : Nat) (s : GoString) :
    Except Error (List (GoString × JSON) × GoString) :=
  match fuel with
  | 0 => .error Error.jsonSyntax
  | fuel + 1 =>
    match skipSpace s with
    | [] => .error Error.ErrUnexpectedEOF
    | q :: cs =>
      if q ≠ '"'.toNat then .error Error.jsonSyntax
      else
        match readString cs with
        | .error e => .error e
        | .ok (key, rest) =>
          match skipSpace rest with
          | [] => .error Error.ErrUnexpectedEOF
          | colon :: r2 =>
            if colon ≠ ':'.toNat then .error Error.jsonSyntax
            else
              match readValueFuel fuel depth r2 with
              | .error e => .error e
              | .ok (v, r3) =>
                match skipSpace r3 with
                | [] => .error Error.ErrUnexpectedEOF
                | d :: r4 =>
                  if d = '}'.toNat then .ok ([(key, v)], r4)
                  else if d = ','.toNat then
                    match readMembersFuel fuel depth r4 with
                    | .error e => .error e
                    | .ok (ms, r5) => .ok ((key, v) :: ms, r5)
                  else .error Error.jsonSyntax

/-- The elements of a JSON array from the first element on, up to the
closing bracket; the array is one of the `depth` open objects and arrays. -/
def readElemsFuel (fuel depth : Nat) (s : GoString) : Except Error (List JSON × GoString) :=
  match fuel with
  | 0 => .error Error.jsonSyntax
  | fuel + 1 =>
    match readValueFuel fuel depth s with
    | .error e => .error e
    | .ok (v, r3) =>
      match skipSpace r3 with
      | [] => .error Error.ErrUnexpectedEOF
      | d :: r4 =>
        if d = ']'.toNat then .ok ([v], r4)
        else if d = ','.toNat then
          match readElemsFuel fuel depth r4 with
          | .error e => .error e
          | .ok (es, r5) => .ok (v :: es, r5)
        else .error Error.jsonSyntax

end

/-- The method `(*Decoder).readValue` together with the scan of the value:
the first JSON value of the body, `io.EOF` for a body of white space only,
a syntax error for a value nested deeper than `maxNestingDepth`. What
follows the value in the body is not looked at. The fuel of twice the length
of the body is enough, more fuel gives the same result
(`readValueFuel_fuel`). -/
def readValue (body : GoString) : Except Error JSON :=
  match skipSpace body with
  | [] => .error Error.EOF
  | _ :: _ =>
    match readValueFuel (2 * body.length + 1) 0 body with
    | .error e => .error e
    | .ok (v, _) => .ok v

/-! ## encoding/json: decoding into a destination -/

/-- The destination types of `json` decoding: `unmarshal j v` is the value
the destination `v` holds after the JSON value `j` was decoded into it, and
the error of the decoding (`(*decodeState).unmarshal` by reflection on the
type). -/
class Unmarshaler (δ : Type) where
  /-- The destination after decoding, and the error. -/
  unmarshal : JSON → δ → δ × Option Error

/-- The types `json.Marshal` is called on. -/
class Marshaler (β : Type) where
  /-- The JSON text of a value, or the error of `json.Marshal`. -/
  Marshal : β → Except Error GoString

/-- The types of the options structs that `query.Values` of go-querystring
is called on. -/
class Queryable (ω : Type) where
  /-- The query values of an options struct, or the error of `query.Values`. -/
  queryValues : ω → Except Error Values

/-- The type of an untyped `nil` passed for an `interface{}` parameter: it
has no value, so an argument of type `Option Nil` is `none`. -/
abbrev Nil := Empty

instance : Unmarshaler Nil := ⟨fun _ v => (v, none)⟩
instance : Marshaler Nil := ⟨fun v => v.elim⟩
instance : Queryable Nil := ⟨fun v => v.elim⟩

/-- An options struct whose fields are strings: the `url` names of the
fields with their values, in the order of the fields. -/
structure StringOptions where
  fields : List (GoString × GoString)

instance : Queryable StringOptions :=
  ⟨fun o => .ok (o.fields.foldl (fun v f => Values.Add v f.1 f.2) [])⟩

/-- The empty struct `struct{}{}` as a request body. -/
structure EmptyBody where
  deriving DecidableEq

instance : Marshaler EmptyBody := ⟨fun _ => .ok (lit "\x7b\x7d")⟩

/-- `(*Decoder).Decode(&v)` for a destination `v` that is not nil, on the
bytes of a response body: reads the first JSON value and decodes it into the
destination. -/
def Decode {δ : Type} [Unmarshaler δ] (body : GoString) (v : δ) : δ × Option Error :=
  match readValue body with
  | .error e => (v, some e)
  | .ok j => Unmarshaler.unmarshal j v

/-! ## Package mailchimp

The `ctx` parameters of the functions are left out: no function of the
package reads its context. -/

/-- The constant `ApiURL`. -/
def ApiURL : GoString := lit "https://%s.api.mailchimp.com/3.0/"

/-- The constant `AccountRoute`. -/
def AccountRoute : GoString := lit ""

/-- `fmt.Sprintf(format, arg)` for a string argument and a format whose
only verb is one `%s`: the verb is replaced by the argument. -/
def Sprintf (format arg : GoString) : GoString :=
  match format with
  | [] => []
  | c :: cs =>
    match cs with
    | d :: ds => if c = '%'.toNat ∧ d = 's'.toNat then arg ++ ds else c :: Sprintf cs arg
    | [] => [c]

/-- The type `credential`. -/
structure credential where
  ApiKey : GoString
  Region : GoString
  deriving DecidableEq, Repr

/-- The zero value `credential{}`. -/
def credential.zero : credential := { ApiKey := [], Region := [] }

/-- The type `AccountInfo`, with the JSON names `account_name`,
`account_id` and `login_id` of its fields. -/
structure AccountInfo where
  AccountName : GoString
  AccountId : GoString
  LoginId : GoString
  deriving DecidableEq, Repr

/-- The zero value `AccountInfo{}`. -/
def AccountInfo.zero : AccountInfo := { AccountName := [], AccountId := [], LoginId := [] }

/-- The name folded for the comparison of a JSON key with a field name:
ASCII letters in upper case. The Unicode folding of encoding/json maps no
character outside ASCII to a letter of `account_name`, `account_id` or
`login_id` (only to `K` and `S`), so a key with a byte outside ASCII
matches none of them, there as here. -/
def foldName (s : GoString) : GoString :=
  s.map (fun c => if 'a'.toNat ≤ c ∧ c ≤ 'z'.toNat then c - 32 else c)

/-- A JSON value decoded into a field of type `string`: a string is stored,
`null` leaves the field as it is, any other value is an
`UnmarshalTypeError` for the field and leaves it as it is. -/
def decodeStringField (name : GoString) (old : GoString) (v : JSON) : GoString × Option Error :=
  match v with
  | JSON.string s => (s, none)
  | JSON.null => (old, none)
  | _ => (old, some (Error.jsonUnmarshalType name))

/-- One member of a JSON object decoded into an `AccountInfo`: the key picks
the field whose JSON name it equals, letter case aside; a key that matches no
field is skipped. The first error is kept and decoding goes on. -/
def decodeMember (st : AccountInfo × Option Error) (m : GoString × JSON) :
    AccountInfo × Option Error :=
  let keep (e : Option Error) : Option Error := if st.2.isSome then st.2 else e
  if foldName m.1 = foldName (lit "account_name") then
    let r := decodeStringField (lit "account_name") st.1.AccountName m.2
    ({ st.1 with AccountName := r.1 }, keep r.2)
  else if foldName m.1 = foldName (lit "account_id") then
    let r := decodeStringField (lit "account_id") st.1.AccountId m.2
    ({ st.1 with AccountId := r.1 }, keep r.2)
  else if foldName m.1 = foldName (lit "login_id") then
    let r := decodeStringField (lit "login_id") st.1.LoginId m.2
    ({ st.1 with LoginId := r.1 }, keep r.2)
  else st

/-- A JSON value decoded into a `*AccountInfo`: the members of an object are
decoded in their order, `null` changes nothing, any other value is an
`UnmarshalTypeError`. -/
def unmarshalAccountInfo (j : JSON) (a : AccountInfo) : AccountInfo × Option Error :=
  match j with
  | JSON.null => (a, none)
  | JSON.object members => members.foldl decodeMember (a, none)
  | _ => (a, some (Error.jsonUnmarshalType []))

instance : Unmarshaler AccountInfo := ⟨unmarshalAccountInfo⟩

/-- `*http.Client` as far as the package uses it: the method `Do`, which
sends a request and gives the response or a transport error. -/
structure HttpClient where
  Do : Request → Except Error Response

/-- The type `client`. -/
structure client where
  httpClient : HttpClient
  credential : credential
  baseUrl : URL

/-- The type `accountServiceOp`. -/
structure accountServiceOp where
  client : client

/-- The type `chimpApiOp`. -/
structure chimpApiOp where
  client : client

/-- `chimpApiOp.GetAccountService`. -/
def chimpApiOp.GetAccountService (c : chimpApiOp) : accountServiceOp := { client := c.client }

/-- `chimpApiOp.GetClient`. -/
def chimpApiOp.GetClient (c : chimpApiOp) : Mailchimp.client := c.client

/-- The loop of `client.NewRequest` (lines 98 to 102) that adds every value
of every key of the query `existing` of the URL to `optionsQuery`. -/
def addQuery (optionsQuery existing : Values) : Values :=
  existing.foldl (fun acc kv => kv.2.foldl (fun acc v => Values.Add acc kv.1 v) acc)
    optionsQuery

/-- The first part of `client.NewRequest` (lines 84 to 104): the URL of the
request, which is `urlStr` resolved against the base URL, with the query
of the options merged into its query when there are options. -/
def client.requestURL {ω : Type} [Queryable ω] (c : client) (urlStr : GoString)
    (options : Option ω) : Except Error URL :=
  match Parse urlStr with
  | .error err => .error err
  | .ok rel =>
    let u := c.baseUrl.ResolveReference rel
    match options with
    | none => .ok u
    | some o =>
      match Queryable.queryValues o with
      | .error err => .error err
      | .ok optionsQuery =>
        .ok { u with RawQuery := Values.Encode (addQuery optionsQuery u.Query) }

/-- `client.NewRequest(ctx, method, urlStr, body, options)`; the context
is not used by the function. -/
def client.NewRequest {β ω : Type} [Marshaler β] [Queryable ω] (c : client)
    (method urlStr : GoString) (body : Option β) (options : Option ω) :
    Except Error Request :=
  match c.requestURL urlStr options with
  | .error err => .error err
  | .ok u =>
    let byt : Except Error GoString :=
      match body with
      | some b => Marshaler.Marshal b
      | none => .ok []
    match byt with
    | .error err => .error err
    | .ok byt =>
      match http.NewRequest method u.String byt with
      | .error err => .error err
      | .ok req =>
        let req : Request :=
          { req with Header := Header.Add req.Header (lit "Content-Type") (lit "application/json") }
        let req : Request :=
          { req with Header := Header.Add req.Header (lit "Accept") (lit "application/json") }
        .ok (req.SetBasicAuth [] c.credential.ApiKey)

/-- `CheckResponseError(r)`. -/
def CheckResponseError (_r : Response) : Option Error := none

/-- `client.Do(ctx, req, v)`: the destination `v` after the call (`none` for
a nil destination) and the error returned. -/
def client.Do {δ : Type} [Unmarshaler δ] (c : client) (req : Request) (v : Option δ) :
    Option δ × Option Error :=
  match c.httpClient.Do req with
  | .error err => (v, some err)
  | .ok resp =>
    match CheckResponseError resp with
    | some err => (v, some err)
    | none =>
      match v with
      | none => (none, none)
      | some dest =>
        match Decode resp.Body dest with
        | (dest, some err) => (some dest, some err)
        | (dest, none) => (some dest, none)

/-- `client.CreateAndDo(ctx, method, path, data, options, resource)`: the
destination `resource` after the call and the error returned. -/
def client.CreateAndDo {β ω δ : Type} [Marshaler β] [Queryable ω] [Unmarshaler δ]
    (c : client) (method path : GoString) (data : Option β) (options : Option ω)
    (resource : Option δ) : Option δ × Option Error :=
  match c.NewRequest method path data options with
  | .error err => (resource, some err)
  | .ok req =>
    match c.Do req resource with
    | (resource, some err) => (resource, some err)
    | (resource, none) => (resource, none)

/-- `client.Get(ctx, path, resource, options)`. -/
def client.Get {ω δ : Type} [Queryable ω] [Unmarshaler δ] (c : client) (path : GoString)
    (resource : Option δ) (options : Option ω) : Option δ × Option Error :=
  c.CreateAndDo (lit "GET") path (none : Option Nil) options resource

/-- `client.Post(ctx, path, data, resource)`. -/
def client.Post {β δ : Type} [Marshaler β] [Unmarshaler δ] (c : client) (path : GoString)
    (data : Option β) (resource : Option δ) : Option δ × Option Error :=
  c.CreateAndDo (lit "POST") path data (none : Option Nil) resource

/-- `client.Put(ctx, path, data, resource)`. -/
def client.Put {β δ : Type} [Marshaler β] [Unmarshaler δ] (c : client) (path : GoString)
    (data : Option β) (resource : Option δ) : Option δ × Option Error :=
  c.CreateAndDo (lit "PUT") path data (none : Option Nil) resource

/-- `client.Delete(ctx, path)`. -/
def client.Delete (c : client) (path : GoString) : Option Error :=
  (c.CreateAndDo (lit "DELETE") path (none : Option Nil) (none : Option Nil)
    (none : Option Nil)).2

/-- `accountServiceOp.GetAccountInfo(ctx)`. -/
def accountServiceOp.GetAccountInfo (s : accountServiceOp) : AccountInfo × Option Error :=
  let accountInfo := AccountInfo.zero
  match s.client.Get AccountRoute (some accountInfo) (none : Option Nil) with
  | (some accountInfo, err) => (accountInfo, err)
  | (none, err) => (accountInfo, err)

/-- `newCredential(ApiKey)`. -/
def newCredential (ApiKey : GoString) : credential × Option Error :=
  let split := Split ApiKey '-'.toNat
  if split.length ≠ 2 then (credential.zero, some Error.ErrAPIKeyFormat)
  else ({ ApiKey := ApiKey, Region := split.getD 1 [] }, none)

/-- `NewChimpApi(apiKey)`, with `DefaultClient` for `http.DefaultClient`:
the facade (`none` for nil) and the error. -/
def NewChimpApi (DefaultClient : HttpClient) (apiKey : GoString) :
    Option chimpApiOp × Option Error :=
  match newCredential apiKey with
  | (_, some err) => (none, some err)
  | (credential, none) =>
    match Parse (Sprintf ApiURL credential.Region) with
    | .error err => (none, some err)
    | .ok baseUrl =>
      (some { client := { httpClient := DefaultClient, credential := credential,
                          baseUrl := baseUrl } }, none)

/-! ## Predicates and examples used by the theorems -/

/-- A byte of a host name that net/url reads and writes as it is: an ASCII
letter, a digit or a dot. -/
def isHostByte (c : Nat) : Bool := isAlnum c || decide (c = '.'.toNat)

/-- A byte that net/url reads and writes as it is in a relative path: an
ASCII letter, a digit, or one of `-` `_` `.` `~` `/` `$` `&` `+` `,` `;`
`=` `@`. -/
def isPathByte (c : Nat) : Bool :=
  isAlnum c ||
    decide (c ∈ ['-'.toNat, '_'.toNat, '.'.toNat, '~'.toNat, '/'.toNat, '$'.toNat,
      '&'.toNat, '+'.toNat, ','.toNat, ';'.toNat, '='.toNat, '@'.toNat])

/-- A byte that may stand in the path of a URL in escaped form: an ASCII
letter, a digit, one of `-` `_` `.` `~` `!` `$` `&` `'` `(` `)` `*` `+`
`,` `;` `=` `:` `@` `[` `]` `/`, or the `%` of an escape. -/
def isEscapedPathByte (c : Nat) : Bool :=
  isAlnum c ||
    decide (c ∈ ['-'.toNat, '_'.toNat, '.'.toNat, '~'.toNat, '!'.toNat, '$'.toNat,
      '&'.toNat, 39, '('.toNat, ')'.toNat, '*'.toNat, '+'.toNat, ','.toNat, ';'.toNat,
      '='.toNat, ':'.toNat, '@'.toNat, '['.toNat, ']'.toNat, '/'.toNat, '%'.toNat])

/-- A byte that may stand in the fragment of a URL in escaped form: a byte
of an escaped path or `?`. -/
def isEscapedFragmentByte (c : Nat) : Bool :=
  isEscapedPathByte c || decide (c = '?'.toNat)

/-- Every `%` of the text is followed by two hexadecimal digits. -/
def wellEscaped : GoString → Bool
  | [] => true
  | c :: cs =>
    if c = '%'.toNat then
      match cs with
      | h1 :: h2 :: tl => ishex h1 && ishex h2 && wellEscaped tl
      | _ => false
    else wellEscaped cs

/-- The query of a relative reference as it is written: `?` and the raw
query, nothing when there is no query. -/
def queryPart (query : Option GoString) : GoString :=
  match query with
  | some q => '?'.toNat :: q
  | none => []

/-- The fragment of a relative reference as it is written: `#` and the
fragment, nothing for an empty fragment. -/
def fragmentPart (frag : GoString) : GoString :=
  if frag = [] then [] else '#'.toNat :: frag

/-- The relative reference `path?query#fragment`. -/
def reference (path : GoString) (query : Option GoString) (frag : GoString) : GoString :=
  path ++ queryPart query ++ fragmentPart frag

/-- The host `<region>.api.mailchimp.com`. -/
def baseHost (r : GoString) : GoString := r ++ lit ".api.mailchimp.com"

/-- The text `https://<region>.api.mailchimp.com/3.0/`. -/
def baseURLString (r : GoString) : GoString :=
  lit "https://" ++ r ++ lit ".api.mailchimp.com/3.0/"

/-- The URL `https://<region>.api.mailchimp.com/3.0/<p>` in parsed form. -/
def baseURL (r p : GoString) : URL :=
  { URL.zero with Scheme := lit "https", Host := baseHost r, Path := lit "/3.0/" ++ p }

/-- All values that a list of map entries holds under the key `k`. -/
def valuesOf (entries : Values) (k : GoString) : List GoString :=
  (entries.filter (fun kv => kv.1 = k)).flatMap Prod.snd

/-- Whether a JSON value is the string `s`. -/
def JSON.isString (j : JSON) (s : GoString) : Bool :=
  match j with
  | JSON.string t => t = s
  | _ => false

/-- Whether the members of a JSON object hold a member with the key `name`
and the string `s` as its value. -/
def hasStringMember (members : List (GoString × JSON)) (name s : GoString) : Bool :=
  members.any (fun m => decide (m.1 = name) && m.2.isString s)

/-- The string that a JSON value holds, if it is a string. -/
def JSON.string? (j : JSON) : Option GoString :=
  match j with
  | JSON.string s => some s
  | _ => none

/-- Whether a JSON value can be stored in a field of type `string` without
an error: it is a string or `null`. -/
def JSON.isStringOrNull (j : JSON) : Bool :=
  match j with
  | JSON.string _ => true
  | JSON.null => true
  | _ => false

/-- The strings that the members of a JSON object hold under a key that
equals `name`, letter case aside, in the order of the members. -/
def stringValues (members : List (GoString × JSON)) (name : GoString) : List GoString :=
  members.filterMap (fun m => if foldName m.1 = foldName name then m.2.string? else none)

/-- The last of the strings that the members of a JSON object hold under a
key that equals `name`, letter case aside; empty when there is none. -/
def lastString (members : List (GoString × JSON)) (name : GoString) : GoString :=
  (stringValues members name).getLast?.getD []

/-- The JSON name of the field of `AccountInfo` that an object key stands
for: the name that the key equals, letter case aside. -/
def fieldOf (key : GoString) : Option GoString :=
  [lit "account_name", lit "account_id", lit "login_id"].find?
    (fun name => foldName key = foldName name)

/-- The names of the fields for which a member of a JSON object holds a
value that is neither a string nor `null`, in the order of the members. -/
def wrongTyped (members : List (GoString × JSON)) : List GoString :=
  members.filterMap (fun m => if m.2.isStringOrNull then none else fieldOf m.1)

/-- A transport that answers every request with status 200 and the given
body. -/
def bodyTransport (body : GoString) : HttpClient :=
  ⟨fun _ => .ok { StatusCode := 200, Body := body }⟩

/-- A transport that fails on every request. -/
def noTransport : HttpClient := ⟨fun _ => .error (Error.transport 0)⟩

/-- The client that `NewChimpApi` builds for the key `myapikey-us20`
(`NewChimpApi_example`). -/
def exampleClient (t : HttpClient) : client :=
  { httpClient := t
    credential := { ApiKey := lit "myapikey-us20", Region := lit "us20" }
    baseUrl := baseURL (lit "us20") [] }

/-- The request that `exampleClient` builds for the account-info route. -/
def exampleRequest : Request :=
  { Method := lit "GET"
    URL := baseURL (lit "us20") []
    Header :=
      [(lit "Content-Type", [lit "application/json"]),
       (lit "Accept", [lit "application/json"]),
       (lit "Authorization", [lit "Basic Om15YXBpa2V5LXVzMjA="])]
    Body := []
    Host := lit "us20.api.mailchimp.com" }

/-- The request that `exampleClient` builds for `POST lists` with the body
`struct{}{}`. -/
def examplePost : Request :=
  { Method := lit "POST"
    URL := baseURL (lit "us20") (lit "lists")
    Header :=
      [(lit "Content-Type", [lit "application/json"]),
       (lit "Accept", [lit "application/json"]),
       (lit "Authorization", [lit "Basic Om15YXBpa2V5LXVzMjA="])]
    Body := lit "\x7b\x7d"
    Host := lit "us20.api.mailchimp.com" }

/-- The account-info body of the specification. -/
def exampleBody : GoString :=
  lit "\x7b\"account_name\":\"Acme\",\"account_id\":\"123\",\"login_id\":\"l1\"\x7d"

/-- The members of `exampleBody`. -/
def exampleMembers : List (GoString × JSON) :=
  [(lit "account_name", JSON.string (lit "Acme")),
   (lit "account_id", JSON.string (lit "123")),
   (lit "login_id", JSON.string (lit "l1"))]

/-- An account-info body with a fourth member, whose key is `account_name`
in capital letters. -/
def foldedBody : GoString :=
  lit ("\x7b\"account_name\":\"Acme\",\"account_id\":\"123\",\"login_id\":\"l1\"," ++
    "\"ACCOUNT_NAME\":\"Zed\"\x7d")

/-- Every byte of the string is below 256. -/
def isBytes (s : GoString) : Bool := s.all (fun c => decide (c < 256))

/-- Query values as a Go map holds them: no key twice, and keys and values
made of bytes. -/
def wellFormed (v : Values) : Bool :=
  decide ((v.map Prod.fst).Nodup) && v.all (fun kv => isBytes kv.1 && kv.2.all isBytes)

/-- The scheme and the opaque part of a URL hold no `?` and no `#`, as in
every URL that `url.Parse` returns. -/
def cleanURL (u : URL) : Prop :=
  63 ∉ u.Scheme ∧ 63 ∉ u.Opaque ∧ 35 ∉ u.Scheme ∧ 35 ∉ u.Opaque

/-- The raw query of a URL text: the text after its first `?`, up to its
first `#`. -/
def rawQueryOf (urlStr : GoString) : GoString :=
  (Cut (Cut urlStr '#'.toNat).1 '?'.toNat).2.1

/-- The parameters of a raw query: the texts between its `&` that are not
empty. -/
def queryParams (rawQuery : GoString) : List GoString :=
  (Split rawQuery '&'.toNat).filter (fun piece => piece ≠ [])

/-- The key and the value of a parameter `key=value` of a raw query, both
percent-decoded; none for a parameter that holds a `;` or whose key or value
is not a valid percent-encoding. -/
def decodeParam (piece : GoString) : Option (GoString × GoString) :=
  if piece.contains ';'.toNat then none
  else
    match QueryUnescape (Cut piece '='.toNat).1, QueryUnescape (Cut piece '='.toNat).2.1 with
    | .ok key, .ok value => some (key, value)
    | _, _ => none

/-- The values that the parameters of a raw query give the key `key`, in
their order; a parameter that `decodeParam` cannot decode gives none. -/
def keptValues (rawQuery key : GoString) : List GoString :=
  (((queryParams rawQuery).filterMap decodeParam).filter (fun kv => kv.1 = key)).map Prod.snd

/-- The request that `exampleClient` builds for `GET foo?x=1` with the
options `{y: 2}`. -/
def exampleQueried : Request :=
  { Method := lit "GET"
    URL := { baseURL (lit "us20") (lit "foo") with RawQuery := lit "x=1&y=2" }
    Header :=
      [(lit "Content-Type", [lit "application/json"]),
       (lit "Accept", [lit "application/json"]),
       (lit "Authorization", [lit "Basic Om15YXBpa2V5LXVzMjA="])]
    Body := []
    Host := lit "us20.api.mailchimp.com" }

/-! ## Lemmas: strings -/

theorem Split_ne_nil (s : GoString) (sep : Nat) : Split s sep ≠ [] := by
  induction s with
  | nil => simp [Split]
  | cons c cs ih =>
    unfold Split
    split_ifs
    · simp
    · cases h : Split cs sep <;> simp

theorem Split_length (s : GoString) (sep : Nat) :
    (Split s sep).length = s.count sep + 1 := by
  induction s with
  | nil => simp [Split]
  | cons c cs ih =>
    unfold Split
    by_cases h : c = sep
    · subst h; simp [ih]
    · have hne : (c == sep) = false := by simpa using h
      rw [if_neg h, List.count_cons, hne]
      cases hs : Split cs sep with
      | nil => exact absurd hs (Split_ne_nil cs sep)
      | cons x xs => simp [← ih, hs]

theorem Split_of_not_mem (s : GoString) (sep : Nat) (h : sep ∉ s) : Split s sep = [s] := by
  induction s with
  | nil => simp [Split]
  | cons c cs ih =>
    simp only [List.mem_cons, not_or] at h
    unfold Split
    rw [if_neg (fun e => h.1 e.symm), ih h.2]

theorem Split_append_sep (k r : GoString) (sep : Nat) (h : sep ∉ k) :
    Split (k ++ sep :: r) sep = k :: Split r sep := by
  induction k with
  | nil => simp [Split]
  | cons c cs ih =>
    simp only [List.mem_cons, not_or] at h
    simp only [List.cons_append]
    rw [Split, if_neg (fun e => h.1 e.symm), ih h.2]

theorem flatMap_Split (p : GoString) (sep : Nat) :
    (Split p sep).flatMap (fun e => sep :: e) = sep :: p := by
  induction p with
  | nil => simp [Split]
  | cons c cs ih =>
    rw [Split]
    split_ifs with h
    · subst h; simp [ih]
    · cases hs : Split cs sep with
      | nil => exact absurd hs (Split_ne_nil cs sep)
      | cons x xs =>
        rw [hs] at ih
        simp at ih ⊢
        exact ih

theorem takeWhile_ne_of_not_mem (s : GoString) (sep : Nat) (h : sep ∉ s) :
    s.takeWhile (fun c => c != sep) = s := by
  rw [List.takeWhile_eq_self_iff]
  intro c hc
  have : c ≠ sep := fun e => h (e ▸ hc)
  simpa using this

theorem dropWhile_ne_of_not_mem (s : GoString) (sep : Nat) (h : sep ∉ s) :
    s.dropWhile (fun c => c != sep) = [] := by
  rw [List.dropWhile_eq_nil_iff]
  intro c hc
  have : c ≠ sep := fun e => h (e ▸ hc)
  simpa using this

theorem Cut_of_not_mem (s : GoString) (sep : Nat) (h : sep ∉ s) :
    Cut s sep = (s, [], false) := by
  simp [Cut, takeWhile_ne_of_not_mem s sep h, dropWhile_ne_of_not_mem s sep h, h]

theorem takeWhile_ne_append (s t : GoString) (sep : Nat) (h : sep ∉ s) :
    (s ++ sep :: t).takeWhile (fun c => c != sep) = s := by
  induction s with
  | nil => simp
  | cons c cs ih =>
    simp only [List.mem_cons, not_or] at h
    have : (c != sep) = true := by simpa using fun e => h.1 e.symm
    simp [List.takeWhile_cons, this, ih h.2]

theorem dropWhile_ne_append (s t : GoString) (sep : Nat) (h : sep ∉ s) :
    (s ++ sep :: t).dropWhile (fun c => c != sep) = sep :: t := by
  induction s with
  | nil => simp
  | cons c cs ih =>
    simp only [List.mem_cons, not_or] at h
    have : (c != sep) = true := by simpa using fun e => h.1 e.symm
    simp [List.dropWhile_cons, this, ih h.2]

theorem LastIndexByte_of_not_mem (s : GoString) (c : Nat) (h : c ∉ s) :
    LastIndexByte s c = none := by
  induction s with
  | nil => rfl
  | cons x xs ih =>
    simp only [List.mem_cons, not_or] at h
    have hx : ¬ x = c := fun e => h.1 e.symm
    simp [LastIndexByte, ih h.2, hx]

/-! ## Lemmas: credentials -/

theorem newCredential_of_count_ne_one (s : GoString) (h : s.count '-'.toNat ≠ 1) :
    newCredential s = (credential.zero, some Error.ErrAPIKeyFormat) := by
  unfold newCredential
  simp only [Split_length]
  rw [if_pos (by omega)]

theorem newCredential_of_split (k r : GoString) (hk : '-'.toNat ∉ k) (hr : '-'.toNat ∉ r) :
    newCredential (k ++ '-'.toNat :: r) =
      ({ ApiKey := k ++ '-'.toNat :: r, Region := r }, none) := by
  have h1 := Split_append_sep k r _ hk
  rw [Split_of_not_mem r _ hr] at h1
  unfold newCredential
  simp only [h1]
  simp

theorem Split_count_one (s : GoString) (sep : Nat) (h : s.count sep = 1) :
    Split s sep = [(Cut s sep).1, (Cut s sep).2.1] := by
  induction s with
  | nil => simp at h
  | cons c cs ih =>
    by_cases hc : c = sep
    · subst hc
      have h0 : c ∉ cs := by
        rw [List.count_cons_self] at h
        exact List.count_eq_zero.mp (by omega)
      simp [Split, Cut, Split_of_not_mem cs c h0]
    · have hne : (c == sep) = false := by simpa using hc
      rw [List.count_cons, hne] at h
      simp only [Bool.false_eq_true, ↓reduceIte, add_zero] at h
      unfold Split
      rw [if_neg hc, ih h]
      simp [Cut, hc]

/-! ## Lemmas: bytes that are not escaped -/

theorem isAlnum_iff (c : Nat) :
    isAlnum c = true ↔ (97 ≤ c ∧ c ≤ 122) ∨ (65 ≤ c ∧ c ≤ 90) ∨ (48 ≤ c ∧ c ≤ 57) := by
  simp [isAlnum]

theorem isHostByte_iff (c : Nat) :
    isHostByte c = true ↔
      (97 ≤ c ∧ c ≤ 122) ∨ (65 ≤ c ∧ c ≤ 90) ∨ (48 ≤ c ∧ c ≤ 57) ∨ c = 46 := by
  simp [isHostByte, isAlnum_iff, or_assoc]

theorem isPathByte_iff (c : Nat) :
    isPathByte c = true ↔ (97 ≤ c ∧ c ≤ 122) ∨ (65 ≤ c ∧ c ≤ 90) ∨ (48 ≤ c ∧ c ≤ 57) ∨
      c = 45 ∨ c = 95 ∨ c = 46 ∨ c = 126 ∨ c = 47 ∨ c = 36 ∨ c = 38 ∨ c = 43 ∨ c = 44 ∨
      c = 59 ∨ c = 61 ∨ c = 64 := by
  simp [isPathByte, isAlnum_iff, or_assoc]

theorem shouldEscape_host (c : Nat) (h : isHostByte c = true) :
    shouldEscape c encodeHost = false := by
  rw [isHostByte_iff] at h
  unfold shouldEscape
  by_cases ha : isAlnum c = true
  · simp [ha]
  · rw [isAlnum_iff] at ha
    have : c = 46 := by omega
    subst this
    decide

theorem shouldEscape_path (c : Nat) (h : isPathByte c = true) :
    shouldEscape c encodePath = false := by
  rw [isPathByte_iff] at h
  unfold shouldEscape
  by_cases ha : isAlnum c = true
  · simp [ha]
  · rw [isAlnum_iff] at ha
    have : c = 45 ∨ c = 95 ∨ c = 46 ∨ c = 126 ∨ c = 47 ∨ c = 36 ∨ c = 38 ∨ c = 43 ∨
        c = 44 ∨ c = 59 ∨ c = 61 ∨ c = 64 := by omega
    rcases this with h | h | h | h | h | h | h | h | h | h | h | h <;> subst h <;> decide

theorem getSchemeLoop_no_colon (raw s : GoString) (i : Nat) (h : ':'.toNat ∉ s) :
    getSchemeLoop raw s i = .ok ([], raw) := by
  induction s generalizing i with
  | nil => rfl
  | cons c cs ih =>
    simp only [List.mem_cons, not_or] at h
    unfold getSchemeLoop
    have hc : ¬ c = ':'.toNat := fun e => h.1 e.symm
    split_ifs <;> first | rfl | exact ih _ h.2

theorem unescapeCheck_plain (s : GoString) (mode : encoding)
    (h : ∀ c ∈ s, c ≠ '%'.toNat ∧
      ((mode = encodeHost ∨ mode = encodeZone) → shouldEscape c encodeHost = false)) :
    unescapeCheck s mode = none := by
  induction s with
  | nil => rfl
  | cons c cs ih =>
    have hc := h c (List.mem_cons_self _ _)
    have ih' := ih (fun d hd => h d (List.mem_cons_of_mem _ hd))
    unfold unescapeCheck
    rw [if_neg hc.1]
    split_ifs with h1 h2
    · exact ih'
    · exact absurd h2.2.2 (by simp [hc.2 h2.1])
    · exact ih'

theorem unescapeBytes_plain (s : GoString) (mode : encoding)
    (hmode : mode ≠ encodeQueryComponent) (h : ∀ c ∈ s, c ≠ '%'.toNat) :
    unescapeBytes s mode = s := by
  induction s with
  | nil => rfl
  | cons c cs ih =>
    have hc := h c (List.mem_cons_self _ _)
    have ih' := ih (fun d hd => h d (List.mem_cons_of_mem _ hd))
    unfold unescapeBytes
    rw [if_neg hc, if_neg hmode, ih']
    split_ifs with h1
    · rw [h1]
    · rfl

theorem escape_plain (s : GoString) (mode : encoding)
    (h : ∀ c ∈ s, shouldEscape c mode = false ∧ c ≠ ' '.toNat) : escape s mode = s := by
  induction s with
  | nil => rfl
  | cons c cs ih =>
    have hc := h c (List.mem_cons_self _ _)
    have ih' := ih (fun d hd => h d (List.mem_cons_of_mem _ hd))
    unfold escape
    rw [if_neg (fun e => hc.2 e.1), hc.1, ih']
    simp

theorem unescape_host (s : GoString) (h : ∀ c ∈ s, isHostByte c = true) :
    unescape s encodeHost = .ok s := by
  have h1 : unescapeCheck s encodeHost = none :=
    unescapeCheck_plain s _ (fun c hc => ⟨by
      have := (isHostByte_iff c).mp (h c hc); simp; omega, fun _ => shouldEscape_host c (h c hc)⟩)
  have h2 : unescapeBytes s encodeHost = s :=
    unescapeBytes_plain s _ (by decide) (fun c hc => by
      have := (isHostByte_iff c).mp (h c hc); simp; omega)
  simp [unescape, h1, h2]

theorem unescape_path (s : GoString) (h : ∀ c ∈ s, isPathByte c = true) :
    unescape s encodePath = .ok s := by
  have h1 : unescapeCheck s encodePath = none :=
    unescapeCheck_plain s _ (fun c hc => ⟨by
      have := (isPathByte_iff c).mp (h c hc); simp; omega, fun hm => by simp at hm⟩)
  have h2 : unescapeBytes s encodePath = s :=
    unescapeBytes_plain s _ (by decide) (fun c hc => by
      have := (isPathByte_iff c).mp (h c hc); simp; omega)
  simp [unescape, h1, h2]

theorem escape_host (s : GoString) (h : ∀ c ∈ s, isHostByte c = true) :
    escape s encodeHost = s :=
  escape_plain s _ (fun c hc => ⟨shouldEscape_host c (h c hc), by
    have := (isHostByte_iff c).mp (h c hc); simp; omega⟩)

theorem escape_path (s : GoString) (h : ∀ c ∈ s, isPathByte c = true) :
    escape s encodePath = s :=
  escape_plain s _ (fun c hc => ⟨shouldEscape_path c (h c hc), by
    have := (isPathByte_iff c).mp (h c hc); simp; omega⟩)

theorem setPath_plain (u : URL) (p : GoString) (h : ∀ c ∈ p, isPathByte c = true) :
    URL.setPath u p = .ok { u with Path := p, RawPath := [] } := by
  simp [URL.setPath, unescape_path p h, escape_path p h]

/-! ## Lemmas: the base URL -/

theorem lit_path : lit "/3.0/" = [47, 51, 46, 48, 47] := by decide

theorem baseHost_bytes (r : GoString) (hr : ∀ c ∈ r, isAlnum c = true) :
    ∀ c ∈ baseHost r, isHostByte c = true := by
  intro c hc
  simp only [baseHost, List.mem_append] at hc
  rcases hc with hc | hc
  · simp [isHostByte, hr c hc]
  · revert c
    decide

theorem baseHost_ne_nil (r : GoString) : baseHost r ≠ [] := by
  simp [baseHost, lit]

theorem basePath_bytes (p : GoString) (hp : ∀ c ∈ p, isPathByte c = true) :
    ∀ c ∈ lit "/3.0/" ++ p, isPathByte c = true := by
  intro c hc
  simp only [List.mem_append] at hc
  rcases hc with hc | hc
  · revert c
    decide
  · exact hp c hc

theorem basePath_tail_bytes (p : GoString) (hp : ∀ c ∈ p, isPathByte c = true) :
    ∀ c ∈ [51, 46, 48, 47] ++ p, isPathByte c = true := by
  intro c hc
  rcases List.mem_append.mp hc with h | h
  · simp at h
    rcases h with rfl | rfl | rfl | rfl <;> decide
  · exact hp c h

theorem baseURLString_eq (r p : GoString) :
    baseURLString r ++ p =
      104 :: 116 :: 116 :: 112 :: 115 :: 58 :: 47 :: 47 ::
        (baseHost r ++ (lit "/3.0/" ++ p)) := by
  have h1 : lit ".api.mailchimp.com/3.0/" = lit ".api.mailchimp.com" ++ lit "/3.0/" := by
    decide
  have h2 : lit "https://" = [104, 116, 116, 112, 115, 58, 47, 47] := by decide
  simp [baseURLString, baseHost, h1, h2]

theorem Sprintf_ApiURL (r : GoString) : Sprintf ApiURL r = baseURLString r := by
  simp [Sprintf, ApiURL, baseURLString, lit]

theorem parseAuthority_host (h : GoString) (hh : ∀ c ∈ h, isHostByte c = true) :
    parseAuthority h = .ok (none, h) := by
  have hat : '@'.toNat ∉ h := fun hm => by
    have := (isHostByte_iff _).mp (hh _ hm); simp at this
  have hcolon : ':'.toNat ∉ h := fun hm => by
    have := (isHostByte_iff _).mp (hh _ hm); simp at this
  have hbr : startsWith h (lit "[") = false := by
    cases h with
    | nil => decide
    | cons c cs =>
      have := (isHostByte_iff _).mp (hh c (List.mem_cons_self _ _))
      have hc : c ≠ 91 := by omega
      simp [startsWith, lit, List.isPrefixOf, hc]
      intro e; exact absurd e.symm hc
  have h1 : parseHost h = .ok h := by
    unfold parseHost
    rw [hbr, LastIndexByte_of_not_mem h _ hcolon]
    simp [unescape_host h hh]
  unfold parseAuthority
  rw [LastIndexByte_of_not_mem h _ hat, h1]

theorem parse_https (host q : GoString) (hhost : ∀ c ∈ host, isHostByte c = true)
    (hq : ∀ c ∈ q, isPathByte c = true) :
    Parse (104 :: 116 :: 116 :: 112 :: 115 :: 58 :: 47 :: 47 :: (host ++ 47 :: q)) =
      .ok { URL.zero with Scheme := lit "https", Host := host, Path := 47 :: q } := by
  have hq' : ∀ c ∈ (47 :: q : GoString), isPathByte c = true := by
    intro c hc
    rcases List.mem_cons.mp hc with h | h
    · subst h; decide
    · exact hq c h
  have hall : ∀ c ∈ host ++ 47 :: q, 32 ≤ c ∧ c ≠ 127 ∧ c ≠ 35 ∧ c ≠ 63 := by
    intro c hc
    rcases List.mem_append.mp hc with h | h
    · have := (isHostByte_iff c).mp (hhost c h); omega
    · have := (isPathByte_iff c).mp (hq' c h); omega
  have hslash : 47 ∉ host := fun hm => by
    have := (isHostByte_iff _).mp (hhost _ hm); omega
  set rest0 : GoString := 47 :: 47 :: (host ++ 47 :: q) with hrest0
  set raw : GoString := 104 :: 116 :: 116 :: 112 :: 115 :: 58 :: rest0 with hraw
  have hhash : 35 ∉ raw := by
    simp only [hraw, hrest0, List.mem_cons, not_or]
    refine ⟨by decide, by decide, by decide, by decide, by decide, by decide, by decide,
      by decide, fun hm => (hall _ hm).2.2.1 rfl⟩
  have hquest : 63 ∉ rest0 := by
    simp only [hrest0, List.mem_cons, not_or]
    refine ⟨by decide, by decide, fun hm => (hall _ hm).2.2.2 rfl⟩
  have hctl : stringContainsCTLByte raw = false := by
    simp only [stringContainsCTLByte, hraw, hrest0, List.any_cons, List.any_eq_false,
      Bool.or_eq_false_iff]
    refine ⟨by decide, by decide, by decide, by decide, by decide, by decide, by decide,
      by decide, fun c hc => ?_⟩
    have := hall c hc
    simp
    omega
  have hstar : raw ≠ [42] := by
    simp [hraw]
  have hsch : getScheme raw = .ok ([104, 116, 116, 112, 115], rest0) := by
    simp [getScheme, getSchemeLoop, hraw]
  have hlow : ToLower [104, 116, 116, 112, 115] = [104, 116, 116, 112, 115] := by decide
  have hcount : rest0.count 63 = 0 := List.count_eq_zero.mpr hquest
  have hcut : Cut rest0 63 = (rest0, [], false) := Cut_of_not_mem _ _ hquest
  have hs1 : startsWith rest0 [47] = true := by simp [startsWith, hrest0]
  have hs2 : startsWith rest0 [47, 47] = true := by simp [startsWith, hrest0]
  have hdrop : rest0.drop 2 = host ++ 47 :: q := by simp [hrest0]
  have htake : (host ++ 47 :: q).takeWhile (fun c => c != 47) = host :=
    takeWhile_ne_append host q _ hslash
  have hdw : (host ++ 47 :: q).dropWhile (fun c => c != 47) = 47 :: q :=
    dropWhile_ne_append host q _ hslash
  have hparse : parse raw =
      .ok { URL.zero with Scheme := lit "https", Host := host, Path := 47 :: q } := by
    simp [parse, URL.zero, lit, hctl, hstar, hsch, hlow, hcount, hcut, hs1, hs2, hdrop, htake,
      hdw, parseAuthority_host host hhost, setPath_plain _ _ hq']
  unfold Parse
  rw [show '#'.toNat = 35 from rfl, Cut_of_not_mem raw _ hhash]
  simp [hparse]

theorem Parse_base (r p : GoString) (hr : ∀ c ∈ r, isAlnum c = true)
    (hp : ∀ c ∈ p, isPathByte c = true) :
    Parse (baseURLString r ++ p) = .ok (baseURL r p) := by
  rw [baseURLString_eq, lit_path]
  have := parse_https (baseHost r) ([51, 46, 48, 47] ++ p) (baseHost_bytes r hr)
    (basePath_tail_bytes p hp)
  simpa [baseURL, lit_path] using this

theorem String_https (host q : GoString) (hne : host ≠ [])
    (hhost : ∀ c ∈ host, isHostByte c = true) (hq : ∀ c ∈ q, isPathByte c = true) :
    URL.String { URL.zero with Scheme := lit "https", Host := host, Path := 47 :: q } =
      104 :: 116 :: 116 :: 112 :: 115 :: 58 :: 47 :: 47 :: (host ++ 47 :: q) := by
  have hq' : ∀ c ∈ (47 :: q : GoString), isPathByte c = true := by
    intro c hc
    rcases List.mem_cons.mp hc with h | h
    · subst h; decide
    · exact hq c h
  have hesc : (URL.EscapedPath
      { URL.zero with Scheme := lit "https", Host := host, Path := 47 :: q }) = 47 :: q := by
    simp [URL.EscapedPath, URL.zero, lit, escape_path _ hq']
  unfold URL.String
  rw [hesc]
  simp [URL.zero, lit, hne, escape_host host hhost]

theorem String_base (r p : GoString) (hr : ∀ c ∈ r, isAlnum c = true)
    (hp : ∀ c ∈ p, isPathByte c = true) :
    (baseURL r p).String = baseURLString r ++ p := by
  rw [baseURLString_eq, lit_path]
  have := String_https (baseHost r) ([51, 46, 48, 47] ++ p) (baseHost_ne_nil r)
    (baseHost_bytes r hr) (basePath_tail_bytes p hp)
  simpa [baseURL, lit_path] using this

theorem NewChimpApi_of_alnum (dc : HttpClient) (k r : GoString) (hk : '-'.toNat ∉ k)
    (hr : ∀ c ∈ r, isAlnum c = true) :
    NewChimpApi dc (k ++ '-'.toNat :: r) =
      (some { client := { httpClient := dc,
                          credential := { ApiKey := k ++ '-'.toNat :: r, Region := r },
                          baseUrl := baseURL r [] } }, none) := by
  have hr' : '-'.toNat ∉ r := fun hm => by
    have := (isAlnum_iff _).mp (hr _ hm); simp at this
  have hparse := Parse_base r [] hr (by simp)
  rw [List.append_nil] at hparse
  unfold NewChimpApi
  rw [newCredential_of_split k r hk hr']
  simp only [Sprintf_ApiURL, hparse]

theorem NewChimpApi_example (t : HttpClient) :
    NewChimpApi t (lit "myapikey-us20") = (some { client := exampleClient t }, none) :=
  NewChimpApi_of_alnum t (lit "myapikey") (lit "us20") (by decide) (by decide)

/-! ## Lemmas: relative paths -/

theorem resolveStep_plain (d e : GoString) (h : e ≠ lit "." ∧ e ≠ lit "..") :
    resolveStep (d, false) e = (d ++ 47 :: e, false) := by
  have h1 : e ≠ [46] := h.1
  have h2 : e ≠ [46, 46] := h.2
  simp [resolveStep, h1, h2, lit]

theorem foldl_resolveStep_plain (es : List GoString) (d : GoString)
    (h : ∀ e ∈ es, e ≠ lit "." ∧ e ≠ lit "..") :
    es.foldl resolveStep (d, false) = (d ++ es.flatMap (fun e => 47 :: e), false) := by
  induction es generalizing d with
  | nil => simp
  | cons e es ih =>
    rw [List.foldl_cons, resolveStep_plain d e (h e (List.mem_cons_self _ _)),
      ih _ (fun e' he' => h e' (List.mem_cons_of_mem _ he'))]
    simp

theorem resolvePath_plain (p : GoString) (hslash : p.head? ≠ some '/'.toNat)
    (hdot : ∀ e ∈ Split p '/'.toNat, e ≠ lit "." ∧ e ≠ lit "..") :
    resolvePath (lit "/3.0/") p = lit "/3.0/" ++ p := by
  have hfull : resolveFull (lit "/3.0/") p = lit "/3.0/" ++ p := by
    unfold resolveFull
    by_cases h : p = []
    · simp [h]
    · rw [if_neg h, if_pos hslash]
      have : LastIndexByte (lit "/3.0/") '/'.toNat = some 4 := by decide
      rw [this]
      rfl
  have hsplit : Split (lit "/3.0/" ++ p) '/'.toNat =
      [] :: [51, 46, 48] :: Split p '/'.toNat := by
    have e1 : lit "/3.0/" ++ p = [] ++ 47 :: ([51, 46, 48] ++ 47 :: p) := by simp [lit]
    rw [e1, show '/'.toNat = 47 from rfl, Split_append_sep [] _ 47 (by simp),
      Split_append_sep [51, 46, 48] p 47 (by decide)]
  have hlast : ∀ x, (Split p '/'.toNat).getLast? = some x → x ≠ lit "." ∧ x ≠ lit ".." :=
    fun x hx => hdot x (List.mem_of_getLast?_eq_some hx)
  unfold resolvePath
  simp only [hfull, hsplit]
  have hne : lit "/3.0/" ++ p ≠ [] := by simp [lit]
  rw [if_neg hne]
  have hfold : ([] :: [51, 46, 48] :: Split p '/'.toNat).foldl resolveStep (lit "/", true) =
      (47 :: 47 :: 51 :: 46 :: 48 :: 47 :: p, false) := by
    have s1 : resolveStep (lit "/", true) [] = ([47], false) := by decide
    have s2 : resolveStep ([47], false) [51, 46, 48] = ([47, 47, 51, 46, 48], false) := by
      decide
    rw [List.foldl_cons, s1, List.foldl_cons, s2, foldl_resolveStep_plain _ _ hdot,
      show '/'.toNat = 47 from rfl, flatMap_Split]
    simp
  rw [hfold]
  have hl : ([] :: [51, 46, 48] :: Split p '/'.toNat).getLast? =
      (Split p '/'.toNat).getLast? := by
    cases hs : Split p '/'.toNat with
    | nil => exact absurd hs (Split_ne_nil _ _)
    | cons x xs => simp [List.getLast?_cons_cons]
  rw [hl]
  have hnd : ¬ ((Split p '/'.toNat).getLast? = some (lit ".") ∨
      (Split p '/'.toNat).getLast? = some (lit "..")) := by
    rintro (h | h)
    · exact (hlast _ h).1 rfl
    · exact (hlast _ h).2 rfl
  simp only [hnd, if_false]
  simp [lit]

theorem removeEmptyPort_host (h : GoString) (hh : ∀ c ∈ h, isHostByte c = true) :
    removeEmptyPort h = h := by
  have hcolon : ':'.toNat ∉ h := fun hm => by
    have := (isHostByte_iff _).mp (hh _ hm); simp at this
  unfold removeEmptyPort
  rw [LastIndexByte_of_not_mem h _ hcolon]
  simp

/-! ## Lemmas: query values -/

theorem lookup_Add (v : Values) (k x k' : GoString) :
    Values.lookup (Values.Add v k x) k' =
      if k' = k then Values.lookup v k ++ [x] else Values.lookup v k' := by
  induction v with
  | nil =>
    by_cases h : k' = k
    · subst h; simp [Values.Add, Values.lookup]
    · simp [Values.Add, Values.lookup, h, Ne.symm h]
  | cons e rest ih =>
    obtain ⟨k0, vs⟩ := e
    by_cases h0 : k0 = k
    · subst h0
      by_cases h : k' = k0
      · subst h; simp [Values.Add, Values.lookup]
      · simp [Values.Add, Values.lookup, h, Ne.symm h]
    · by_cases h : k' = k
      · subst h
        simp [Values.Add, Values.lookup, h0, ih]
      · by_cases h1 : k0 = k'
        · simp [Values.Add, Values.lookup, h0, h1, h]
        · simp [Values.Add, Values.lookup, h0, h1, h, ih]

theorem lookup_foldl_Add (vs : List GoString) (v : Values) (k k' : GoString) :
    Values.lookup (vs.foldl (fun acc x => Values.Add acc k x) v) k' =
      if k' = k then Values.lookup v k ++ vs else Values.lookup v k' := by
  induction vs generalizing v with
  | nil => by_cases h : k' = k <;> simp [h]
  | cons x xs ih =>
    rw [List.foldl_cons, ih, lookup_Add, lookup_Add]
    by_cases h : k' = k <;> simp [h]

theorem lookup_addQuery_valuesOf (existing o : Values) (k : GoString) :
    Values.lookup (addQuery o existing) k = Values.lookup o k ++ valuesOf existing k := by
  unfold addQuery
  induction existing generalizing o with
  | nil => simp [valuesOf]
  | cons e rest ih =>
    rw [List.foldl_cons, ih, lookup_foldl_Add]
    by_cases h : k = e.1
    · subst h; simp [valuesOf, List.filter_cons]
    · simp [valuesOf, List.filter_cons, h, Ne.symm h]

theorem Add_keys (v : Values) (k x : GoString) :
    (Values.Add v k x).map Prod.fst =
      if k ∈ v.map Prod.fst then v.map Prod.fst else v.map Prod.fst ++ [k] := by
  induction v with
  | nil => simp [Values.Add]
  | cons e rest ih =>
    obtain ⟨k0, vs⟩ := e
    by_cases h0 : k0 = k
    · subst h0; simp [Values.Add]
    · simp only [Values.Add, h0, if_false, List.map_cons, ih, List.mem_cons, Ne.symm h0,
        false_or]
      split_ifs <;> simp

theorem Add_nodup (v : Values) (k x : GoString) (h : (v.map Prod.fst).Nodup) :
    ((Values.Add v k x).map Prod.fst).Nodup := by
  rw [Add_keys]
  split_ifs with hk
  · exact h
  · exact List.Nodup.append h (by simp) (by simpa using hk)

theorem parseQueryStep_nodup (v : Values) (piece : GoString) (h : (v.map Prod.fst).Nodup) :
    ((parseQueryStep v piece).map Prod.fst).Nodup := by
  unfold parseQueryStep
  split_ifs
  · exact h
  · exact h
  · cases QueryUnescape (Cut piece '='.toNat).1 with
    | error e => exact h
    | ok key =>
      cases QueryUnescape (Cut piece '='.toNat).2.1 with
      | error e => exact h
      | ok value => exact Add_nodup v key value h

theorem foldl_parseQueryStep_nodup (pieces : List GoString) (v : Values)
    (h : (v.map Prod.fst).Nodup) :
    ((pieces.foldl parseQueryStep v).map Prod.fst).Nodup := by
  induction pieces generalizing v with
  | nil => exact h
  | cons p ps ih => exact ih _ (parseQueryStep_nodup v p h)

theorem Query_nodup (u : URL) : (u.Query.map Prod.fst).Nodup :=
  foldl_parseQueryStep_nodup _ [] (by simp)

theorem valuesOf_eq_lookup (v : Values) (k : GoString) (h : (v.map Prod.fst).Nodup) :
    valuesOf v k = Values.lookup v k := by
  induction v with
  | nil => simp [valuesOf, Values.lookup]
  | cons e rest ih =>
    obtain ⟨k0, vs⟩ := e
    simp only [List.map_cons, List.nodup_cons] at h
    by_cases h0 : k0 = k
    · subst h0
      have : rest.filter (fun kv => kv.1 = k0) = [] := by
        rw [List.filter_eq_nil_iff]
        intro kv hkv
        simp only [decide_eq_true_eq]
        intro e
        exact h.1 (e ▸ List.mem_map_of_mem Prod.fst hkv)
      simp [valuesOf, Values.lookup, List.filter_cons, this]
    · have := ih h.2
      simp only [valuesOf] at this
      simp [valuesOf, Values.lookup, List.filter_cons, h0, this]

theorem lookup_addQuery (u : URL) (o : Values) (k : GoString) :
    Values.lookup (addQuery o u.Query) k = Values.lookup o k ++ Values.lookup u.Query k := by
  rw [lookup_addQuery_valuesOf, valuesOf_eq_lookup _ _ (Query_nodup u)]

/-! ## Lemmas: decoding into `AccountInfo` -/

theorem decodeMember_error (st : AccountInfo × Option Error) (m : GoString × JSON)
    (h : ∀ e, st.2 = some e → ∃ f, f ≠ [] ∧ e = Error.jsonUnmarshalType f) :
    ∀ e, (decodeMember st m).2 = some e → ∃ f, f ≠ [] ∧ e = Error.jsonUnmarshalType f := by
  intro e he
  unfold decodeMember at he
  rcases st with ⟨a, _ | e0⟩
  · rcases m with ⟨k, v⟩
    cases v <;> simp only [decodeStringField] at he <;> split_ifs at he <;>
      simp at he <;> exact ⟨_, by decide, he.symm⟩
  · have := h e0 rfl
    split_ifs at he <;> simp_all

theorem foldl_decodeMember_error (members : List (GoString × JSON))
    (st : AccountInfo × Option Error)
    (h : ∀ e, st.2 = some e → ∃ f, f ≠ [] ∧ e = Error.jsonUnmarshalType f) :
    ∀ e, (members.foldl decodeMember st).2 = some e →
      ∃ f, f ≠ [] ∧ e = Error.jsonUnmarshalType f := by
  induction members generalizing st with
  | nil => simpa using h
  | cons m ms ih =>
    simp only [List.foldl_cons]
    exact ih _ (decodeMember_error st m h)

theorem unmarshalAccountInfo_error (j : JSON) (a : AccountInfo) (e : Error)
    (h : (unmarshalAccountInfo j a).2 = some e) :
    (∃ f, f ≠ [] ∧ e = Error.jsonUnmarshalType f) ∨ (unmarshalAccountInfo j a).1 = a := by
  unfold unmarshalAccountInfo at h ⊢
  cases j with
  | object members =>
    exact Or.inl (foldl_decodeMember_error members (a, none) (by simp) e h)
  | _ => exact Or.inr rfl

theorem Decode_untouched (body : GoString) (a : AccountInfo) (e : Error)
    (h : (Decode body a).2 = some e) (hne : ∀ f, f ≠ [] → e ≠ Error.jsonUnmarshalType f) :
    (Decode body a).1 = a := by
  unfold Decode at h ⊢
  cases hr : readValue body with
  | error e' => simp
  | ok j =>
    rw [hr] at h
    rcases unmarshalAccountInfo_error j a e h with ⟨f, hf, he⟩ | h1
    · exact absurd he (hne f hf)
    · exact h1

theorem foldName_names :
    foldName (lit "account_id") ≠ foldName (lit "account_name") ∧
    foldName (lit "login_id") ≠ foldName (lit "account_name") ∧
    foldName (lit "login_id") ≠ foldName (lit "account_id") := by decide

theorem hasStringMember_any (members : List (GoString × JSON)) (name s : GoString)
    (h : hasStringMember members name s = true) :
    members.any (fun m => foldName m.1 = foldName name) = true := by
  simp only [hasStringMember, List.any_eq_true, Bool.and_eq_true, decide_eq_true_eq] at h ⊢
  obtain ⟨m, hm, hk, _⟩ := h
  exact ⟨m, hm, by rw [hk]⟩

theorem getLastD_cons (a : GoString) (l : List GoString) (d : GoString) :
    ((a :: l).getLast?).getD d = (l.getLast?).getD a := by
  cases l with
  | nil => rfl
  | cons b t =>
    rw [List.getLast?_cons_cons]
    simp [List.getLast?_eq_getLast _ (List.cons_ne_nil b t)]

theorem getLastD_append (l1 l2 : List GoString) (d : GoString) :
    ((l1 ++ l2).getLast?).getD d = (l2.getLast?).getD ((l1.getLast?).getD d) := by
  induction l1 generalizing d with
  | nil => simp
  | cons a t ih => rw [List.cons_append, getLastD_cons, ih, getLastD_cons]

theorem stringValues_cons (m : GoString × JSON) (ms : List (GoString × JSON))
    (name : GoString) :
    stringValues (m :: ms) name = stringValues [m] name ++ stringValues ms name := by
  simp only [stringValues, List.filterMap_cons, List.filterMap_nil]
  split <;> simp

theorem wrongTyped_cons (m : GoString × JSON) (ms : List (GoString × JSON)) :
    wrongTyped (m :: ms) = wrongTyped [m] ++ wrongTyped ms := by
  simp only [wrongTyped, List.filterMap_cons, List.filterMap_nil]
  split <;> simp

theorem stringValues_single (k : GoString) (v : JSON) (name : GoString) :
    stringValues [(k, v)] name =
      if foldName k = foldName name then v.string?.toList else [] := by
  unfold stringValues
  by_cases h : foldName k = foldName name
  · cases hv : v.string? <;> simp [List.filterMap_cons, h, hv]
  · simp [List.filterMap_cons, h]

theorem wrongTyped_single (k : GoString) (v : JSON) :
    wrongTyped [(k, v)] = if v.isStringOrNull then [] else (fieldOf k).toList := by
  unfold wrongTyped
  by_cases h : v.isStringOrNull = true
  · simp [List.filterMap_cons, h]
  · cases hf : fieldOf k <;> simp [List.filterMap_cons, h, hf]

theorem fieldOf_eq (k : GoString) :
    fieldOf k =
      if foldName k = foldName (lit "account_name") then some (lit "account_name")
      else if foldName k = foldName (lit "account_id") then some (lit "account_id")
      else if foldName k = foldName (lit "login_id") then some (lit "login_id")
      else none := by
  unfold fieldOf
  simp only [List.find?_cons, List.find?_nil]
  split_ifs <;> simp_all

theorem decodeMember_eq (x : AccountInfo) (e : Option Error) (m : GoString × JSON) :
    decodeMember (x, e) m =
      ({ AccountName := ((stringValues [m] (lit "account_name")).getLast?).getD x.AccountName,
         AccountId := ((stringValues [m] (lit "account_id")).getLast?).getD x.AccountId,
         LoginId := ((stringValues [m] (lit "login_id")).getLast?).getD x.LoginId },
       if e.isSome then e else ((wrongTyped [m]).head?).map Error.jsonUnmarshalType) := by
  obtain ⟨n1, n2, n3⟩ := foldName_names
  obtain ⟨k, v⟩ := m
  simp only [stringValues_single, wrongTyped_single, fieldOf_eq]
  by_cases h1 : foldName k = foldName (lit "account_name")
  · have h2 : ¬ foldName k = foldName (lit "account_id") := by rw [h1]; exact Ne.symm n1
    have h3 : ¬ foldName k = foldName (lit "login_id") := by rw [h1]; exact Ne.symm n2
    cases v <;> cases e <;>
      simp [decodeMember, decodeStringField, JSON.string?, JSON.isStringOrNull, h1, h2, h3, n1, n2, n3,
        Ne.symm n1, Ne.symm n2, Ne.symm n3]
  · by_cases h2 : foldName k = foldName (lit "account_id")
    · have h3 : ¬ foldName k = foldName (lit "login_id") := by rw [h2]; exact Ne.symm n3
      cases v <;> cases e <;>
        simp [decodeMember, decodeStringField, JSON.string?, JSON.isStringOrNull, h1, h2, h3, n1, n2, n3,
        Ne.symm n1, Ne.symm n2, Ne.symm n3]
    · by_cases h3 : foldName k = foldName (lit "login_id")
      · cases v <;> cases e <;>
          simp [decodeMember, decodeStringField, JSON.string?, JSON.isStringOrNull, h1, h2, h3, n1, n2, n3,
        Ne.symm n1, Ne.symm n2, Ne.symm n3]
      · cases v <;> cases e <;>
          simp [decodeMember, decodeStringField, JSON.string?, JSON.isStringOrNull, h1, h2, h3, n1, n2, n3,
        Ne.symm n1, Ne.symm n2, Ne.symm n3]
theorem foldl_decodeMember_eq (members : List (GoString × JSON)) (x : AccountInfo)
    (e : Option Error) :
    members.foldl decodeMember (x, e) =
      ({ AccountName :=
           ((stringValues members (lit "account_name")).getLast?).getD x.AccountName,
         AccountId := ((stringValues members (lit "account_id")).getLast?).getD x.AccountId,
         LoginId := ((stringValues members (lit "login_id")).getLast?).getD x.LoginId },
       if e.isSome then e else ((wrongTyped members).head?).map Error.jsonUnmarshalType) := by
  induction members generalizing x e with
  | nil => cases e <;> simp [stringValues, wrongTyped]
  | cons m ms ih =>
    rw [List.foldl_cons, decodeMember_eq, ih]
    rw [stringValues_cons m ms (lit "account_name"), stringValues_cons m ms (lit "account_id"),
      stringValues_cons m ms (lit "login_id"), wrongTyped_cons m ms]
    simp only [getLastD_append]
    congr 1
    cases e with
    | some e0 => simp
    | none =>
      cases hw : wrongTyped [m] with
      | nil => simp
      | cons f fs => simp

theorem Decode_object (body : GoString) (members : List (GoString × JSON))
    (h : readValue body = .ok (JSON.object members)) :
    Decode body AccountInfo.zero =
      ({ AccountName := lastString members (lit "account_name"),
         AccountId := lastString members (lit "account_id"),
         LoginId := lastString members (lit "login_id") },
       ((wrongTyped members).head?).map Error.jsonUnmarshalType) := by
  unfold Decode
  rw [h]
  show unmarshalAccountInfo _ _ = _
  simp only [unmarshalAccountInfo]
  rw [foldl_decodeMember_eq]
  simp [lastString, AccountInfo.zero]

theorem GetAccountInfo_of_body (s : accountServiceOp) (req : Request) (resp : Response)
    (hreq : s.client.NewRequest (lit "GET") AccountRoute (none : Option Nil)
      (none : Option Nil) = .ok req)
    (hresp : s.client.httpClient.Do req = .ok resp) :
    s.GetAccountInfo = Decode resp.Body AccountInfo.zero := by
  unfold accountServiceOp.GetAccountInfo client.Get client.CreateAndDo
  simp only [hreq]
  unfold client.Do
  simp only [hresp, CheckResponseError]
  rcases hd : Decode resp.Body AccountInfo.zero with ⟨d, _ | e⟩ <;> rfl

theorem stringValues_ne_nil (members : List (GoString × JSON)) (name s : GoString)
    (h : hasStringMember members name s = true) : stringValues members name ≠ [] := by
  simp only [hasStringMember, List.any_eq_true, Bool.and_eq_true, decide_eq_true_eq] at h
  obtain ⟨m, hm, hk, hs⟩ := h
  intro hnil
  have : s ∈ stringValues members name := by
    simp only [stringValues, List.mem_filterMap]
    refine ⟨m, hm, ?_⟩
    rw [hk]
    obtain ⟨k, v⟩ := m
    cases v <;> simp [JSON.isString] at hs
    simp [JSON.string?, hs]
  rw [hnil] at this
  simp at this

/-! ## Lemmas: the query string read back -/

theorem upperhex_ishex (n : Nat) (h : n < 16) : ishex (upperhex n) = true := by
  unfold upperhex ishex
  split_ifs <;> simp <;> omega

theorem unhex_upperhex (n : Nat) (h : n < 16) : unhex (upperhex n) = n := by
  unfold upperhex unhex
  split_ifs <;> simp at * <;> omega

theorem shouldEscape_query_plain (c : Nat) (h : shouldEscape c encodeQueryComponent = false) :
    isAlnum c = true ∨ c = 45 ∨ c = 95 ∨ c = 46 ∨ c = 126 := by
  unfold shouldEscape at h
  by_cases ha : isAlnum c = true
  · exact Or.inl ha
  · right
    simp [ha] at h
    omega

theorem unescapeCheck_query_cons (c : Nat) (cs : GoString) (h : c ≠ 37) :
    unescapeCheck (c :: cs) encodeQueryComponent = unescapeCheck cs encodeQueryComponent := by
  conv_lhs => unfold unescapeCheck
  simp [h]

theorem unescapeCheck_query_percent (h1 h2 : Nat) (cs : GoString)
    (a1 : ishex h1 = true) (a2 : ishex h2 = true) :
    unescapeCheck (37 :: h1 :: h2 :: cs) encodeQueryComponent =
      unescapeCheck cs encodeQueryComponent := by
  conv_lhs => unfold unescapeCheck
  simp [a1, a2]

theorem unescapeBytes_query_cons (c : Nat) (cs : GoString) (h : c ≠ 37) (h' : c ≠ 43) :
    unescapeBytes (c :: cs) encodeQueryComponent =
      c :: unescapeBytes cs encodeQueryComponent := by
  conv_lhs => unfold unescapeBytes
  simp [h, h']

theorem unescapeBytes_query_plus (cs : GoString) :
    unescapeBytes (43 :: cs) encodeQueryComponent =
      32 :: unescapeBytes cs encodeQueryComponent := by
  conv_lhs => unfold unescapeBytes
  simp

theorem unescapeBytes_query_percent (h1 h2 : Nat) (cs : GoString) :
    unescapeBytes (37 :: h1 :: h2 :: cs) encodeQueryComponent =
      (unhex h1 * 16 + unhex h2) :: unescapeBytes cs encodeQueryComponent := by
  conv_lhs => unfold unescapeBytes
  simp

theorem escape_query_cons (c : Nat) (cs : GoString) :
    escape (c :: cs) encodeQueryComponent =
      if c = 32 then 43 :: escape cs encodeQueryComponent
      else if shouldEscape c encodeQueryComponent then
        37 :: upperhex (c / 16) :: upperhex (c % 16) :: escape cs encodeQueryComponent
      else c :: escape cs encodeQueryComponent := by
  rw [escape]
  simp

theorem QueryUnescape_QueryEscape (s : GoString) (hs : ∀ c ∈ s, c < 256) :
    QueryUnescape (QueryEscape s) = .ok s := by
  have h1 : unescapeCheck (escape s encodeQueryComponent) encodeQueryComponent = none ∧
      unescapeBytes (escape s encodeQueryComponent) encodeQueryComponent = s := by
    induction s with
    | nil => exact ⟨rfl, rfl⟩
    | cons c cs ih =>
      have hc : c < 256 := hs c (List.mem_cons_self _ _)
      obtain ⟨i1, i2⟩ := ih (fun d hd => hs d (List.mem_cons_of_mem _ hd))
      rw [escape_query_cons]
      by_cases h32 : c = 32
      · subst h32
        rw [if_pos rfl, unescapeCheck_query_cons 43 _ (by decide), unescapeBytes_query_plus,
          i1, i2]
        exact ⟨rfl, rfl⟩
      · rw [if_neg h32]
        by_cases he : shouldEscape c encodeQueryComponent = true
        · have a1 := upperhex_ishex (c / 16) (by omega)
          have a2 := upperhex_ishex (c % 16) (by omega)
          have b1 := unhex_upperhex (c / 16) (by omega)
          have b2 := unhex_upperhex (c % 16) (by omega)
          rw [if_pos he, unescapeCheck_query_percent _ _ _ a1 a2, unescapeBytes_query_percent,
            i1, i2, b1, b2]
          refine ⟨rfl, ?_⟩
          congr 1
          omega
        · have he' : shouldEscape c encodeQueryComponent = false := by simpa using he
          have hp := shouldEscape_query_plain c he'
          rw [isAlnum_iff] at hp
          have n37 : c ≠ 37 := by omega
          have n43 : c ≠ 43 := by omega
          rw [if_neg he, unescapeCheck_query_cons c _ n37, unescapeBytes_query_cons c _ n37 n43,
            i1, i2]
          exact ⟨rfl, rfl⟩
  simp [QueryUnescape, QueryEscape, unescape, h1.1, h1.2]

theorem escape_query_bytes (s : GoString) :
    ∀ b ∈ escape s encodeQueryComponent, b ≠ 38 ∧ b ≠ 59 ∧ b ≠ 61 := by
  induction s with
  | nil => simp [escape]
  | cons c cs ih =>
    rw [escape_query_cons]
    have hx : ∀ n, upperhex n ≠ 38 ∧ upperhex n ≠ 59 ∧ upperhex n ≠ 61 := by
      intro n
      unfold upperhex
      split_ifs <;> simp <;> omega
    intro b hb
    split_ifs at hb with h1 h2
    · rcases List.mem_cons.mp hb with h | h
      · subst h; decide
      · exact ih b h
    · simp only [List.mem_cons] at hb
      rcases hb with h | h | h | h
      · subst h; decide
      · subst h; exact hx _
      · subst h; exact hx _
      · exact ih b h
    · rcases List.mem_cons.mp hb with h | h
      · subst h
        have hp := shouldEscape_query_plain b (by simpa using h2)
        rw [isAlnum_iff] at hp
        omega
      · exact ih b h

theorem isBytes_iff (s : GoString) : isBytes s = true ↔ ∀ c ∈ s, c < 256 := by
  simp [isBytes]

theorem Split_Join (pieces : List GoString) (sep : Nat) (hne : pieces ≠ [])
    (h : ∀ p ∈ pieces, sep ∉ p) : Split (Join pieces sep) sep = pieces := by
  induction pieces with
  | nil => exact absurd rfl hne
  | cons x rest ih =>
    cases rest with
    | nil => simpa [Join] using Split_of_not_mem x sep (h x (List.mem_cons_self _ _))
    | cons y rest' =>
      rw [Join, Split_append_sep x _ sep (h x (List.mem_cons_self _ _)),
        ih (by simp) (fun p hp => h p (List.mem_cons_of_mem _ hp))]

theorem parseQueryStep_encoded (m : Values) (k x : GoString) (hk : ∀ c ∈ k, c < 256)
    (hx : ∀ c ∈ x, c < 256) :
    parseQueryStep m (QueryEscape k ++ 61 :: QueryEscape x) = Values.Add m k x := by
  have hk61 : 61 ∉ QueryEscape k := fun hm => (escape_query_bytes k 61 hm).2.2 rfl
  have h59 : (QueryEscape k ++ 61 :: QueryEscape x).contains 59 = false := by
    simp only [List.contains_eq_any_beq, List.any_eq_false]
    intro b hb
    rcases List.mem_append.mp hb with h | h
    · have := (escape_query_bytes k b h).2.1; simpa using Ne.symm this
    · rcases List.mem_cons.mp h with h | h
      · subst h; decide
      · have := (escape_query_bytes x b h).2.1; simpa using Ne.symm this
  have hcut : Cut (QueryEscape k ++ 61 :: QueryEscape x) 61 =
      (QueryEscape k, QueryEscape x, true) := by
    simp [Cut, takeWhile_ne_append _ _ _ hk61, dropWhile_ne_append _ _ _ hk61]
  unfold parseQueryStep
  rw [show ';'.toNat = 59 from rfl, show '='.toNat = 61 from rfl, h59, hcut]
  simp [QueryUnescape_QueryEscape k hk, QueryUnescape_QueryEscape x hx]

theorem foldl_parseQueryStep_encoded (pairs : List (GoString × GoString)) (m : Values)
    (h : ∀ p ∈ pairs, (∀ c ∈ p.1, c < 256) ∧ ∀ c ∈ p.2, c < 256) :
    (pairs.map (fun p => QueryEscape p.1 ++ 61 :: QueryEscape p.2)).foldl parseQueryStep m =
      pairs.foldl (fun m p => Values.Add m p.1 p.2) m := by
  induction pairs generalizing m with
  | nil => rfl
  | cons p ps ih =>
    have hp := h p (List.mem_cons_self _ _)
    simp only [List.map_cons, List.foldl_cons]
    rw [parseQueryStep_encoded m p.1 p.2 hp.1 hp.2,
      ih _ (fun q hq => h q (List.mem_cons_of_mem _ hq))]

theorem lookup_foldl_Add_pairs (pairs : List (GoString × GoString)) (m : Values)
    (key : GoString) :
    Values.lookup (pairs.foldl (fun m p => Values.Add m p.1 p.2) m) key =
      Values.lookup m key ++ (pairs.filter (fun p => p.1 = key)).map Prod.snd := by
  induction pairs generalizing m with
  | nil => simp
  | cons p ps ih =>
    rw [List.foldl_cons, ih, lookup_Add]
    by_cases h : key = p.1
    · subst h; simp [List.filter_cons]
    · simp [List.filter_cons, h, Ne.symm h]

theorem insertKey_perm (k : GoString) (l : List GoString) : (insertKey k l).Perm (k :: l) := by
  induction l with
  | nil => exact List.Perm.refl _
  | cons x xs ih =>
    unfold insertKey
    split_ifs
    · exact (List.Perm.cons x ih).trans (List.Perm.swap k x xs)
    · exact List.Perm.refl _

theorem sortKeys_perm (keys : List GoString) : (sortKeys keys).Perm keys := by
  induction keys with
  | nil => exact List.Perm.refl _
  | cons k ks ih =>
    show (insertKey k (sortKeys ks)).Perm (k :: ks)
    exact (insertKey_perm k _).trans (List.Perm.cons k ih)

theorem lookup_of_not_mem_keys (v : Values) (key : GoString) (h : key ∉ v.map Prod.fst) :
    Values.lookup v key = [] := by
  induction v with
  | nil => rfl
  | cons e rest ih =>
    obtain ⟨k0, vs⟩ := e
    simp only [List.map_cons, List.mem_cons, not_or] at h
    simp [Values.lookup, Ne.symm h.1, ih h.2]

theorem mem_of_mem_lookup (v : Values) (key x : GoString) (h : x ∈ Values.lookup v key) :
    ∃ vs, (key, vs) ∈ v ∧ x ∈ vs := by
  induction v with
  | nil => simp [Values.lookup] at h
  | cons e rest ih =>
    obtain ⟨k0, vs⟩ := e
    unfold Values.lookup at h
    split_ifs at h with hk
    · subst hk; exact ⟨vs, List.mem_cons_self _ _, h⟩
    · obtain ⟨vs', h1, h2⟩ := ih h
      exact ⟨vs', List.mem_cons_of_mem _ h1, h2⟩

theorem filter_pairs (v : Values) (ks : List GoString) (key : GoString) (hnd : ks.Nodup) :
    ((ks.flatMap (fun k => (Values.lookup v k).map (fun x => (k, x)))).filter
      (fun p => p.1 = key)).map Prod.snd =
      if key ∈ ks then Values.lookup v key else [] := by
  induction ks with
  | nil => simp
  | cons k ks ih =>
    simp only [List.nodup_cons] at hnd
    rw [List.flatMap_cons, List.filter_append, List.map_append, ih hnd.2]
    by_cases h : k = key
    · subst h
      have : ((Values.lookup v k).map (fun x => (k, x))).filter (fun p => p.1 = k) =
          (Values.lookup v k).map (fun x => (k, x)) := by
        rw [List.filter_eq_self]
        intro p hp
        obtain ⟨x, _, rfl⟩ := List.mem_map.mp hp
        simp
      simp [this, hnd.1, Function.comp_def]
    · have : ((Values.lookup v k).map (fun x => (k, x))).filter (fun p => p.1 = key) = [] := by
        rw [List.filter_eq_nil_iff]
        intro p hp
        obtain ⟨x, _, rfl⟩ := List.mem_map.mp hp
        simpa using h
      simp [this, Ne.symm h]

theorem Query_Encode (u : URL) (v : Values) (hwf : wellFormed v = true) (key : GoString) :
    Values.lookup (URL.Query { u with RawQuery := Values.Encode v }) key =
      Values.lookup v key := by
  simp only [wellFormed, Bool.and_eq_true, decide_eq_true_eq, List.all_eq_true] at hwf
  obtain ⟨hnd, hb⟩ := hwf
  set ks := sortKeys (v.map Prod.fst) with hks
  set pairs := ks.flatMap (fun k => (Values.lookup v k).map (fun x => (k, x))) with hpairs
  have hperm := sortKeys_perm (v.map Prod.fst)
  have hksnd : ks.Nodup := (List.Perm.nodup_iff hperm).mpr hnd
  have henc : Values.Encode v =
      Join (pairs.map (fun p => QueryEscape p.1 ++ 61 :: QueryEscape p.2)) 38 := by
    unfold Values.Encode
    rw [hpairs, List.map_flatMap]
    simp [Function.comp_def, hks]
  have hbytes : ∀ p ∈ pairs, (∀ c ∈ p.1, c < 256) ∧ ∀ c ∈ p.2, c < 256 := by
    intro p hp
    rw [hpairs, List.mem_flatMap] at hp
    obtain ⟨k, hk, hp⟩ := hp
    obtain ⟨x, hx, rfl⟩ := List.mem_map.mp hp
    obtain ⟨vs, hmem, hxvs⟩ := mem_of_mem_lookup v k x hx
    have := hb _ hmem
    simp only [Bool.and_eq_true, List.all_eq_true] at this
    exact ⟨(isBytes_iff k).mp this.1, (isBytes_iff x).mp (this.2 x hxvs)⟩
  have hq : URL.Query { u with RawQuery := Values.Encode v } =
      pairs.foldl (fun m p => Values.Add m p.1 p.2) [] := by
    unfold URL.Query
    simp only [henc]
    by_cases hp : pairs = []
    · simp [hp, Join, Split, parseQueryStep]
    · rw [show '&'.toNat = 38 from rfl, Split_Join _ 38 (by simpa using hp) (by
        intro p hpm
        obtain ⟨q, _, rfl⟩ := List.mem_map.mp hpm
        intro hm
        rcases List.mem_append.mp hm with h | h
        · exact (escape_query_bytes q.1 38 h).1 rfl
        · rcases List.mem_cons.mp h with h | h
          · exact absurd h (by decide)
          · exact (escape_query_bytes q.2 38 h).1 rfl),
        foldl_parseQueryStep_encoded pairs [] hbytes]
  rw [hq, lookup_foldl_Add_pairs, hpairs, filter_pairs v ks key hksnd]
  by_cases hk : key ∈ ks
  · simp [hk, Values.lookup]
  · have : key ∉ v.map Prod.fst := fun h => hk (hperm.mem_iff.mpr h)
    simp [hk, Values.lookup, lookup_of_not_mem_keys v key this]

theorem unhex_lt (c : Nat) : unhex c < 16 := by
  unfold unhex
  split_ifs <;> simp at * <;> omega

theorem unescapeBytes_bytes (n : Nat) (mode : encoding) :
    ∀ s : GoString, s.length ≤ n → (∀ c ∈ s, c < 256) →
      ∀ c ∈ unescapeBytes s mode, c < 256 := by
  induction n with
  | zero =>
    intro s hl _
    have : s = [] := List.length_eq_zero.mp (by omega)
    subst this
    simp [unescapeBytes]
  | succ n ih =>
    intro s hl hs
    cases s with
    | nil => simp [unescapeBytes]
    | cons c cs =>
      have hcs : ∀ d ∈ cs, d < 256 := fun d hd => hs d (List.mem_cons_of_mem _ hd)
      have hc : c < 256 := hs c (List.mem_cons_self _ _)
      simp only [List.length_cons] at hl
      unfold unescapeBytes
      split_ifs with h1 h2 h3
      · cases cs with
        | nil => simp
        | cons a t =>
          cases t with
          | nil => simp
          | cons b t' =>
            simp only [List.length_cons] at hl
            intro d hd
            rcases List.mem_cons.mp hd with h | h
            · have := unhex_lt a; have := unhex_lt b; omega
            · exact ih t' (by omega) (fun e he =>
                hcs e (List.mem_cons_of_mem _ (List.mem_cons_of_mem _ he))) d h
      · intro d hd
        rcases List.mem_cons.mp hd with h | h
        · subst h; simp
        · exact ih cs (by omega) hcs d h
      · intro d hd
        rcases List.mem_cons.mp hd with h | h
        · subst h; simp
        · exact ih cs (by omega) hcs d h
      · intro d hd
        rcases List.mem_cons.mp hd with h | h
        · subst h; exact hc
        · exact ih cs (by omega) hcs d h

theorem QueryUnescape_bytes (s t : GoString) (h : QueryUnescape s = .ok t)
    (hs : ∀ c ∈ s, c < 256) : isBytes t = true := by
  unfold QueryUnescape unescape at h
  cases hc : unescapeCheck s encodeQueryComponent with
  | some e => simp [hc] at h
  | none =>
    simp only [hc, Except.ok.injEq] at h
    subst h
    exact (isBytes_iff _).mpr (unescapeBytes_bytes s.length _ s (le_refl _) hs)

theorem mem_of_mem_Split (s : GoString) (sep : Nat) :
    ∀ piece ∈ Split s sep, ∀ c ∈ piece, c ∈ s := by
  induction s with
  | nil => simp [Split]
  | cons x xs ih =>
    intro piece hp c hc
    rw [Split] at hp
    split_ifs at hp with h
    · rcases List.mem_cons.mp hp with h1 | h1
      · subst h1; simp at hc
      · exact List.mem_cons_of_mem _ (ih piece h1 c hc)
    · cases hs : Split xs sep with
      | nil => exact absurd hs (Split_ne_nil _ _)
      | cons y ys =>
        rw [hs] at hp ih
        simp only at hp
        rcases List.mem_cons.mp hp with h1 | h1
        · subst h1
          rcases List.mem_cons.mp hc with h2 | h2
          · subst h2; exact List.mem_cons_self _ _
          · exact List.mem_cons_of_mem _ (ih y (List.mem_cons_self _ _) c h2)
        · exact List.mem_cons_of_mem _ (ih piece (List.mem_cons_of_mem _ h1) c hc)

theorem Add_wellFormed (v : Values) (k x : GoString) (hv : wellFormed v = true)
    (hk : isBytes k = true) (hx : isBytes x = true) : wellFormed (Values.Add v k x) = true := by
  simp only [wellFormed, Bool.and_eq_true, decide_eq_true_eq, List.all_eq_true] at hv ⊢
  refine ⟨Add_nodup v k x hv.1, ?_⟩
  have hb := hv.2
  clear hv
  induction v with
  | nil =>
    intro kv hkv
    simp only [Values.Add, List.mem_singleton] at hkv
    subst hkv
    simp [hk, hx]
  | cons e rest ih =>
    obtain ⟨k0, vs⟩ := e
    intro kv hkv
    unfold Values.Add at hkv
    split_ifs at hkv with h0
    · rcases List.mem_cons.mp hkv with h | h
      · subst h
        have := hb _ (List.mem_cons_self _ _)
        simp only [Bool.and_eq_true, List.all_eq_true] at this ⊢
        refine ⟨this.1, fun y hy => ?_⟩
        rcases List.mem_append.mp hy with h1 | h1
        · exact this.2 y h1
        · simp only [List.mem_singleton] at h1
          subst h1; exact hx
      · exact hb _ (List.mem_cons_of_mem _ h)
    · rcases List.mem_cons.mp hkv with h | h
      · subst h; exact hb _ (List.mem_cons_self _ _)
      · exact ih (fun kv' hkv' => hb kv' (List.mem_cons_of_mem _ hkv')) kv h

theorem foldl_Add_wellFormed (vs : List GoString) (v : Values) (k : GoString)
    (hv : wellFormed v = true) (hk : isBytes k = true) (hvs : ∀ x ∈ vs, isBytes x = true) :
    wellFormed (vs.foldl (fun acc x => Values.Add acc k x) v) = true := by
  induction vs generalizing v with
  | nil => exact hv
  | cons x xs ih =>
    exact ih _ (Add_wellFormed v k x hv hk (hvs x (List.mem_cons_self _ _)))
      (fun y hy => hvs y (List.mem_cons_of_mem _ hy))

theorem addQuery_wellFormed (o e : Values) (ho : wellFormed o = true)
    (he : wellFormed e = true) : wellFormed (addQuery o e) = true := by
  have hb : ∀ kv ∈ e, isBytes kv.1 = true ∧ ∀ x ∈ kv.2, isBytes x = true := by
    simp only [wellFormed, Bool.and_eq_true, decide_eq_true_eq, List.all_eq_true] at he
    exact he.2
  clear he
  unfold addQuery
  induction e generalizing o with
  | nil => exact ho
  | cons kv rest ih =>
    have h1 := hb kv (List.mem_cons_self _ _)
    exact ih _ (foldl_Add_wellFormed kv.2 o kv.1 ho h1.1 h1.2)
      (fun kv' hkv' => hb kv' (List.mem_cons_of_mem _ hkv'))

theorem parseQueryStep_wellFormed (v : Values) (piece : GoString)
    (hv : wellFormed v = true) (hp : ∀ c ∈ piece, c < 256) :
    wellFormed (parseQueryStep v piece) = true := by
  unfold parseQueryStep
  split_ifs
  · exact hv
  · exact hv
  · cases hk : QueryUnescape (Cut piece '='.toNat).1 with
    | error e => exact hv
    | ok key =>
      cases hx : QueryUnescape (Cut piece '='.toNat).2.1 with
      | error e => exact hv
      | ok value =>
        refine Add_wellFormed v key value hv
          (QueryUnescape_bytes _ _ hk (fun c hc => hp c (List.takeWhile_subset _ hc)))
          (QueryUnescape_bytes _ _ hx (fun c hc => hp c ?_))
        exact List.dropWhile_subset _ (List.mem_of_mem_tail hc)

theorem Query_wellFormed (u : URL) (h : isBytes u.RawQuery = true) :
    wellFormed u.Query = true := by
  have hb := (isBytes_iff _).mp h
  have key : ∀ (pieces : List GoString) (v : Values), wellFormed v = true →
      (∀ p ∈ pieces, ∀ c ∈ p, c < 256) →
      wellFormed (pieces.foldl parseQueryStep v) = true := by
    intro pieces
    induction pieces with
    | nil => intro v hv _; exact hv
    | cons p ps ih =>
      intro v hv hp
      exact ih _ (parseQueryStep_wellFormed v p hv (hp p (List.mem_cons_self _ _)))
        (fun q hq => hp q (List.mem_cons_of_mem _ hq))
  exact key _ [] (by decide) (fun p hp c hc => hb c (mem_of_mem_Split _ _ p hp c hc))

/-! ## Lemmas: the fuel of the JSON reader -/

theorem stringStep_done_length (s rest : GoString) (h : stringStep s = .done rest) :
    rest.length < s.length := by
  unfold stringStep at h
  repeat' split at h
  all_goals try (injection h; done)
  all_goals
    injection h with h1
    subst h1
    simp only [List.length_cons, List.length_drop]
    omega

theorem DecodeRune_size_pos (c : Nat) (cs : GoString) : 0 < (DecodeRune (c :: cs)).2 := by
  simp only [DecodeRune]
  repeat' split
  all_goals simp

theorem stringStep_emit_length (s bytes rest : GoString) (h : stringStep s = .emit bytes rest) :
    rest.length < s.length := by
  unfold stringStep at h
  repeat' split at h
  all_goals try (injection h; done)
  all_goals
    injection h with h1 h2
    subst h2
    simp only [List.length_cons, List.length_drop]
    first
      | omega
      | exact Nat.sub_lt (Nat.succ_pos _) (DecodeRune_size_pos _ _)

theorem consBytes_ok (pre : GoString) (r : Except Error (GoString × GoString))
    (t rest : GoString) (h : consBytes pre r = .ok (t, rest)) :
    ∃ t', r = .ok (t', rest) := by
  unfold consBytes at h
  split at h
  · cases h
  · cases h; exact ⟨_, rfl⟩

theorem readStringFuel_length (fuel : Nat) :
    ∀ (s t rest : GoString), readStringFuel fuel s = .ok (t, rest) →
      rest.length < s.length := by
  induction fuel with
  | zero => intro s t rest h; simp [readStringFuel] at h
  | succ n ih =>
    intro s t rest h
    rw [readStringFuel] at h
    split at h
    · rename_i r hs
      cases h
      exact stringStep_done_length s _ hs
    · rename_i b r hs
      obtain ⟨t', ht'⟩ := consBytes_ok _ _ _ _ h
      have := ih r t' rest ht'
      have := stringStep_emit_length s b r hs
      omega
    · cases h

theorem readStringFuel_fuel (fuel : Nat) :
    ∀ (s : GoString), s.length ≤ fuel → ∀ fuel', fuel ≤ fuel' →
      readStringFuel fuel' s = readStringFuel fuel s := by
  induction fuel with
  | zero =>
    intro s hs fuel' _
    have : s = [] := List.length_eq_zero.mp (by omega)
    subst this
    cases fuel' <;> simp [readStringFuel, stringStep]
  | succ n ih =>
    intro s hs fuel' hf
    obtain ⟨m, rfl⟩ : ∃ m, fuel' = m + 1 := ⟨fuel' - 1, by omega⟩
    rw [readStringFuel, readStringFuel]
    cases hst : stringStep s with
    | done rest => rfl
    | fail e => rfl
    | emit b r =>
      have := stringStep_emit_length s b r hst
      simp only
      rw [ih r (by omega) m (by omega)]

theorem readString_length (s t rest : GoString) (h : readString s = .ok (t, rest)) :
    rest.length < s.length :=
  readStringFuel_length _ s t rest h

theorem skipSpace_length (s : GoString) : (skipSpace s).length ≤ s.length := by
  unfold skipSpace
  exact (List.dropWhile_sublist _).length_le

theorem skipSpace_cons_length (s : GoString) (c : Nat) (cs : GoString)
    (h : skipSpace s = c :: cs) : cs.length < s.length := by
  have := skipSpace_length s
  rw [h] at this
  simp only [List.length_cons] at this
  omega

theorem readDigits_length (s ds rest : GoString) (h : readDigits s = .ok (ds, rest)) :
    rest.length ≤ s.length := by
  unfold readDigits at h
  split_ifs at h
  injection h with h
  injection h with h1 h2
  subst h2
  exact (List.dropWhile_sublist _).length_le

theorem readFracExp_length (s t rest : GoString) (h : readFracExp s = .ok (t, rest)) :
    rest.length ≤ s.length := by
  unfold readFracExp at h
  -- the fraction
  have hfrac : ∀ (f r : GoString),
      (match s with
        | c :: cs =>
          if c = '.'.toNat then
            match readDigits cs with
            | .error e => (.error e : Except Error (GoString × GoString))
            | .ok (ds, rest) => .ok (c :: ds, rest)
          else .ok ([], s)
        | [] => .ok ([], s)) = .ok (f, r) → r.length ≤ s.length := by
    intro f r hf
    cases s with
    | nil => simp at hf; rw [← hf.2]
    | cons c cs =>
      simp only at hf
      split_ifs at hf
      · cases hd : readDigits cs with
        | error e => simp [hd] at hf
        | ok p =>
          obtain ⟨ds, r'⟩ := p
          simp [hd] at hf
          have := readDigits_length cs ds r' hd
          rw [← hf.2]
          simp; omega
      · simp at hf; rw [← hf.2]
  simp only at h
  split at h
  · cases h
  · rename_i f r hf
    have l1 := hfrac f r hf
    split at h
    · split_ifs at h
      · split at h
        · cases h
        · rename_i ds rest2 hd
          have l2 := readDigits_length _ ds rest2 hd
          simp only [List.length_drop] at l2
          injection h with h
          injection h with h1 h2
          subst h2
          simp only [List.length_cons] at l1
          omega
      · injection h with h
        injection h with h1 h2
        subst h2
        exact l1
    · injection h with h
      injection h with h1 h2
      subst h2
      exact l1

theorem readNumber_length (s t rest : GoString) (h : readNumber s = .ok (t, rest)) :
    rest.length ≤ s.length := by
  unfold readNumber at h
  simp only at h
  split at h
  · cases h
  · rename_i c cs hs
    have l0 : (c :: cs).length ≤ s.length := by
      rw [← hs]; simp
    simp only [List.length_cons] at l0
    have l2 : (cs.dropWhile isDigit).length ≤ cs.length :=
      (List.dropWhile_sublist _).length_le
    repeat' split at h
    all_goals try (injection h; done)
    all_goals
      injection h with h
      injection h with h1 h2
      subst h2
      have := readFracExp_length _ _ _ ‹readFracExp _ = Except.ok (_, _)›
      omega

theorem readLiteral_length (word : GoString) (v : JSON) (s : GoString) (v' : JSON)
    (rest : GoString) (h : readLiteral word v s = .ok (v', rest)) :
    rest.length ≤ s.length := by
  unfold readLiteral at h
  split_ifs at h
  injection h with h
  injection h with h1 h2
  subst h2
  simp

theorem read_length (f : Nat) :
    (∀ d s v rest, readValueFuel f d s = .ok (v, rest) → rest.length ≤ s.length) ∧
    (∀ d s ms rest, readMembersFuel f d s = .ok (ms, rest) → rest.length ≤ s.length) ∧
    (∀ d s es rest, readElemsFuel f d s = .ok (es, rest) → rest.length ≤ s.length) := by
  induction f with
  | zero =>
    refine ⟨?_, ?_, ?_⟩ <;> intro dp s v rest h
    · simp [readValueFuel] at h
    · simp [readMembersFuel] at h
    · simp [readElemsFuel] at h
  | succ n ih =>
    obtain ⟨ihV, ihM, ihE⟩ := ih
    refine ⟨?_, ?_, ?_⟩
    · intro dp s v rest h
      rw [readValueFuel] at h
      cases hsk : skipSpace s with
      | nil => simp [hsk] at h
      | cons c cs =>
        have l1 := skipSpace_cons_length s c cs hsk
        simp only [hsk] at h
        split_ifs at h
        · -- object
          cases hsk2 : skipSpace cs with
          | nil => simp [hsk2] at h
          | cons d ds =>
            have l2 := skipSpace_cons_length cs d ds hsk2
            simp only [hsk2] at h
            split_ifs at h
            · injection h with h
              injection h with h1 h2
              subst h2
              omega
            · cases hm : readMembersFuel n (dp + 1) (d :: ds) with
              | error e => simp [hm] at h
              | ok p =>
                obtain ⟨ms, r⟩ := p
                simp only [hm] at h
                injection h with h
                injection h with h1 h2
                subst h2
                have := ihM _ _ _ _ hm
                simp only [List.length_cons] at this
                omega
        · -- array
          cases hsk2 : skipSpace cs with
          | nil => simp [hsk2] at h
          | cons d ds =>
            have l2 := skipSpace_cons_length cs d ds hsk2
            simp only [hsk2] at h
            split_ifs at h
            · injection h with h
              injection h with h1 h2
              subst h2
              omega
            · cases hm : readElemsFuel n (dp + 1) (d :: ds) with
              | error e => simp [hm] at h
              | ok p =>
                obtain ⟨ms, r⟩ := p
                simp only [hm] at h
                injection h with h
                injection h with h1 h2
                subst h2
                have := ihE _ _ _ _ hm
                simp only [List.length_cons] at this
                omega
        · -- string
          cases hm : readString cs with
          | error e => simp [hm] at h
          | ok p =>
            obtain ⟨t, r⟩ := p
            simp only [hm] at h
            injection h with h
            injection h with h1 h2
            subst h2
            have := readString_length _ _ _ hm
            omega
        · have := readLiteral_length _ _ _ _ _ h
          simp only [List.length_cons] at this
          omega
        · have := readLiteral_length _ _ _ _ _ h
          simp only [List.length_cons] at this
          omega
        · have := readLiteral_length _ _ _ _ _ h
          simp only [List.length_cons] at this
          omega
        · cases hm : readNumber (c :: cs) with
          | error e => simp [hm] at h
          | ok p =>
            obtain ⟨t, r⟩ := p
            simp only [hm] at h
            injection h with h
            injection h with h1 h2
            subst h2
            have := readNumber_length _ _ _ hm
            simp only [List.length_cons] at this
            omega
    · intro dp s ms rest h
      rw [readMembersFuel] at h
      cases hsk : skipSpace s with
      | nil => simp [hsk] at h
      | cons q cs =>
        have l1 := skipSpace_cons_length s q cs hsk
        simp only [hsk] at h
        split_ifs at h
        cases hstr : readString cs with
        | error e => simp [hstr] at h
        | ok p =>
          obtain ⟨key, r1⟩ := p
          have l2 := readString_length _ _ _ hstr
          simp only [hstr] at h
          cases hsk2 : skipSpace r1 with
          | nil => simp [hsk2] at h
          | cons colon r2 =>
            have l3 := skipSpace_cons_length r1 colon r2 hsk2
            simp only [hsk2] at h
            split_ifs at h
            cases hv : readValueFuel n dp r2 with
            | error e => simp [hv] at h
            | ok p2 =>
              obtain ⟨v, r3⟩ := p2
              have l4 := ihV _ _ _ _ hv
              simp only [hv] at h
              cases hsk3 : skipSpace r3 with
              | nil => simp [hsk3] at h
              | cons d r4 =>
                have l5 := skipSpace_cons_length r3 d r4 hsk3
                simp only [hsk3] at h
                split_ifs at h
                · injection h with h
                  injection h with h1 h2
                  subst h2
                  omega
                · cases hm : readMembersFuel n dp r4 with
                  | error e => simp [hm] at h
                  | ok p3 =>
                    obtain ⟨ms', r5⟩ := p3
                    simp only [hm] at h
                    injection h with h
                    injection h with h1 h2
                    subst h2
                    have := ihM _ _ _ _ hm
                    omega
    · intro dp s es rest h
      rw [readElemsFuel] at h
      cases hv : readValueFuel n dp s with
      | error e => simp [hv] at h
      | ok p2 =>
        obtain ⟨v, r3⟩ := p2
        have l4 := ihV _ _ _ _ hv
        simp only [hv] at h
        cases hsk3 : skipSpace r3 with
        | nil => simp [hsk3] at h
        | cons d r4 =>
          have l5 := skipSpace_cons_length r3 d r4 hsk3
          simp only [hsk3] at h
          split_ifs at h
          · injection h with h
            injection h with h1 h2
            subst h2
            omega
          · cases hm : readElemsFuel n dp r4 with
            | error e => simp [hm] at h
            | ok p3 =>
              obtain ⟨es', r5⟩ := p3
              simp only [hm] at h
              injection h with h
              injection h with h1 h2
              subst h2
              have := ihE _ _ _ _ hm
              omega

theorem read_fuel (f : Nat) :
    ∀ (s : GoString) (f' dp : Nat), f ≤ f' →
      (2 * s.length + 1 ≤ f → readValueFuel f' dp s = readValueFuel f dp s) ∧
      (2 * s.length + 1 ≤ f → readMembersFuel f' dp s = readMembersFuel f dp s) ∧
      (2 * s.length + 2 ≤ f → readElemsFuel f' dp s = readElemsFuel f dp s) := by
  induction f with
  | zero =>
    intro s f' dp _
    refine ⟨fun h => ?_, fun h => ?_, fun h => ?_⟩ <;> omega
  | succ n ih =>
    intro s f' dp hf
    obtain ⟨m, rfl⟩ : ∃ m, f' = m + 1 := ⟨f' - 1, by omega⟩
    have hm : n ≤ m := by omega
    refine ⟨fun hs => ?_, fun hs => ?_, fun hs => ?_⟩
    · rw [readValueFuel, readValueFuel]
      cases hsk : skipSpace s with
      | nil => rfl
      | cons c cs =>
        have l1 := skipSpace_cons_length s c cs hsk
        simp only
        cases hsk2 : skipSpace cs with
        | nil => rfl
        | cons d ds =>
          have l2 := skipSpace_cons_length cs d ds hsk2
          have hl : (d :: ds).length < s.length := by simp only [List.length_cons]; omega
          simp only
          rw [(ih (d :: ds) m (dp + 1) hm).2.1 (by omega),
            (ih (d :: ds) m (dp + 1) hm).2.2 (by omega)]
    · rw [readMembersFuel, readMembersFuel]
      cases hsk : skipSpace s with
      | nil => rfl
      | cons q cs =>
        have l1 := skipSpace_cons_length s q cs hsk
        simp only
        split_ifs
        · rfl
        · cases hstr : readString cs with
          | error e => rfl
          | ok p =>
            obtain ⟨key, r1⟩ := p
            have l2 := readString_length _ _ _ hstr
            simp only
            cases hsk2 : skipSpace r1 with
            | nil => rfl
            | cons colon r2 =>
              have l3 := skipSpace_cons_length r1 colon r2 hsk2
              simp only
              split_ifs
              · rfl
              · rw [(ih r2 m dp hm).1 (by omega)]
                cases hv : readValueFuel n dp r2 with
                | error e => rfl
                | ok p2 =>
                  obtain ⟨v, r3⟩ := p2
                  have l4 := (read_length n).1 _ _ _ _ hv
                  simp only
                  cases hsk3 : skipSpace r3 with
                  | nil => rfl
                  | cons d r4 =>
                    have l5 := skipSpace_cons_length r3 d r4 hsk3
                    simp only
                    rw [(ih r4 m dp hm).2.1 (by omega)]
    · rw [readElemsFuel, readElemsFuel]
      rw [(ih s m dp hm).1 (by omega)]
      cases hv : readValueFuel n dp s with
      | error e => rfl
      | ok p2 =>
        obtain ⟨v, r3⟩ := p2
        have l4 := (read_length n).1 _ _ _ _ hv
        simp only
        cases hsk3 : skipSpace r3 with
        | nil => rfl
        | cons d r4 =>
          have l5 := skipSpace_cons_length r3 d r4 hsk3
          simp only
          rw [(ih r4 m dp hm).2.2 (by omega)]

theorem readValueFuel_fuel (body : GoString) (fuel depth : Nat)
    (h : 2 * body.length + 1 ≤ fuel) :
    readValueFuel fuel depth body = readValueFuel (2 * body.length + 1) depth body :=
  (read_fuel (2 * body.length + 1) body fuel depth h).1 (le_refl _)

/-! ## Lemmas: the query of a parsed URL -/

theorem Cut_fst_not_mem (s : GoString) (sep : Nat) : sep ∉ (Cut s sep).1 := by
  intro h
  have := List.mem_takeWhile_imp h
  simp at this

theorem Cut_fst_subset (s : GoString) (sep : Nat) : ∀ c ∈ (Cut s sep).1, c ∈ s :=
  fun _ hc => List.takeWhile_subset _ hc

theorem Cut_snd_subset (s : GoString) (sep : Nat) : ∀ c ∈ (Cut s sep).2.1, c ∈ s :=
  fun _ hc => List.dropWhile_subset _ (List.mem_of_mem_tail hc)

theorem Cut_append (a b : GoString) (sep : Nat) (h : sep ∉ a) :
    Cut (a ++ sep :: b) sep = (a, b, true) := by
  simp [Cut, takeWhile_ne_append a b sep h, dropWhile_ne_append a b sep h]

theorem Cut_snd_append (a b : GoString) (sep : Nat) (h : sep ∉ a) :
    (Cut (a ++ b) sep).2.1 = (Cut b sep).2.1 := by
  induction a with
  | nil => rfl
  | cons c cs ih =>
    simp only [List.mem_cons, not_or] at h
    have hc : (c != sep) = true := by simpa using fun e => h.1 e.symm
    have := ih h.2
    simp only [Cut, List.cons_append, List.dropWhile_cons, hc, if_true] at this ⊢
    exact this

theorem getSchemeLoop_spec (raw : GoString) :
    ∀ (s p : GoString) (i : Nat), raw = p ++ s → i = p.length → 63 ∉ p →
      ∀ sch rest, getSchemeLoop raw s i = .ok (sch, rest) →
        (sch = [] ∧ rest = raw) ∨ (63 ∉ sch ∧ raw = sch ++ 58 :: rest) := by
  intro s
  induction s with
  | nil =>
    intro p i _ _ _ sch rest h
    simp only [getSchemeLoop, Except.ok.injEq, Prod.mk.injEq] at h
    exact Or.inl ⟨h.1.symm, h.2.symm⟩
  | cons c cs ih =>
    intro p i hraw hi hp sch rest h
    have hraw' : raw = (p ++ [c]) ++ cs := by simp [hraw]
    have hi' : i + 1 = (p ++ [c]).length := by simp [hi]
    unfold getSchemeLoop at h
    split_ifs at h with h1 h2 h3 h4 h5
    · refine ih (p ++ [c]) (i + 1) hraw' hi' ?_ sch rest h
      simp only [List.mem_append, List.mem_singleton, not_or]
      refine ⟨hp, fun e => ?_⟩
      subst e
      simp at h1
    · simp only [Except.ok.injEq, Prod.mk.injEq] at h
      exact Or.inl ⟨h.1.symm, h.2.symm⟩
    · refine ih (p ++ [c]) (i + 1) hraw' hi' ?_ sch rest h
      simp only [List.mem_append, List.mem_singleton, not_or]
      refine ⟨hp, fun e => ?_⟩
      subst e
      simp at h2
    · simp only [Except.ok.injEq, Prod.mk.injEq] at h
      obtain ⟨e1, e2⟩ := h
      right
      have t1 : raw.take i = p := by simp [hraw, hi]
      have t2 : raw.drop (i + 1) = cs := by
        rw [hraw, hi]
        simp [List.drop_append_eq_append_drop]
      rw [t1] at e1
      rw [t2] at e2
      subst e1 e2
      refine ⟨hp, ?_⟩
      rw [hraw, h4]
      rfl
    · simp only [Except.ok.injEq, Prod.mk.injEq] at h
      exact Or.inl ⟨h.1.symm, h.2.symm⟩

theorem getScheme_spec (raw sch rest : GoString) (h : getScheme raw = .ok (sch, rest)) :
    (sch = [] ∧ rest = raw) ∨ (63 ∉ sch ∧ raw = sch ++ 58 :: rest) :=
  getSchemeLoop_spec raw raw [] 0 rfl rfl (by simp) sch rest h

theorem ToLower_mem (s : GoString) (c : Nat) (h : c ∈ ToLower s) :
    c ∈ s ∨ (97 ≤ c ∧ c ≤ 122) := by
  simp only [ToLower, List.mem_map] at h
  obtain ⟨a, ha, rfl⟩ := h
  split_ifs with h1
  · right
    simp at h1
    omega
  · exact Or.inl ha

theorem setPath_fields (v u : URL) (p : GoString) (h : URL.setPath v p = .ok u) :
    u.Scheme = v.Scheme ∧ u.Opaque = v.Opaque ∧ u.RawQuery = v.RawQuery ∧
      u.ForceQuery = v.ForceQuery ∧ u.Fragment = v.Fragment ∧
      u.RawFragment = v.RawFragment ∧ u.Host = v.Host ∧ u.User = v.User := by
  unfold URL.setPath at h
  split at h
  · cases h
  · injection h with h
    subst h
    simp

theorem setFragment_fields (v u : URL) (f : GoString) (h : URL.setFragment v f = .ok u) :
    u.Scheme = v.Scheme ∧ u.Opaque = v.Opaque ∧ u.RawQuery = v.RawQuery ∧
      u.ForceQuery = v.ForceQuery := by
  unfold URL.setFragment at h
  split at h
  · cases h
  · injection h with h
    subst h
    simp

theorem dropWhile_last (s : GoString) (c : Nat) (hcount : s.count c = 1)
    (hend : endsWith s [c] = true) : (s.dropWhile (fun x => x != c)).tail = [] := by
  induction s with
  | nil => simp at hcount
  | cons x xs ih =>
    by_cases hx : x = c
    · subst hx
      have h0 : x ∉ xs := by
        rw [List.count_cons_self] at hcount
        exact List.count_eq_zero.mp (by omega)
      cases xs with
      | nil => simp
      | cons y ys =>
        exfalso
        simp only [endsWith, List.isSuffixOf_iff_suffix] at hend
        obtain ⟨t, ht⟩ := hend
        have : (x :: y :: ys).getLast? = some x := by
          rw [← ht]; simp
        have hm : x ∈ y :: ys := by
          rw [List.getLast?_cons_cons] at this
          exact List.mem_of_getLast?_eq_some this
        exact h0 hm
    · have hne : (x == c) = false := by simpa using hx
      have hne' : (x != c) = true := by simpa using hx
      rw [List.count_cons, hne] at hcount
      simp only [Bool.false_eq_true, ↓reduceIte, add_zero] at hcount
      have hend' : endsWith xs [c] = true := by
        simp only [endsWith, List.isSuffixOf_iff_suffix] at hend ⊢
        obtain ⟨t, ht⟩ := hend
        cases t with
        | nil =>
          simp at ht
          exact absurd ht.1.symm hx
        | cons a t' =>
          simp at ht
          exact ⟨t', ht.2⟩
      simp only [List.dropWhile_cons, hne', if_true]
      exact ih hcount hend'

theorem parse_fields (raw : GoString) (u : URL) (h : parse raw = .ok u) :
    u.RawQuery = (Cut raw 63).2.1 ∧ 63 ∉ u.Scheme ∧ 63 ∉ u.Opaque ∧
      (∀ c ∈ u.Scheme, c ∈ raw ∨ (97 ≤ c ∧ c ≤ 122)) ∧ (∀ c ∈ u.Opaque, c ∈ raw) := by
  unfold parse at h
  split_ifs at h with hctl hstar
  · injection h with h
    subst h
    subst hstar
    refine ⟨by decide, by simp [URL.zero], by simp [URL.zero], by simp [URL.zero],
      by simp [URL.zero]⟩
  · cases hs : getScheme raw with
    | error e => simp [hs] at h
    | ok p =>
      obtain ⟨sch, rest0⟩ := p
      simp only [hs] at h
      have hspec := getScheme_spec raw sch rest0 hs
      have hq : (Cut raw 63).2.1 = (Cut rest0 63).2.1 := by
        rcases hspec with ⟨_, e⟩ | ⟨h1, e⟩
        · rw [e]
        · rw [e]
          have : sch ++ 58 :: rest0 = (sch ++ [58]) ++ rest0 := by simp
          rw [this, Cut_snd_append _ _ _ (by simpa using h1)]
      have hsub : ∀ c ∈ rest0, c ∈ raw := by
        rcases hspec with ⟨_, e⟩ | ⟨_, e⟩
        · intro c hc; rw [e] at hc; exact hc
        · intro c hc; rw [e]; simp [hc]
      have hsch : 63 ∉ ToLower sch := by
        intro hm
        rcases ToLower_mem _ _ hm with h1 | h1
        · rcases hspec with ⟨e, _⟩ | ⟨h2, _⟩
          · rw [e] at h1; simp at h1
          · exact h2 h1
        · omega
      have hschsub : ∀ c ∈ ToLower sch, c ∈ raw ∨ (97 ≤ c ∧ c ≤ 122) := by
        intro c hc
        rcases ToLower_mem _ _ hc with h1 | h1
        · left
          rcases hspec with ⟨e, _⟩ | ⟨_, e⟩
          · rw [e] at h1; simp at h1
          · rw [e]; simp [h1]
        · exact Or.inr h1
      -- the query and the rest
      have hforced : ∀ (b : Bool),
          b = (endsWith rest0 (lit "?") && rest0.count '?'.toNat == 1) →
          (if b = true then ([] : GoString) else (Cut rest0 '?'.toNat).2.1) =
            (Cut rest0 63).2.1 := by
        intro b hb
        by_cases hbt : b = true
        · rw [if_pos hbt]
          rw [hbt] at hb
          have hb' := hb.symm
          simp only [Bool.and_eq_true, beq_iff_eq] at hb'
          exact (dropWhile_last rest0 63 hb'.2 hb'.1).symm
        · rw [if_neg hbt]
          rfl
      have hrest : ∀ (b : Bool),
          b = (endsWith rest0 (lit "?") && rest0.count '?'.toNat == 1) →
          63 ∉ (if b = true then rest0.dropLast else (Cut rest0 '?'.toNat).1) ∧
          ∀ c ∈ (if b = true then rest0.dropLast else (Cut rest0 '?'.toNat).1), c ∈ rest0 := by
        intro b hb
        by_cases hbt : b = true
        · rw [if_pos hbt]
          rw [hbt] at hb
          have hb' := hb.symm
          simp only [Bool.and_eq_true, beq_iff_eq] at hb'
          refine ⟨fun hm => ?_, fun c hc => List.dropLast_subset _ hc⟩
          have hsuf := hb'.1
          simp only [endsWith, List.isSuffixOf_iff_suffix] at hsuf
          obtain ⟨t, ht⟩ := hsuf
          have hd : rest0.dropLast = t := by
            rw [← ht]
            simp [lit]
          rw [hd] at hm
          have hc := hb'.2
          rw [← ht] at hc
          simp only [lit, List.count_append] at hc
          have : List.count 63 t = 0 := by
            have h1 : List.count 63 ("?".toList.map Char.toNat) = 1 := by decide
            have hc' : List.count 63 t + List.count 63 ("?".toList.map Char.toNat) = 1 := hc
            omega
          exact List.count_eq_zero.mp this hm
        · rw [if_neg hbt]
          exact ⟨Cut_fst_not_mem _ _, Cut_fst_subset _ _⟩
      generalize hbdef : (endsWith rest0 (lit "?") && rest0.count '?'.toNat == 1) = b at h
      have hf := hforced b hbdef.symm
      have hr := hrest b hbdef.symm
      have hurl : ∀ v : URL,
          v = (if b = true then
              { ({ URL.zero with Scheme := ToLower sch } : URL) with ForceQuery := true }
            else { ({ URL.zero with Scheme := ToLower sch } : URL) with
              RawQuery := (Cut rest0 '?'.toNat).2.1 }) →
          v.RawQuery = (Cut rest0 63).2.1 ∧ v.Scheme = ToLower sch ∧ v.Opaque = [] := by
        intro v hv
        subst hv
        by_cases hbt : b = true
        · rw [if_pos hbt] at hf ⊢
          exact ⟨hf, rfl, rfl⟩
        · rw [if_neg hbt]
          exact ⟨rfl, rfl, rfl⟩
      generalize hvdef : (if b = true then
              { ({ URL.zero with Scheme := ToLower sch } : URL) with ForceQuery := true }
            else { ({ URL.zero with Scheme := ToLower sch } : URL) with
              RawQuery := (Cut rest0 '?'.toNat).2.1 }) = v at h
      have hv := hurl v hvdef.symm
      generalize hrdef : (if b = true then rest0.dropLast else (Cut rest0 '?'.toNat).1) = rest
        at h hr
      have fin : ∀ w : URL, w.RawQuery = v.RawQuery → w.Scheme = v.Scheme →
          w.Opaque = v.Opaque ∨ w.Opaque = rest →
          w.RawQuery = (Cut raw 63).2.1 ∧ 63 ∉ w.Scheme ∧ 63 ∉ w.Opaque ∧
            (∀ c ∈ w.Scheme, c ∈ raw ∨ (97 ≤ c ∧ c ≤ 122)) ∧ (∀ c ∈ w.Opaque, c ∈ raw) := by
        intro w w1 w2 w3
        refine ⟨by rw [w1, hv.1, hq], by rw [w2, hv.2.1]; exact hsch, ?_,
          by rw [w2, hv.2.1]; exact hschsub, ?_⟩
        · rcases w3 with e | e
          · rw [e, hv.2.2]; simp
          · rw [e]; exact hr.1
        · rcases w3 with e | e
          · rw [e, hv.2.2]; simp
          · rw [e]; exact fun c hc => hsub c (hr.2 c hc)
      split_ifs at h with c1 c2 c3 c4
      · injection h with h
        subst h
        exact fin _ rfl rfl (Or.inr rfl)
      · split at h
        · cases h
        · have := setPath_fields _ _ _ h
          exact fin _ this.2.2.1 this.1 (Or.inl this.2.1)
      · have := setPath_fields _ _ _ h
        exact fin _ this.2.2.1 this.1 (Or.inl this.2.1)
      · have := setPath_fields _ _ _ h
        exact fin _ this.2.2.1 this.1 (Or.inl this.2.1)

theorem Parse_fields (s : GoString) (u : URL) (h : Parse s = .ok u) :
    u.RawQuery = rawQueryOf s ∧ 63 ∉ u.Scheme ∧ 63 ∉ u.Opaque ∧ 35 ∉ u.Scheme ∧
      35 ∉ u.Opaque := by
  unfold Parse at h
  cases hp : parse (Cut s 35).1 with
  | error e =>
    rw [show '#'.toNat = 35 from rfl, hp] at h
    cases h
  | ok v =>
    rw [show '#'.toNat = 35 from rfl, hp] at h
    simp only at h
    have hv := parse_fields _ v hp
    have h35 : 35 ∉ (Cut s 35).1 := Cut_fst_not_mem s 35
    have hvc : v.RawQuery = rawQueryOf s ∧ 63 ∉ v.Scheme ∧ 63 ∉ v.Opaque ∧ 35 ∉ v.Scheme ∧
        35 ∉ v.Opaque := by
      refine ⟨hv.1, hv.2.1, hv.2.2.1, fun hm => ?_, fun hm => h35 (hv.2.2.2.2 _ hm)⟩
      rcases hv.2.2.2.1 _ hm with h1 | h1
      · exact h35 h1
      · omega
    split_ifs at h
    · injection h with h
      subst h
      exact hvc
    · have := setFragment_fields _ _ _ h
      rw [this.1, this.2.1, this.2.2.1]
      exact hvc

theorem Parse_clean (s : GoString) (u : URL) (h : Parse s = .ok u) : cleanURL u :=
  (Parse_fields s u h).2

theorem ResolveReference_cases (base ref : URL) :
    ((base.ResolveReference ref).Scheme = ref.Scheme ∨
      (base.ResolveReference ref).Scheme = base.Scheme) ∧
    ((base.ResolveReference ref).Opaque = ref.Opaque ∨
      (base.ResolveReference ref).Opaque = base.Opaque) ∧
    ((base.ResolveReference ref).RawQuery = ref.RawQuery ∨
      ((base.ResolveReference ref).RawQuery = base.RawQuery ∧ ref.RawQuery = [])) := by
  unfold URL.ResolveReference
  simp only
  split_ifs with c1 c2 c3 c4 c5 c6 c7
  all_goals
    first
    | (split
       · rename_i r hsp
         have := setPath_fields _ _ _ hsp
         simp_all
       · simp_all)
    | simp_all

theorem ResolveReference_fields (base ref : URL) (hb : cleanURL base) (hr : cleanURL ref) :
    cleanURL (base.ResolveReference ref) ∧
      (base.RawQuery = [] → (base.ResolveReference ref).RawQuery = ref.RawQuery) := by
  obtain ⟨h1, h2, h3⟩ := ResolveReference_cases base ref
  refine ⟨?_, fun hq => ?_⟩
  · unfold cleanURL at hb hr ⊢
    rcases h1 with e1 | e1 <;> rcases h2 with e2 | e2 <;> rw [e1, e2] <;>
      simp [hb.1, hb.2.1, hb.2.2.1, hb.2.2.2, hr.1, hr.2.1, hr.2.2.1, hr.2.2.2]
  · rcases h3 with e | ⟨e, e'⟩
    · exact e
    · rw [e, hq, e']

/-! ## Lemmas: the text of a URL before its query -/

theorem upperhex_ne (n : Nat) : upperhex n ≠ 35 ∧ upperhex n ≠ 63 := by
  unfold upperhex
  split_ifs <;> simp <;> omega

theorem escape_not_mem (s : GoString) (mode : encoding) (c : Nat)
    (hc : shouldEscape c mode = true) (h1 : c ≠ 37) (h2 : c ≠ 43)
    (h3 : ∀ n, upperhex n ≠ c) : c ∉ escape s mode := by
  induction s with
  | nil => simp [escape]
  | cons x xs ih =>
    unfold escape
    split_ifs with a b
    · simp only [List.mem_cons, not_or]
      exact ⟨by simpa using h2, ih⟩
    · simp only [List.mem_cons, not_or]
      exact ⟨by simpa using h1, fun e => h3 _ e.symm, fun e => h3 _ e.symm, ih⟩
    · simp only [List.mem_cons, not_or]
      refine ⟨fun e => ?_, ih⟩
      subst e
      exact b hc

theorem shouldEscape_35 (mode : encoding) : shouldEscape 35 mode = true := by
  cases mode <;> decide

theorem shouldEscape_63 (mode : encoding) (h : mode ≠ encodeFragment) :
    shouldEscape 63 mode = true := by
  cases mode <;> first | decide | exact absurd rfl h

theorem escape_no_hash (s : GoString) (mode : encoding) : 35 ∉ escape s mode :=
  escape_not_mem s mode 35 (shouldEscape_35 mode) (by decide) (by decide)
    (fun n => (upperhex_ne n).1)

theorem escape_no_quest (s : GoString) (mode : encoding) (h : mode ≠ encodeFragment) :
    63 ∉ escape s mode :=
  escape_not_mem s mode 63 (shouldEscape_63 mode h) (by decide) (by decide)
    (fun n => (upperhex_ne n).2)

theorem validEncoded_not_mem (s : GoString) (mode : encoding) (c : Nat)
    (hv : validEncoded s mode = true) (hc : shouldEscape c mode = true)
    (hl : c ∉ ['!'.toNat, '$'.toNat, '&'.toNat, 39, '('.toNat, ')'.toNat,
        '*'.toNat, '+'.toNat, ','.toNat, ';'.toNat, '='.toNat, ':'.toNat,
        '@'.toNat, '['.toNat, ']'.toNat, '%'.toNat]) : c ∉ s := by
  intro hm
  simp only [validEncoded, List.all_eq_true] at hv
  have := hv c hm
  rw [if_neg hl, hc] at this
  simp at this

theorem EscapedPath_clean (u : URL) : 63 ∉ u.EscapedPath ∧ 35 ∉ u.EscapedPath := by
  unfold URL.EscapedPath
  split_ifs with h1 h2
  · exact ⟨validEncoded_not_mem _ _ 63 h1.2.1 (by decide) (by decide),
      validEncoded_not_mem _ _ 35 h1.2.1 (by decide) (by decide)⟩
  · decide
  · exact ⟨escape_no_quest _ _ (by decide), escape_no_hash _ _⟩

theorem UserinfoString_clean (ui : Userinfo) : 63 ∉ ui.String ∧ 35 ∉ ui.String := by
  unfold Userinfo.String
  have a1 := escape_no_quest ui.username encodeUserPassword (by decide)
  have a2 := escape_no_hash ui.username encodeUserPassword
  have b1 := escape_no_quest ui.password encodeUserPassword (by decide)
  have b2 := escape_no_hash ui.password encodeUserPassword
  split_ifs <;> simp [a1, a2, b1, b2]

theorem String_shape (u : URL) (hu : cleanURL u) :
    ∃ pre : GoString, 63 ∉ pre ∧ 35 ∉ pre ∧
      u.String = pre ++
        (if u.ForceQuery = true ∨ u.RawQuery ≠ [] then 63 :: u.RawQuery else []) ++
        (if u.Fragment ≠ [] then 35 :: u.EscapedFragment else []) := by
  obtain ⟨p1, p2⟩ := EscapedPath_clean u
  have e1 := escape_no_quest u.Host encodeHost (by decide)
  have e2 := escape_no_hash u.Host encodeHost
  obtain ⟨s1, o1, s2, o2⟩ := hu
  unfold URL.String
  lift_lets
  extract_lets b0 b1 path b2 b3 b4 b5
  have h0 : 63 ∉ b0 ∧ 35 ∉ b0 := by
    simp only [b0]
    split_ifs <;> simp [s1, s2, lit]
  have h1 : 63 ∉ b1 ∧ 35 ∉ b1 := by
    simp only [b1]
    cases hU : u.User with
    | none => split_ifs <;> simp [h0.1, h0.2, e1, e2, lit]
    | some ui =>
      obtain ⟨u1, u2⟩ := UserinfoString_clean ui
      split_ifs <;> simp [h0.1, h0.2, e1, e2, u1, u2, lit]
  have h2 : 63 ∉ b2 ∧ 35 ∉ b2 := by
    simp only [b2]
    split_ifs <;> simp [h1.1, h1.2, lit]
  have h3 : 63 ∉ b3 ∧ 35 ∉ b3 := by
    simp only [b3]
    split_ifs <;> simp [h2.1, h2.2, lit]
  have h4 : 63 ∉ b4 ∧ 35 ∉ b4 := by
    simp only [b4, path]
    split_ifs <;> simp [h0.1, h0.2, h3.1, h3.2, o1, o2, p1, p2]
  refine ⟨b4, h4.1, h4.2, ?_⟩
  simp only [b5]
  split_ifs <;> simp [lit]

/-! ## Lemmas: the query of the request -/

theorem mem_Join (l : List GoString) (sep c : Nat) (h : c ∈ Join l sep) :
    c = sep ∨ ∃ p ∈ l, c ∈ p := by
  induction l with
  | nil => simp [Join] at h
  | cons x rest ih =>
    cases rest with
    | nil =>
      simp only [Join] at h
      exact Or.inr ⟨x, List.mem_cons_self _ _, h⟩
    | cons y rest' =>
      rw [Join] at h
      rcases List.mem_append.mp h with h1 | h1
      · exact Or.inr ⟨x, List.mem_cons_self _ _, h1⟩
      · rcases List.mem_cons.mp h1 with h2 | h2
        · exact Or.inl h2
        · rcases ih h2 with h3 | ⟨p, hp, hc⟩
          · exact Or.inl h3
          · exact Or.inr ⟨p, List.mem_cons_of_mem _ hp, hc⟩

theorem Encode_clean (v : Values) : 63 ∉ Values.Encode v ∧ 35 ∉ Values.Encode v := by
  have key : ∀ c, c ≠ 38 → c ≠ 61 → (∀ s, c ∉ escape s encodeQueryComponent) →
      c ∉ Values.Encode v := by
    intro c h38 h61 hesc hm
    unfold Values.Encode at hm
    rcases mem_Join _ _ _ hm with h | ⟨p, hp, hc⟩
    · exact h38 h
    · simp only [List.mem_flatMap, List.mem_map] at hp
      obtain ⟨k, _, x, _, rfl⟩ := hp
      rcases List.mem_append.mp hc with h1 | h1
      · exact hesc _ h1
      · rcases List.mem_cons.mp h1 with h2 | h2
        · exact h61 h2
        · exact hesc _ h2
  exact ⟨key 63 (by decide) (by decide) (fun s => escape_no_quest s _ (by decide)),
    key 35 (by decide) (by decide) (fun s => escape_no_hash s _)⟩

theorem rawQueryOf_shape (pre q e : GoString) (force frag : Prop) [Decidable force]
    [Decidable frag] (h1 : 63 ∉ pre) (h2 : 35 ∉ pre) (h3 : 35 ∉ q) :
    rawQueryOf (pre ++ (if force ∨ q ≠ [] then 63 :: q else []) ++
      (if frag then 35 :: e else [])) = q := by
  have hpq : 35 ∉ pre ++ (if force ∨ q ≠ [] then 63 :: q else []) := by
    split_ifs <;> simp [h2, h3]
  have hcut : (Cut (pre ++ (if force ∨ q ≠ [] then 63 :: q else []) ++
      (if frag then 35 :: e else [])) 35).1 =
      pre ++ (if force ∨ q ≠ [] then 63 :: q else []) := by
    by_cases hf : frag
    · rw [if_pos hf, Cut_append _ _ _ hpq]
    · rw [if_neg hf, List.append_nil, Cut_of_not_mem _ _ hpq]
  unfold rawQueryOf
  rw [show '#'.toNat = 35 from rfl, show '?'.toNat = 63 from rfl, hcut]
  by_cases hq : force ∨ q ≠ []
  · rw [if_pos hq, Cut_append _ _ _ h1]
  · rw [if_neg hq, List.append_nil, Cut_of_not_mem _ _ h1]
    simp only [not_or, not_not] at hq
    exact hq.2.symm

theorem NewRequest_URL {β ω : Type} [Marshaler β] [Queryable ω] (c : client)
    (method urlStr : GoString) (body : Option β) (options : Option ω) (req : Request)
    (h : c.NewRequest method urlStr body options = .ok req) :
    ∃ u pu, c.requestURL urlStr options = .ok u ∧ Parse u.String = .ok pu ∧
      req.URL = { pu with Host := removeEmptyPort pu.Host } := by
  unfold client.NewRequest at h
  cases hu : c.requestURL urlStr options with
  | error e => simp [hu] at h
  | ok u =>
    simp only [hu] at h
    have key : ∀ byt : GoString, (match http.NewRequest method u.String byt with
        | .error err => (.error err : Except Error Request)
        | .ok req =>
          .ok (Request.SetBasicAuth
            { req with Header := Header.Add (Header.Add req.Header (lit "Content-Type")
                (lit "application/json")) (lit "Accept") (lit "application/json") }
            [] c.credential.ApiKey)) = .ok req →
        ∃ pu, Parse u.String = .ok pu ∧
          req.URL = { pu with Host := removeEmptyPort pu.Host } := by
      intro byt hb
      unfold http.NewRequest at hb
      simp only at hb
      split_ifs at hb with hm hv
      all_goals
        cases hp : Parse u.String with
        | error e => simp [hp] at hb
        | ok pu =>
          simp only [hp, Except.ok.injEq] at hb
          subst hb
          exact ⟨pu, rfl, rfl⟩
    cases body with
    | none =>
      obtain ⟨pu, h1, h2⟩ := key [] h
      exact ⟨u, pu, rfl, h1, h2⟩
    | some b =>
      cases hb : (Marshaler.Marshal b : Except Error GoString) with
      | error e => simp [hb] at h
      | ok byt =>
        simp only [hb] at h
        obtain ⟨pu, h1, h2⟩ := key byt h
        exact ⟨u, pu, rfl, h1, h2⟩

theorem lookup_foldl_parseQueryStep (pieces : List GoString) (m : Values) (key : GoString) :
    Values.lookup (pieces.foldl parseQueryStep m) key =
      Values.lookup m key ++
        ((((pieces.filter (fun piece => piece ≠ [])).filterMap decodeParam).filter
          (fun kv => kv.1 = key)).map Prod.snd) := by
  induction pieces generalizing m with
  | nil => simp
  | cons p ps ih =>
    rw [List.foldl_cons, ih]
    by_cases hp : p = []
    · subst hp
      simp [parseQueryStep]
    · have hstep : Values.lookup (parseQueryStep m p) key =
          Values.lookup m key ++
            (((decodeParam p).toList.filter (fun kv => kv.1 = key)).map Prod.snd) := by
        unfold parseQueryStep decodeParam
        by_cases hsemi : p.contains ';'.toNat = true
        · rw [if_pos hsemi, if_pos hsemi]
          simp
        · rw [if_neg hsemi, if_neg hsemi, if_neg hp]
          cases hk : QueryUnescape (Cut p '='.toNat).1 with
          | error e => simp
          | ok k =>
            cases hx : QueryUnescape (Cut p '='.toNat).2.1 with
            | error e => simp
            | ok x =>
              simp only [lookup_Add]
              by_cases hkey : key = k
              · subst hkey; simp
              · simp [hkey, Ne.symm hkey]
      rw [hstep]
      simp only [List.filter_cons, hp, decide_True, decide_not, Bool.not_false, if_true,
        List.filterMap_cons, decide_False]
      cases hd : decodeParam p with
      | none => simp
      | some kv =>
        by_cases hkey : kv.1 = key
        · simp [List.filter_cons, hkey]
        · simp [List.filter_cons, hkey]

theorem lookup_Query (u : URL) (key : GoString) :
    Values.lookup u.Query key = keptValues u.RawQuery key := by
  unfold URL.Query keptValues queryParams
  rw [lookup_foldl_parseQueryStep]
  simp [Values.lookup]

theorem rawQueryOf_subset (s : GoString) : ∀ c ∈ rawQueryOf s, c ∈ s :=
  fun c hc => Cut_fst_subset _ _ c (Cut_snd_subset _ _ c hc)

/-! ## Lemmas: references in escaped form -/

theorem isEscapedPathByte_iff (c : Nat) :
    isEscapedPathByte c = true ↔ (97 ≤ c ∧ c ≤ 122) ∨ (65 ≤ c ∧ c ≤ 90) ∨ (48 ≤ c ∧ c ≤ 57) ∨
      c = 45 ∨ c = 95 ∨ c = 46 ∨ c = 126 ∨ c = 33 ∨ c = 36 ∨ c = 38 ∨ c = 39 ∨ c = 40 ∨
      c = 41 ∨ c = 42 ∨ c = 43 ∨ c = 44 ∨ c = 59 ∨ c = 61 ∨ c = 58 ∨ c = 64 ∨ c = 91 ∨
      c = 93 ∨ c = 47 ∨ c = 37 := by
  simp [isEscapedPathByte, isAlnum_iff, or_assoc]

theorem isEscapedFragmentByte_iff (c : Nat) :
    isEscapedFragmentByte c = true ↔ isEscapedPathByte c = true ∨ c = 63 := by
  simp [isEscapedFragmentByte]

theorem validEncoded_path (s : GoString) (h : ∀ c ∈ s, isEscapedPathByte c = true) :
    validEncoded s encodePath = true := by
  simp only [validEncoded, List.all_eq_true]
  intro c hc
  have := (isEscapedPathByte_iff c).mp (h c hc)
  by_cases ha : isAlnum c = true
  · split_ifs
    · rfl
    · simp [shouldEscape, ha]
  · rw [isAlnum_iff] at ha
    have : c = 45 ∨ c = 95 ∨ c = 46 ∨ c = 126 ∨ c = 33 ∨ c = 36 ∨ c = 38 ∨ c = 39 ∨ c = 40 ∨
      c = 41 ∨ c = 42 ∨ c = 43 ∨ c = 44 ∨ c = 59 ∨ c = 61 ∨ c = 58 ∨ c = 64 ∨ c = 91 ∨
      c = 93 ∨ c = 47 ∨ c = 37 := by omega
    rcases this with h | h | h | h | h | h | h | h | h | h | h | h | h | h | h | h | h | h |
      h | h | h <;> subst h <;> decide

theorem validEncoded_fragment (s : GoString) (h : ∀ c ∈ s, isEscapedFragmentByte c = true) :
    validEncoded s encodeFragment = true := by
  simp only [validEncoded, List.all_eq_true]
  intro c hc
  rcases (isEscapedFragmentByte_iff c).mp (h c hc) with h1 | h1
  · have := (isEscapedPathByte_iff c).mp h1
    by_cases ha : isAlnum c = true
    · split_ifs
      · rfl
      · simp [shouldEscape, ha]
    · rw [isAlnum_iff] at ha
      have : c = 45 ∨ c = 95 ∨ c = 46 ∨ c = 126 ∨ c = 33 ∨ c = 36 ∨ c = 38 ∨ c = 39 ∨
        c = 40 ∨ c = 41 ∨ c = 42 ∨ c = 43 ∨ c = 44 ∨ c = 59 ∨ c = 61 ∨ c = 58 ∨ c = 64 ∨
        c = 91 ∨ c = 93 ∨ c = 47 ∨ c = 37 := by omega
      rcases this with h | h | h | h | h | h | h | h | h | h | h | h | h | h | h | h | h | h |
        h | h | h <;> subst h <;> decide
  · subst h1
    decide

theorem unescapeCheck_wellEscaped (mode : encoding)
    (hm : mode ≠ encodeHost ∧ mode ≠ encodeZone) (n : Nat) :
    ∀ s : GoString, s.length ≤ n → wellEscaped s = true → unescapeCheck s mode = none := by
  induction n with
  | zero =>
    intro s hl _
    have : s = [] := List.length_eq_zero.mp (by omega)
    subst this
    rfl
  | succ n ih =>
    intro s hl hw
    cases s with
    | nil => rfl
    | cons c cs =>
      simp only [List.length_cons] at hl
      unfold wellEscaped at hw
      unfold unescapeCheck
      by_cases hc : c = '%'.toNat
      · rw [if_pos hc] at hw ⊢
        cases cs with
        | nil => simp at hw
        | cons a t =>
          cases t with
          | nil => simp at hw
          | cons b t' =>
            simp only [Bool.and_eq_true] at hw
            simp only [List.length_cons] at hl
            simp only [hw.1.1, hw.1.2, Bool.and_self, Bool.not_true, Bool.false_eq_true,
              if_false, hm.1, hm.2, false_and]
            exact ih t' (by omega) hw.2
      · rw [if_neg hc] at hw ⊢
        have := ih cs (by omega) hw
        split_ifs with h1 h2
        · exact this
        · exact absurd h2.1 (by simp [hm.1, hm.2])
        · exact this

theorem unescape_wellEscaped (s : GoString) (mode : encoding)
    (hm : mode ≠ encodeHost ∧ mode ≠ encodeZone) (hw : wellEscaped s = true) :
    unescape s mode = .ok (unescapeBytes s mode) := by
  unfold unescape
  rw [unescapeCheck_wellEscaped mode hm s.length s (le_refl _) hw]

theorem unescapeBytes_ne_nil (s : GoString) (mode : encoding) (hw : wellEscaped s = true)
    (hs : s ≠ []) : unescapeBytes s mode ≠ [] := by
  cases s with
  | nil => exact absurd rfl hs
  | cons c cs =>
    unfold wellEscaped at hw
    unfold unescapeBytes
    by_cases hc : c = '%'.toNat
    · rw [if_pos hc] at hw ⊢
      cases cs with
      | nil => simp at hw
      | cons a t =>
        cases t with
        | nil => simp at hw
        | cons b t' => simp
    · rw [if_neg hc]
      split_ifs <;> simp

theorem wellEscaped_cons_ne (c : Nat) (cs : GoString) (h : c ≠ 37) :
    wellEscaped (c :: cs) = wellEscaped cs := by
  conv_lhs => unfold wellEscaped
  simp [h]

theorem wellEscaped_append (a b : GoString) (ha : ∀ c ∈ a, c ≠ 37)
    (hb : wellEscaped b = true) : wellEscaped (a ++ b) = true := by
  induction a with
  | nil => exact hb
  | cons x xs ih =>
    have hx : x ≠ 37 := ha x (List.mem_cons_self _ _)
    rw [List.cons_append, wellEscaped_cons_ne _ _ hx]
    exact ih (fun c hc => ha c (List.mem_cons_of_mem _ hc))

theorem setPath_escaped (u : URL) (p : GoString) (hw : wellEscaped p = true) :
    URL.setPath u p =
      .ok { u with Path := unescapeBytes p encodePath,
                   RawPath := if p = escape (unescapeBytes p encodePath) encodePath then []
                              else p } := by
  unfold URL.setPath
  rw [unescape_wellEscaped p _ (by decide) hw]

theorem setFragment_escaped (u : URL) (f : GoString) (hw : wellEscaped f = true) :
    URL.setFragment u f =
      .ok { u with Fragment := unescapeBytes f encodeFragment,
                   RawFragment :=
                     if f = escape (unescapeBytes f encodeFragment) encodeFragment then []
                     else f } := by
  unfold URL.setFragment
  rw [unescape_wellEscaped f _ (by decide) hw]

theorem EscapedPath_escaped (u : URL) (p : GoString)
    (hv : ∀ c ∈ p, isEscapedPathByte c = true) (hw : wellEscaped p = true)
    (hstar : p ≠ lit "%2A")
    (hPath : u.Path = unescapeBytes p encodePath)
    (hRaw : u.RawPath = if p = escape (unescapeBytes p encodePath) encodePath then [] else p) :
    u.EscapedPath = p := by
  unfold URL.EscapedPath
  by_cases hr : p = escape (unescapeBytes p encodePath) encodePath
  · rw [if_pos hr] at hRaw
    rw [hRaw, hPath]
    simp only [ne_eq, not_true_eq_false, false_and, if_false]
    split_ifs with h1
    · rw [h1] at hr
      exact absurd hr hstar
    · exact hr.symm
  · rw [if_neg hr] at hRaw
    have hne : p ≠ [] := by
      intro e
      subst e
      exact hr (by simp [unescapeBytes, escape])
    rw [hRaw, hPath]
    rw [if_pos]
    refine ⟨hne, validEncoded_path p hv, ?_⟩
    simp [unescapesTo, unescape_wellEscaped p encodePath (by decide) hw]

theorem EscapedFragment_escaped (u : URL) (f : GoString)
    (hv : ∀ c ∈ f, isEscapedFragmentByte c = true) (hw : wellEscaped f = true)
    (hFrag : u.Fragment = unescapeBytes f encodeFragment)
    (hRaw : u.RawFragment =
      if f = escape (unescapeBytes f encodeFragment) encodeFragment then [] else f) :
    u.EscapedFragment = f := by
  unfold URL.EscapedFragment
  by_cases hr : f = escape (unescapeBytes f encodeFragment) encodeFragment
  · rw [if_pos hr] at hRaw
    rw [hRaw, hFrag]
    simp only [ne_eq, not_true_eq_false, false_and, if_false]
    exact hr.symm
  · rw [if_neg hr] at hRaw
    have hne : f ≠ [] := by
      intro e
      subst e
      exact hr (by simp [unescapeBytes, escape])
    rw [hRaw, hFrag]
    rw [if_pos]
    refine ⟨hne, validEncoded_fragment f hv, ?_⟩
    simp [unescapesTo, unescape_wellEscaped f encodeFragment (by decide) hw]

/-! ## Lemmas: parsing a reference in escaped form -/

theorem getSchemeLoop_segment (raw a b : GoString) (i : Nat) (ha : 58 ∉ a)
    (hb : b = [] ∨ ∃ c t, b = c :: t ∧ (c = 47 ∨ c = 63)) :
    getSchemeLoop raw (a ++ b) i = .ok ([], raw) := by
  induction a generalizing i with
  | nil =>
    rcases hb with hb | ⟨c, t, hb, hc | hc⟩
    · subst hb; rfl
    · subst hb hc; simp [getSchemeLoop]
    · subst hb hc; simp [getSchemeLoop]
  | cons x xs ih =>
    simp only [List.mem_cons, not_or] at ha
    have hx : ¬ x = ':'.toNat := fun e => ha.1 e.symm
    rw [List.cons_append]
    unfold getSchemeLoop
    split_ifs <;> first | rfl | exact ih _ ha.2

theorem endsWith_of_not_mem (s : GoString) (c : Nat) (h : c ∉ s) : endsWith s [c] = false := by
  cases hb : endsWith s [c] with
  | false => rfl
  | true =>
    exfalso
    simp only [endsWith, List.isSuffixOf_iff_suffix] at hb
    obtain ⟨t, ht⟩ := hb
    exact h (by rw [← ht]; simp)

theorem forced_iff (X q : GoString) (hX : 63 ∉ X) :
    (endsWith (X ++ 63 :: q) [63] && (X ++ 63 :: q).count 63 == 1) = decide (q = []) := by
  by_cases hq : q = []
  · subst hq
    have h1 : endsWith (X ++ [63]) [63] = true := by
      simp only [endsWith, List.isSuffixOf_iff_suffix]
      exact ⟨X, rfl⟩
    have h2 : (X ++ [63]).count 63 = 1 := by
      rw [List.count_append, List.count_eq_zero.mpr hX]
      rfl
    simp [h1, h2]
  · simp only [hq, decide_False, Bool.and_eq_false_imp, beq_eq_false_iff_ne, ne_eq]
    intro hend hcount
    simp only [endsWith, List.isSuffixOf_iff_suffix] at hend
    obtain ⟨t, ht⟩ := hend
    rw [List.count_append, List.count_eq_zero.mpr hX, List.count_cons_self] at hcount
    have h0 : 63 ∉ q := List.count_eq_zero.mp (by omega)
    have hl : (X ++ 63 :: q).getLast? = some 63 := by rw [← ht]; simp
    have hl2 : (X ++ 63 :: q).getLast? = q.getLast? := by
      obtain ⟨y, ys, rfl⟩ := List.exists_cons_of_ne_nil hq
      rw [List.getLast?_append_cons, List.getLast?_cons_cons]
    rw [hl2] at hl
    exact h0 (List.mem_of_getLast?_eq_some hl)

/-- The bytes of an escaped path are no control bytes and none of `?`, `#`
and space. -/
theorem escapedPath_bytes (s : GoString) (h : ∀ c ∈ s, isEscapedPathByte c = true) :
    ∀ c ∈ s, 32 < c ∧ c ≠ 127 ∧ c ≠ 35 ∧ c ≠ 63 := by
  intro c hc
  have := (isEscapedPathByte_iff c).mp (h c hc)
  omega

theorem forced_spec (X : GoString) (query : Option GoString) (hX : 63 ∉ X) :
    (endsWith (X ++ queryPart query) [63] && (X ++ queryPart query).count 63 == 1) =
      decide (query = some []) ∧
    (query = some [] → (X ++ queryPart query).dropLast = X) ∧
    Cut (X ++ queryPart query) 63 = (X, query.getD [], query.isSome) := by
  cases query with
  | none =>
    simp [queryPart, endsWith_of_not_mem X 63 hX, Cut_of_not_mem X 63 hX]
  | some q =>
    refine ⟨?_, ?_, ?_⟩
    · simp only [queryPart, show '?'.toNat = 63 from rfl, forced_iff X q hX,
        Option.some.injEq]
    · intro h
      simp only [Option.some.injEq] at h
      subst h
      simp [queryPart]
    · simp only [queryPart, show '?'.toNat = 63 from rfl, Cut_append X q 63 hX,
        Option.getD_some, Option.isSome_some]

theorem parse_tail (url : URL) (X : GoString) (query : Option GoString) (hX : 63 ∉ X)
    (hurl : url.RawQuery = [] ∧ url.ForceQuery = false) :
    (if (endsWith (X ++ queryPart query) (lit "?") &&
          (X ++ queryPart query).count '?'.toNat == 1) = true
      then (X ++ queryPart query).dropLast else (Cut (X ++ queryPart query) '?'.toNat).1) = X ∧
    (if (endsWith (X ++ queryPart query) (lit "?") &&
          (X ++ queryPart query).count '?'.toNat == 1) = true
      then { url with ForceQuery := true }
      else { url with RawQuery := (Cut (X ++ queryPart query) '?'.toNat).2.1 }) =
      { url with ForceQuery := decide (query = some []), RawQuery := query.getD [] } := by
  have hl : lit "?" = [63] := rfl
  obtain ⟨hforced, hdrop, hcut⟩ := forced_spec X query hX
  rw [hl, show '?'.toNat = 63 from rfl, hforced, hcut]
  by_cases hq : query = some []
  · rw [hdrop hq]
    subst hq
    simp [hurl.1]
  · simp [hq, hurl.2]

theorem parse_of (raw sch rest0 rest : GoString) (url : URL)
    (hctl : stringContainsCTLByte raw = false) (hstar : raw ≠ lit "*")
    (hsch : getScheme raw = .ok (sch, rest0))
    (hrest : (if (endsWith rest0 (lit "?") && rest0.count '?'.toNat == 1) = true
      then rest0.dropLast else (Cut rest0 '?'.toNat).1) = rest)
    (hurl : (if (endsWith rest0 (lit "?") && rest0.count '?'.toNat == 1) = true
      then { ({ URL.zero with Scheme := ToLower sch } : URL) with ForceQuery := true }
      else { ({ URL.zero with Scheme := ToLower sch } : URL) with
        RawQuery := (Cut rest0 '?'.toNat).2.1 }) = url) :
    parse raw =
      if !startsWith rest (lit "/") ∧ url.Scheme ≠ [] then .ok { url with Opaque := rest }
      else if !startsWith rest (lit "/") ∧ (Cut rest '/'.toNat).1.contains ':'.toNat then
        .error Error.urlColonInFirstSegment
      else if (url.Scheme ≠ [] ∨ !startsWith rest (lit "///")) ∧
          startsWith rest (lit "//") then
        match parseAuthority ((rest.drop 2).takeWhile (fun c => c != '/'.toNat)) with
        | .error e => .error e
        | .ok (user, host) =>
          URL.setPath { url with User := user, Host := host }
            ((rest.drop 2).dropWhile (fun c => c != '/'.toNat))
      else if url.Scheme ≠ [] ∧ startsWith rest (lit "/") then
        URL.setPath { url with OmitHost := true } rest
      else URL.setPath url rest := by
  unfold parse
  rw [if_neg (by simp [hctl]), if_neg hstar]
  simp only [hsch]
  subst hrest hurl
  rfl

theorem parse_reference (path : GoString) (query : Option GoString)
    (hv : ∀ c ∈ path, isEscapedPathByte c = true) (hw : wellEscaped path = true)
    (hstar : path ≠ lit "%2A") (hslash : path.head? ≠ some '/'.toNat)
    (hcolon : ':'.toNat ∉ (Cut path '/'.toNat).1)
    (hquery : ∀ q, query = some q → ∀ c ∈ q, 32 ≤ c ∧ c ≠ 127 ∧ c ≠ 35) :
    ∃ rp, parse (path ++ queryPart query) =
        .ok (URL.mk [] [] none [] (unescapeBytes path encodePath) rp false
          (decide (query = some [])) (query.getD []) [] []) ∧
      URL.EscapedPath (URL.mk [] [] none [] (unescapeBytes path encodePath) rp false
          (decide (query = some [])) (query.getD []) [] []) = path := by
  have hb := escapedPath_bytes path hv
  have hX : 63 ∉ path := fun hm => (hb _ hm).2.2.2 rfl
  have hctl : stringContainsCTLByte (path ++ queryPart query) = false := by
    simp only [stringContainsCTLByte, List.any_eq_false, List.mem_append]
    intro c hc
    rcases hc with hc | hc
    · have := hb c hc
      simp
      omega
    · cases query with
      | none => simp [queryPart] at hc
      | some q =>
        simp only [queryPart, List.mem_cons] at hc
        rcases hc with hc | hc
        · subst hc; decide
        · have := hquery q rfl c hc
          simp
          omega
  by_cases hs : path ++ queryPart query = lit "*"
  · have hq : query = none := by
      cases query with
      | none => rfl
      | some q =>
        exfalso
        have : 63 ∈ path ++ queryPart (some q) := by simp [queryPart]
        rw [hs] at this
        revert this
        decide
    subst hq
    simp only [queryPart, List.append_nil] at hs
    subst hs
    exact ⟨[], by rfl, by decide⟩
  · have hsch : getScheme (path ++ queryPart query) = .ok ([], path ++ queryPart query) := by
      have hsplit : path = (Cut path 47).1 ++ path.dropWhile (fun c => c != 47) := by
        simp [Cut, List.takeWhile_append_dropWhile]
      unfold getScheme
      have key := getSchemeLoop_segment (path ++ queryPart query) (Cut path 47).1
        (path.dropWhile (fun c => c != 47) ++ queryPart query) 0 hcolon
      rw [← List.append_assoc, ← hsplit] at key
      apply key
      cases hd : path.dropWhile (fun c => c != 47) with
      | nil =>
        cases query with
        | none => left; rfl
        | some q => right; exact ⟨63, q, rfl, Or.inr rfl⟩
      | cons c t =>
        right
        refine ⟨c, t ++ queryPart query, rfl, Or.inl ?_⟩
        have := List.head_dropWhile_not (fun c => c != 47) path (by rw [hd]; simp)
        simp only [hd, List.head_cons] at this
        simpa using this
    have hs1 : startsWith path (lit "/") = false := by
      cases path with
      | nil => rfl
      | cons c cs =>
        have : c ≠ 47 := fun e => hslash (by simp [e])
        simp [startsWith, lit, List.isPrefixOf, this, Ne.symm this]
    have hs2 : startsWith path (lit "//") = false := by
      cases path with
      | nil => rfl
      | cons c cs =>
        have : c ≠ 47 := fun e => hslash (by simp [e])
        simp [startsWith, lit, List.isPrefixOf, this, Ne.symm this]
    have hcol : (Cut path '/'.toNat).1.contains ':'.toNat = false := by
      simpa using hcolon
    have htail := parse_tail ({ URL.zero with Scheme := ToLower [] }) path query hX
      ⟨rfl, rfl⟩
    refine ⟨if path = escape (unescapeBytes path encodePath) encodePath then [] else path,
      ?_, ?_⟩
    · rw [parse_of _ [] _ path _ hctl hs hsch htail.1 htail.2]
      have hcolon' : 58 ∉ (Cut path 47).1 := hcolon
      simp [hs1, hs2, hcol, hcolon', ToLower, URL.zero, setPath_escaped _ _ hw]
    · exact EscapedPath_escaped _ path hv hw hstar rfl rfl

theorem reference_no_hash (path : GoString) (query : Option GoString)
    (hv : ∀ c ∈ path, isEscapedPathByte c = true)
    (hquery : ∀ q, query = some q → ∀ c ∈ q, 32 ≤ c ∧ c ≠ 127 ∧ c ≠ 35) :
    35 ∉ path ++ queryPart query := by
  intro hm
  rcases List.mem_append.mp hm with h | h
  · exact (escapedPath_bytes path hv _ h).2.2.1 rfl
  · cases query with
    | none => simp [queryPart] at h
    | some q =>
      simp only [queryPart, List.mem_cons] at h
      rcases h with h | h
      · exact absurd h (by decide)
      · exact (hquery q rfl _ h).2.2 rfl

theorem Parse_reference (path : GoString) (query : Option GoString) (frag : GoString)
    (hv : ∀ c ∈ path, isEscapedPathByte c = true) (hw : wellEscaped path = true)
    (hstar : path ≠ lit "%2A") (hslash : path.head? ≠ some '/'.toNat)
    (hcolon : ':'.toNat ∉ (Cut path '/'.toNat).1)
    (hquery : ∀ q, query = some q → ∀ c ∈ q, 32 ≤ c ∧ c ≠ 127 ∧ c ≠ 35)
    (hfw : wellEscaped frag = true) :
    ∃ rp, Parse (reference path query frag) =
        .ok (URL.mk [] [] none [] (unescapeBytes path encodePath) rp false
          (decide (query = some [])) (query.getD []) (unescapeBytes frag encodeFragment)
          (if frag = escape (unescapeBytes frag encodeFragment) encodeFragment then []
            else frag)) ∧
      URL.EscapedPath (URL.mk [] [] none [] (unescapeBytes path encodePath) rp false
          (decide (query = some [])) (query.getD []) (unescapeBytes frag encodeFragment)
          (if frag = escape (unescapeBytes frag encodeFragment) encodeFragment then []
            else frag)) = path := by
  obtain ⟨rp, hp, hep⟩ := parse_reference path query hv hw hstar hslash hcolon hquery
  have h35 := reference_no_hash path query hv hquery
  refine ⟨rp, ?_, hep⟩
  unfold Parse reference fragmentPart
  rw [show '#'.toNat = 35 from rfl]
  by_cases hf : frag = []
  · subst hf
    rw [if_pos rfl, List.append_nil, Cut_of_not_mem _ _ h35]
    simp only [hp, if_true]
    simp [unescapeBytes, escape]
  · rw [if_neg hf, Cut_append _ _ _ h35]
    simp only [hp, hf, if_false]
    rw [setFragment_escaped _ _ hfw]

/-! ## Lemmas: the request URL of a reference in escaped form -/

theorem basePath_escaped (path : GoString) (hv : ∀ c ∈ path, isEscapedPathByte c = true)
    (hw : wellEscaped path = true) :
    (∀ c ∈ lit "/3.0/" ++ path, isEscapedPathByte c = true) ∧
      wellEscaped (lit "/3.0/" ++ path) = true ∧ lit "/3.0/" ++ path ≠ lit "%2A" := by
  refine ⟨fun c hc => ?_, wellEscaped_append _ _ (by decide) hw, by simp [lit]⟩
  rcases List.mem_append.mp hc with h | h
  · have hb : ∀ c ∈ lit "/3.0/", isEscapedPathByte c = true := by decide
    exact hb c h
  · exact hv c h

theorem ResolveReference_reference (r path rp rq F RF : GoString) (fq : Bool)
    (hv : ∀ c ∈ path, isEscapedPathByte c = true) (hw : wellEscaped path = true)
    (hslash : path.head? ≠ some '/'.toNat)
    (hdot : ∀ e ∈ Split path '/'.toNat, e ≠ lit "." ∧ e ≠ lit "..")
    (hFR : F = [] → RF = [])
    (hep : URL.EscapedPath
      (URL.mk [] [] none [] (unescapeBytes path encodePath) rp false fq rq F RF) = path) :
    (baseURL r []).ResolveReference
        (URL.mk [] [] none [] (unescapeBytes path encodePath) rp false fq rq F RF) =
      URL.mk (lit "https") [] none (baseHost r)
        (unescapeBytes (lit "/3.0/" ++ path) encodePath)
        (if lit "/3.0/" ++ path =
            escape (unescapeBytes (lit "/3.0/" ++ path) encodePath) encodePath then []
          else lit "/3.0/" ++ path) false fq rq F RF := by
  have e1 : (baseURL r []).EscapedPath = lit "/3.0/" := by
    simp [URL.EscapedPath, baseURL, URL.zero, lit]
    decide
  obtain ⟨b1, b2, b3⟩ := basePath_escaped path hv hw
  unfold URL.ResolveReference
  rw [e1, hep, resolvePath_plain path hslash hdot]
  simp only [setPath_escaped _ _ b2]
  by_cases hF : F = []
  · have hRF := hFR hF
    subst hF hRF
    by_cases c1 : unescapeBytes path encodePath = [] ∧ fq = false ∧ rq = []
    · obtain ⟨c11, c12, c13⟩ := c1
      subst c12 c13
      simp [baseURL, URL.zero, c11]
    · simp [baseURL, URL.zero, c1]
  · by_cases c1 : unescapeBytes path encodePath = [] ∧ fq = false ∧ rq = []
    · obtain ⟨c11, c12, c13⟩ := c1
      subst c12 c13
      simp [baseURL, URL.zero, c11, hF]
    · simp [baseURL, URL.zero, hF, c1]

theorem String_reference (r path : GoString) (query : Option GoString) (frag : GoString)
    (hr : ∀ c ∈ r, isAlnum c = true)
    (hv : ∀ c ∈ path, isEscapedPathByte c = true) (hw : wellEscaped path = true)
    (hfv : ∀ c ∈ frag, isEscapedFragmentByte c = true) (hfw : wellEscaped frag = true) :
    URL.String (URL.mk (lit "https") [] none (baseHost r)
        (unescapeBytes (lit "/3.0/" ++ path) encodePath)
        (if lit "/3.0/" ++ path =
            escape (unescapeBytes (lit "/3.0/" ++ path) encodePath) encodePath then []
          else lit "/3.0/" ++ path) false (decide (query = some [])) (query.getD [])
        (unescapeBytes frag encodeFragment)
        (if frag = escape (unescapeBytes frag encodeFragment) encodeFragment then []
          else frag)) =
      baseURLString r ++ reference path query frag := by
  obtain ⟨b1, b2, b3⟩ := basePath_escaped path hv hw
  have hesc := EscapedPath_escaped (URL.mk (lit "https") [] none (baseHost r)
        (unescapeBytes (lit "/3.0/" ++ path) encodePath)
        (if lit "/3.0/" ++ path =
            escape (unescapeBytes (lit "/3.0/" ++ path) encodePath) encodePath then []
          else lit "/3.0/" ++ path) false (decide (query = some [])) (query.getD [])
        (unescapeBytes frag encodeFragment)
        (if frag = escape (unescapeBytes frag encodeFragment) encodeFragment then []
          else frag)) _ b1 b2 b3 rfl rfl
  have hfe := EscapedFragment_escaped (URL.mk (lit "https") [] none (baseHost r)
        (unescapeBytes (lit "/3.0/" ++ path) encodePath)
        (if lit "/3.0/" ++ path =
            escape (unescapeBytes (lit "/3.0/" ++ path) encodePath) encodePath then []
          else lit "/3.0/" ++ path) false (decide (query = some [])) (query.getD [])
        (unescapeBytes frag encodeFragment)
        (if frag = escape (unescapeBytes frag encodeFragment) encodeFragment then []
          else frag)) frag hfv hfw rfl rfl
  have hhost := escape_host (baseHost r) (baseHost_bytes r hr)
  have hne := baseHost_ne_nil r
  have hF : unescapeBytes frag encodeFragment = [] ↔ frag = [] := by
    constructor
    · intro h
      by_contra hf
      exact unescapeBytes_ne_nil frag _ hfw hf h
    · intro h
      subst h
      rfl
  unfold URL.String
  rw [hesc, hfe]
  have hbase : baseURLString r = lit "https" ++ lit ":" ++ lit "//" ++ baseHost r ++ lit "/3.0/" := by
    have h1 : lit ".api.mailchimp.com/3.0/" = lit ".api.mailchimp.com" ++ lit "/3.0/" := by
      decide
    have h2 : lit "https://" = lit "https" ++ lit ":" ++ lit "//" := by decide
    simp [baseURLString, baseHost, h1, h2]
  have hl : lit "https" ≠ [] := by decide
  have hp : lit "/3.0/" ++ path ≠ [] := by simp [lit]
  have hh : (lit "/3.0/" ++ path).head? = some '/'.toNat := by simp [lit]
  simp only [hl, hne, hhost, hF, hbase, hp, hh, reference, fragmentPart, ne_eq, not_false_eq_true,
    not_true_eq_false, true_or, or_true, if_true, if_false, false_and, and_false, true_and,
    and_true, Bool.false_eq_true, List.append_nil, decide_eq_true_eq]
  cases query with
  | none =>
    by_cases hf : frag = []
    · simp [hf, queryPart, lit]
    · simp [hf, queryPart, lit]
  | some q =>
    by_cases hf : frag = []
    · by_cases hq : q = []
      · simp [hf, hq, queryPart, lit]
      · simp [hf, hq, queryPart, lit]
    · by_cases hq : q = []
      · simp [hf, hq, queryPart, lit]
      · simp [hf, hq, queryPart, lit]

theorem Parse_absolute (r path : GoString) (query : Option GoString) (frag : GoString)
    (hr : ∀ c ∈ r, isAlnum c = true)
    (hv : ∀ c ∈ path, isEscapedPathByte c = true) (hw : wellEscaped path = true)
    (hquery : ∀ q, query = some q → ∀ c ∈ q, 32 ≤ c ∧ c ≠ 127 ∧ c ≠ 35)
    (hfw : wellEscaped frag = true) :
    Parse (baseURLString r ++ reference path query frag) =
      .ok (URL.mk (lit "https") [] none (baseHost r)
        (unescapeBytes (lit "/3.0/" ++ path) encodePath)
        (if lit "/3.0/" ++ path =
            escape (unescapeBytes (lit "/3.0/" ++ path) encodePath) encodePath then []
          else lit "/3.0/" ++ path) false (decide (query = some [])) (query.getD [])
        (unescapeBytes frag encodeFragment)
        (if frag = escape (unescapeBytes frag encodeFragment) encodeFragment then []
          else frag)) := by
  obtain ⟨b1, b2, b3⟩ := basePath_escaped path hv hw
  have hhost := baseHost_bytes r hr
  have hpb := escapedPath_bytes _ b1
  set host := baseHost r with hhostdef
  -- the text before the query
  set X : GoString := 47 :: 47 :: (host ++ (lit "/3.0/" ++ path)) with hXdef
  have hXb : ∀ c ∈ X, 32 ≤ c ∧ c ≠ 127 ∧ c ≠ 35 ∧ c ≠ 63 := by
    intro c hc
    simp only [hXdef, List.mem_cons, List.mem_append] at hc
    rcases hc with h | h | h | h
    · subst h; decide
    · subst h; decide
    · have := (isHostByte_iff c).mp (hhost c h); omega
    · have := hpb c (List.mem_append.mpr h); omega
  have hX63 : 63 ∉ X := fun hm => (hXb _ hm).2.2.2 rfl
  have hqb : ∀ c ∈ queryPart query, 32 ≤ c ∧ c ≠ 127 ∧ c ≠ 35 := by
    intro c hc
    cases query with
    | none => simp [queryPart] at hc
    | some q =>
      simp only [queryPart, List.mem_cons] at hc
      rcases hc with h | h
      · subst h; decide
      · exact hquery q rfl c h
  set raw : GoString := 104 :: 116 :: 116 :: 112 :: 115 :: 58 :: (X ++ queryPart query)
    with hrawdef
  have hfull : baseURLString r ++ reference path query frag = raw ++ fragmentPart frag := by
    have h1 : lit ".api.mailchimp.com/3.0/" = lit ".api.mailchimp.com" ++ lit "/3.0/" := by
      decide
    have h2 : lit "https://" = [104, 116, 116, 112, 115, 58, 47, 47] := by decide
    simp [baseURLString, reference, hrawdef, hXdef, hhostdef, baseHost, h1, h2]
  have hrawb : ∀ c ∈ raw, 32 ≤ c ∧ c ≠ 127 ∧ c ≠ 35 := by
    intro c hc
    simp only [hrawdef, List.mem_cons, List.mem_append] at hc
    rcases hc with h | h | h | h | h | h | h | h
    · subst h; decide
    · subst h; decide
    · subst h; decide
    · subst h; decide
    · subst h; decide
    · subst h; decide
    · have := hXb c h; omega
    · exact hqb c h
  have h35 : 35 ∉ raw := fun hm => (hrawb _ hm).2.2 rfl
  have hctl : stringContainsCTLByte raw = false := by
    simp only [stringContainsCTLByte, List.any_eq_false]
    intro c hc
    have := hrawb c hc
    simp
    omega
  have hstar : raw ≠ lit "*" := by simp [hrawdef, lit]
  have hsch : getScheme raw = .ok ([104, 116, 116, 112, 115], X ++ queryPart query) := by
    simp [getScheme, getSchemeLoop, hrawdef]
  have htail := parse_tail ({ URL.zero with Scheme := ToLower [104, 116, 116, 112, 115] }) X
    query hX63 ⟨rfl, rfl⟩
  have hslash : 47 ∉ host := fun hm => by
    have := (isHostByte_iff _).mp (hhost _ hm); omega
  have hs1 : startsWith X (lit "/") = true := by simp [startsWith, hXdef, lit]
  have hs2 : startsWith X (lit "//") = true := by simp [startsWith, hXdef, lit]
  have hdrop : X.drop 2 = host ++ 47 :: ([51, 46, 48, 47] ++ path) := by simp [hXdef, lit]
  have htake : (host ++ 47 :: ([51, 46, 48, 47] ++ path)).takeWhile (fun c => c != 47) = host :=
    takeWhile_ne_append host _ _ hslash
  have hdw : (host ++ 47 :: ([51, 46, 48, 47] ++ path)).dropWhile (fun c => c != 47) =
      lit "/3.0/" ++ path := by
    rw [dropWhile_ne_append host _ _ hslash]
    simp [lit]
  have hlow : ToLower [104, 116, 116, 112, 115] = lit "https" := by decide
  have hparse : parse raw =
      .ok (URL.mk (lit "https") [] none host
        (unescapeBytes (lit "/3.0/" ++ path) encodePath)
        (if lit "/3.0/" ++ path =
            escape (unescapeBytes (lit "/3.0/" ++ path) encodePath) encodePath then []
          else lit "/3.0/" ++ path) false (decide (query = some [])) (query.getD []) [] []) := by
    rw [parse_of _ _ _ X _ hctl hstar hsch htail.1 htail.2]
    have hl : lit "https" ≠ [] := by decide
    simp only [hs1, hs2, hlow, hdrop, htake, hdw, hl, show '/'.toNat = 47 from rfl,
      parseAuthority_host host hhost, setPath_escaped _ _ b2, URL.zero, ne_eq,
      not_false_eq_true, Bool.not_true, Bool.false_eq_true, false_and, if_false, true_or,
      true_and, and_self, if_true]
  rw [hfull]
  unfold Parse fragmentPart
  rw [show '#'.toNat = 35 from rfl]
  by_cases hf : frag = []
  · subst hf
    rw [if_pos rfl, List.append_nil, Cut_of_not_mem _ _ h35]
    simp only [hparse, if_true]
    simp [unescapeBytes, escape]
  · rw [if_neg hf, Cut_append _ _ _ h35]
    simp only [hparse, hf, if_false]
    rw [setFragment_escaped _ _ hfw]

theorem NewRequest_ok {β ω : Type} [Marshaler β] [Queryable ω] (c : client)
    (method urlStr : GoString) (body : Option β) (options : Option ω) (u pu : URL)
    (hu : c.requestURL urlStr options = .ok u) (hpu : Parse u.String = .ok pu)
    (hmethod : method = [] ∨ validMethod method = true)
    (hbody : ∀ b, body = some b → ∃ byt, Marshaler.Marshal b = .ok byt) :
    ∃ req, c.NewRequest method urlStr body options = .ok req := by
  have hv : validMethod (if method = [] then lit "GET" else method) = true := by
    rcases hmethod with hm | hm
    · simp only [hm, if_true]
      decide
    · split_ifs
      · decide
      · exact hm
  have key : ∀ byt : GoString, ∃ req, (match http.NewRequest method u.String byt with
        | .error err => (.error err : Except Error Request)
        | .ok req =>
          .ok (Request.SetBasicAuth
            { req with Header := Header.Add (Header.Add req.Header (lit "Content-Type")
                (lit "application/json")) (lit "Accept") (lit "application/json") }
            [] c.credential.ApiKey)) = .ok req := by
    intro byt
    unfold http.NewRequest
    simp only [hv, hpu, Bool.not_true, Bool.false_eq_true, if_false]
    exact ⟨_, rfl⟩
  unfold client.NewRequest
  simp only [hu]
  cases body with
  | none => exact key []
  | some b =>
    obtain ⟨byt, hbyt⟩ := hbody b rfl
    simp only [hbyt]
    exact key byt

theorem requestURL_reference (c : client) (r path : GoString) (query : Option GoString)
    (frag : GoString) (hc : c.baseUrl = baseURL r [])
    (hv : ∀ c ∈ path, isEscapedPathByte c = true) (hw : wellEscaped path = true)
    (hstar : path ≠ lit "%2A") (hslash : path.head? ≠ some '/'.toNat)
    (hcolon : ':'.toNat ∉ (Cut path '/'.toNat).1)
    (hdot : ∀ e ∈ Split path '/'.toNat, e ≠ lit "." ∧ e ≠ lit "..")
    (hquery : ∀ q, query = some q → ∀ c ∈ q, 32 ≤ c ∧ c ≠ 127 ∧ c ≠ 35)
    (hfw : wellEscaped frag = true) :
    c.requestURL (reference path query frag) (none : Option Nil) =
      .ok (URL.mk (lit "https") [] none (baseHost r)
        (unescapeBytes (lit "/3.0/" ++ path) encodePath)
        (if lit "/3.0/" ++ path =
            escape (unescapeBytes (lit "/3.0/" ++ path) encodePath) encodePath then []
          else lit "/3.0/" ++ path) false (decide (query = some [])) (query.getD [])
        (unescapeBytes frag encodeFragment)
        (if frag = escape (unescapeBytes frag encodeFragment) encodeFragment then []
          else frag)) := by
  obtain ⟨rp, hp, hep⟩ := Parse_reference path query frag hv hw hstar hslash hcolon hquery hfw
  have hFR : unescapeBytes frag encodeFragment = [] →
      (if frag = escape (unescapeBytes frag encodeFragment) encodeFragment then []
        else frag) = [] := by
    intro h
    have hf : frag = [] := by
      by_contra hf
      exact unescapeBytes_ne_nil frag _ hfw hf h
    subst hf
    simp
  unfold client.requestURL
  rw [hp, hc]
  simp only
  rw [ResolveReference_reference r path rp _ _ _ _ hv hw hslash hdot hFR hep]

theorem NewRequest_reference {β : Type} [Marshaler β] (c : client) (r path method : GoString)
    (query : Option GoString) (frag : GoString) (body : Option β)
    (hc : c.baseUrl = baseURL r []) (hr : ∀ c ∈ r, isAlnum c = true)
    (hv : ∀ c ∈ path, isEscapedPathByte c = true) (hw : wellEscaped path = true)
    (hstar : path ≠ lit "%2A") (hslash : path.head? ≠ some '/'.toNat)
    (hcolon : ':'.toNat ∉ (Cut path '/'.toNat).1)
    (hdot : ∀ e ∈ Split path '/'.toNat, e ≠ lit "." ∧ e ≠ lit "..")
    (hquery : ∀ q, query = some q → ∀ c ∈ q, 32 ≤ c ∧ c ≠ 127 ∧ c ≠ 35)
    (hfv : ∀ c ∈ frag, isEscapedFragmentByte c = true) (hfw : wellEscaped frag = true)
    (hmethod : method = [] ∨ validMethod method = true)
    (hbody : ∀ b, body = some b → ∃ byt, Marshaler.Marshal b = .ok byt) :
    ∃ req, c.NewRequest method (reference path query frag) body (none : Option Nil) = .ok req ∧
      req.URL.String = baseURLString r ++ reference path query frag := by
  have hu := requestURL_reference c r path query frag hc hv hw hstar hslash hcolon hdot hquery
    hfw
  have hs := String_reference r path query frag hr hv hw hfv hfw
  have hp := Parse_absolute r path query frag hr hv hw hquery hfw
  rw [← hs] at hp
  obtain ⟨req, hreq⟩ := NewRequest_ok c method _ body (none : Option Nil) _ _ hu hp hmethod hbody
  refine ⟨req, hreq, ?_⟩
  obtain ⟨u, pu, h1, h2, h3⟩ := NewRequest_URL c method _ body (none : Option Nil) req hreq
  rw [hu] at h1
  injection h1 with h1
  subst h1
  rw [hp] at h2
  injection h2 with h2
  subst h2
  rw [h3]
  have hrm : removeEmptyPort (baseHost r) = baseHost r :=
    removeEmptyPort_host _ (baseHost_bytes r hr)
  simp only [hrm]
  exact hs

/-! ## The claims -/

/-- Claim C1: for every key `k ++ "-" ++ r` with exactly one `-` and a
non-empty part on each side, `newCredential` succeeds and returns the
credential whose `ApiKey` is the key itself and whose `Region` is the part
`r` after the `-`. -/
theorem newCredential_accepts (k r : GoString) (hk : '-'.toNat ∉ k) (hr : '-'.toNat ∉ r)
    (_hk0 : k ≠ []) (_hr0 : r ≠ []) :
    newCredential (k ++ '-'.toNat :: r) =
      ({ ApiKey := k ++ '-'.toNat :: r, Region := r }, none) :=
  newCredential_of_split k r hk hr

/-- Witness of C1: the key `myapikey-us20` gives the region `us20`. -/
theorem newCredential_accepts_witness :
    newCredential (lit "myapikey-us20") =
      ({ ApiKey := lit "myapikey-us20", Region := lit "us20" }, none) :=
  newCredential_accepts (lit "myapikey") (lit "us20") (by decide) (by decide) (by decide)
    (by decide)

/-- Claim C2: for every key in which the number of `-` is not one,
`newCredential` returns the zero credential with `ErrAPIKeyFormat`, and
`NewChimpApi` returns a nil facade with that same error. -/
theorem newCredential_rejects (dc : HttpClient) (s : GoString)
    (h : s.count '-'.toNat ≠ 1) :
    newCredential s = (credential.zero, some Error.ErrAPIKeyFormat) ∧
      NewChimpApi dc s = (none, some Error.ErrAPIKeyFormat) := by
  have h1 := newCredential_of_count_ne_one s h
  exact ⟨h1, by simp [NewChimpApi, h1]⟩

/-- Witness of C2: the key `a-b-c`, with two separators, is rejected. -/
theorem newCredential_rejects_witness :
    (lit "a-b-c").count '-'.toNat ≠ 1 ∧
      newCredential (lit "a-b-c") = (credential.zero, some Error.ErrAPIKeyFormat) ∧
      NewChimpApi noTransport (lit "a-b-c") = (none, some Error.ErrAPIKeyFormat) :=
  ⟨by decide, newCredential_rejects noTransport (lit "a-b-c") (by decide)⟩

/-- Counterexample to C3: the keys `-us20`, `myapikey-` and `-`, in which a
part beside the `-` is empty, are accepted. -/
theorem newCredential_empty_parts :
    newCredential (lit "-us20") = ({ ApiKey := lit "-us20", Region := lit "us20" }, none) ∧
    newCredential (lit "myapikey-") = ({ ApiKey := lit "myapikey-", Region := [] }, none) ∧
    newCredential (lit "-") = ({ ApiKey := lit "-", Region := [] }, none) := by
  decide

/-- Claim C3, amended: `newCredential` succeeds exactly when the key holds
one `-`, whether or not the parts beside it are empty; it then returns the
key with the part after the `-` as the region, and in every other case the
zero credential with `ErrAPIKeyFormat`. -/
theorem newCredential_spec (s : GoString) :
    newCredential s =
      if s.count '-'.toNat = 1 then
        ({ ApiKey := s, Region := (Cut s '-'.toNat).2.1 }, none)
      else (credential.zero, some Error.ErrAPIKeyFormat) := by
  by_cases h : s.count '-'.toNat = 1
  · rw [if_pos h]
    have h1 := Split_count_one s _ h
    unfold newCredential
    simp only [h1]
    simp
  · rw [if_neg h]
    exact newCredential_of_count_ne_one s h

/-- Claim C4: for every key `k ++ "-" ++ r` with no `-` in `k` and a region
`r` of ASCII letters and digits, `NewChimpApi` succeeds and the base URL of
the client, as a string, is `https://` ++ r ++ `.api.mailchimp.com/3.0/`,
whatever `k` is. -/
theorem NewChimpApi_baseUrl (dc : HttpClient) (k r : GoString) (hk : '-'.toNat ∉ k)
    (hr : ∀ c ∈ r, isAlnum c = true) :
    ∃ api, NewChimpApi dc (k ++ '-'.toNat :: r) = (some api, none) ∧
      api.client.baseUrl.String = lit "https://" ++ r ++ lit ".api.mailchimp.com/3.0/" := by
  refine ⟨_, NewChimpApi_of_alnum dc k r hk hr, ?_⟩
  have := String_base r [] hr (by simp)
  simpa [baseURLString] using this

/-- Witness of C4: the key `myapikey-us20` gives the base URL
`https://us20.api.mailchimp.com/3.0/`. -/
theorem NewChimpApi_baseUrl_witness :
    ∃ api, NewChimpApi noTransport (lit "myapikey-us20") = (some api, none) ∧
      api.client.baseUrl.String = lit "https://us20.api.mailchimp.com/3.0/" :=
  NewChimpApi_baseUrl noTransport (lit "myapikey") (lit "us20") (by decide) (by decide)

set_option maxRecDepth 100000 in
/-- Counterexample to C5: the path `foo?a=1;b=2` has the query `a=1;b=2`,
and with the options `{y: 2}` the URL of the request is
`https://us20.api.mailchimp.com/3.0/foo?y=2`: the parameter of the path is
dropped. In the same way the parameter `x=%zz` of the path `foo?x=%zz`,
whose value is no valid percent-encoding, is dropped. -/
theorem NewRequest_query_dropped :
    (rawQueryOf (lit "foo?a=1;b=2") = lit "a=1;b=2" ∧
    ((exampleClient noTransport).NewRequest (lit "GET") (lit "foo?a=1;b=2")
        (none : Option Nil) (some (StringOptions.mk [(lit "y", lit "2")]))).toOption.map
          (fun req => req.URL.String) =
      some (lit "https://us20.api.mailchimp.com/3.0/foo?y=2")) ∧
    (rawQueryOf (lit "foo?x=%zz") = lit "x=%zz" ∧
    ((exampleClient noTransport).NewRequest (lit "GET") (lit "foo?x=%zz")
        (none : Option Nil) (some (StringOptions.mk [(lit "y", lit "2")]))).toOption.map
          (fun req => req.URL.String) =
      some (lit "https://us20.api.mailchimp.com/3.0/foo?y=2")) := by
  decide

/-- Claim C5, amended: for a client whose base URL was parsed by `url.Parse`
and has no query, in `NewRequest` with options that are not nil the query of
the request URL is the encoding of the values of the options to which every
value was added that `url.ParseQuery` reads from the query of the path; read
back from the request URL, every key has the values of the options followed
by the values of the parameters of the path's query for this key, in their
order, where a parameter of the path counts only if it holds no `;` and its
key and value are valid percent-encodings (`keptValues`). The hypotheses
`hbytes` and `hwf` say that the strings are made of bytes and that the
options are a map, with no key twice. -/
theorem NewRequest_query {β ω : Type} [Marshaler β] [Queryable ω] (c : client)
    (baseText method urlStr : GoString) (body : Option β) (o : ω) (optionsQuery : Values)
    (req : Request)
    (hbase : Parse baseText = .ok c.baseUrl) (hbq : c.baseUrl.RawQuery = [])
    (hbytes : isBytes urlStr = true)
    (hq : Queryable.queryValues o = .ok optionsQuery)
    (hwf : wellFormed optionsQuery = true)
    (hreq : c.NewRequest method urlStr body (some o) = .ok req) :
    req.URL.RawQuery =
      Values.Encode (addQuery optionsQuery
        (URL.Query { URL.zero with RawQuery := rawQueryOf urlStr })) ∧
    (∀ key, Values.lookup req.URL.Query key =
      Values.lookup optionsQuery key ++ keptValues (rawQueryOf urlStr) key) := by
  obtain ⟨u', pu, hu', hpu, hURL⟩ := NewRequest_URL c method urlStr body (some o) req hreq
  unfold client.requestURL at hu'
  cases hrel : Parse urlStr with
  | error e => simp [hrel] at hu'
  | ok rel =>
    simp only [hrel, hq, Except.ok.injEq] at hu'
    have hres := ResolveReference_fields c.baseUrl rel (Parse_clean _ _ hbase)
      (Parse_clean _ _ hrel)
    have hrq : (c.baseUrl.ResolveReference rel).RawQuery = rawQueryOf urlStr := by
      rw [hres.2 hbq, (Parse_fields _ _ hrel).1]
    have hQ : (c.baseUrl.ResolveReference rel).Query =
        URL.Query { URL.zero with RawQuery := rawQueryOf urlStr } := by
      unfold URL.Query
      rw [hrq]
    rw [hQ] at hu'
    set v := addQuery optionsQuery (URL.Query { URL.zero with RawQuery := rawQueryOf urlStr })
      with hv
    have hclean : cleanURL u' := by
      rw [← hu']
      exact hres.1
    obtain ⟨pre, p1, p2, hstr⟩ := String_shape u' hclean
    have hu'q : u'.RawQuery = Values.Encode v := by rw [← hu']
    have hpq : pu.RawQuery = Values.Encode v := by
      rw [(Parse_fields _ _ hpu).1, hstr, hu'q]
      exact rawQueryOf_shape pre (Values.Encode v) _ _ _ p1 p2 (Encode_clean v).2
    have hreqq : req.URL.RawQuery = Values.Encode v := by rw [hURL]; exact hpq
    refine ⟨hreqq, fun key => ?_⟩
    have hQ2 : req.URL.Query = URL.Query { req.URL with RawQuery := Values.Encode v } := by
      unfold URL.Query
      rw [hreqq]
    have hwf2 : wellFormed (URL.Query { URL.zero with RawQuery := rawQueryOf urlStr }) = true :=
      Query_wellFormed _ ((isBytes_iff _).mpr (fun c hc =>
        (isBytes_iff _).mp hbytes c (rawQueryOf_subset _ c hc)))
    rw [hQ2, Query_Encode _ v (addQuery_wellFormed _ _ hwf hwf2), hv, lookup_addQuery,
      lookup_Query]

set_option maxRecDepth 100000 in
/-- Witness of C5: the path `foo?x=1` with the options `{y: 2}` gives the
query `x=1&y=2`. -/
theorem NewRequest_query_witness :
    exampleQueried.URL.RawQuery = lit "x=1&y=2" ∧
    (∀ key, Values.lookup exampleQueried.URL.Query key =
      Values.lookup [(lit "y", [lit "2"])] key ++ keptValues (lit "x=1") key) := by
  have h := NewRequest_query (exampleClient noTransport)
    (lit "https://us20.api.mailchimp.com/3.0/") (lit "GET") (lit "foo?x=1")
    (none : Option Nil) (StringOptions.mk [(lit "y", lit "2")]) [(lit "y", [lit "2"])]
    exampleQueried (by rfl) (by rfl) (by decide) (by rfl) (by decide) (by rfl)
  exact ⟨h.1, h.2⟩

set_option maxRecDepth 100000 in
/-- Counterexample to C6: the relative path `a b` does not start with `/`
and has no scheme, host or dot segment, and the request URL is the base URL
followed by `a%20b`, not by `a b`. In the same way the path `%2A` gives the
base URL followed by `*`, and the path `foo#`, with an empty fragment, the
base URL followed by `foo`. -/
theorem NewRequest_url_escaped :
    (((exampleClient noTransport).NewRequest (lit "GET") (lit "a b") (none : Option Nil)
        (none : Option Nil)).toOption.map (fun req => req.URL.String) =
      some (lit "https://us20.api.mailchimp.com/3.0/a%20b") ∧
    lit "https://us20.api.mailchimp.com/3.0/a%20b" ≠
      lit "https://us20.api.mailchimp.com/3.0/" ++ lit "a b") ∧
    ((exampleClient noTransport).NewRequest (lit "GET") (lit "%2A") (none : Option Nil)
        (none : Option Nil)).toOption.map (fun req => req.URL.String) =
      some (lit "https://us20.api.mailchimp.com/3.0/*") ∧
    ((exampleClient noTransport).NewRequest (lit "GET") (lit "foo#") (none : Option Nil)
        (none : Option Nil)).toOption.map (fun req => req.URL.String) =
      some (lit "https://us20.api.mailchimp.com/3.0/foo") := by
  decide

/-- Claim C6, amended: for a client built by `NewChimpApi` for a region `r`
of ASCII letters and digits and nil options, every relative reference
`path?query#fragment` in escaped form gives a request whose URL is
`https://` ++ r ++ `.api.mailchimp.com/3.0/` followed by the reference as
it is; the base URL itself for the empty reference. Escaped form means: the
path holds only bytes of an escaped path (`isEscapedPathByte`) with every `%`
before two hexadecimal digits, and is not `%2A`; the query holds no control
byte and no `#`; the fragment holds only bytes of an escaped fragment. The
path does not start with `/`, has no `:` in its first segment (so the
reference has no scheme) and no dot segment; the method is empty or a token
and the body can be serialized, as a request needs. -/
theorem NewRequest_url {β : Type} [Marshaler β] (dc : HttpClient)
    (k r path method : GoString) (query : Option GoString) (frag : GoString)
    (body : Option β) (hk : '-'.toNat ∉ k) (hr : ∀ c ∈ r, isAlnum c = true)
    (hpath : ∀ c ∈ path, isEscapedPathByte c = true) (hesc : wellEscaped path = true)
    (hstar : path ≠ lit "%2A") (hslash : path.head? ≠ some '/'.toNat)
    (hcolon : ':'.toNat ∉ (Cut path '/'.toNat).1)
    (hdot : ∀ e ∈ Split path '/'.toNat, e ≠ lit "." ∧ e ≠ lit "..")
    (hquery : ∀ c ∈ query.getD [], 32 ≤ c ∧ c ≠ 127 ∧ c ≠ '#'.toNat)
    (hfrag : ∀ c ∈ frag, isEscapedFragmentByte c = true) (hfesc : wellEscaped frag = true)
    (hmethod : method = [] ∨ validMethod method = true)
    (hbody : ∀ b, body = some b → ∃ byt, Marshaler.Marshal b = .ok byt) :
    ∃ api req, NewChimpApi dc (k ++ '-'.toNat :: r) = (some api, none) ∧
      api.client.NewRequest method (reference path query frag) body (none : Option Nil) =
        .ok req ∧
      req.URL.String =
        lit "https://" ++ r ++ lit ".api.mailchimp.com/3.0/" ++ reference path query frag := by
  have hq : ∀ q, query = some q → ∀ c ∈ q, 32 ≤ c ∧ c ≠ 127 ∧ c ≠ 35 := by
    intro q hq c hc
    subst hq
    exact hquery c hc
  obtain ⟨req, hreq, hs⟩ := NewRequest_reference
    { httpClient := dc, credential := { ApiKey := k ++ '-'.toNat :: r, Region := r },
      baseUrl := baseURL r [] } r path method query frag body rfl hr hpath hesc hstar hslash
    hcolon hdot hq hfrag hfesc hmethod hbody
  exact ⟨_, req, NewChimpApi_of_alnum dc k r hk hr, hreq, hs⟩

/-- Witness of C6: the reference `lists/a:b%20c!/members?count=1 0&x#top?1`
for the key `myapikey-us20`. -/
theorem NewRequest_url_witness :
    ∃ api req, NewChimpApi noTransport (lit "myapikey-us20") = (some api, none) ∧
      api.client.NewRequest (lit "GET")
        (reference (lit "lists/a:b%20c!/members") (some (lit "count=1 0&x")) (lit "top?1"))
        (none : Option Nil) (none : Option Nil) = .ok req ∧
      req.URL.String =
        lit "https://" ++ lit "us20" ++ lit ".api.mailchimp.com/3.0/" ++
          reference (lit "lists/a:b%20c!/members") (some (lit "count=1 0&x")) (lit "top?1") :=
  NewRequest_url noTransport (lit "myapikey") (lit "us20") (lit "lists/a:b%20c!/members")
    (lit "GET") (some (lit "count=1 0&x")) (lit "top?1") (none : Option Nil) (by decide)
    (by decide) (by decide) (by decide) (by decide) (by decide) (by decide) (by decide)
    (by decide) (by decide) (by decide) (by decide) (by simp)

set_option maxRecDepth 100000 in
/-- Counterexample to C7: for the empty method `NewRequest` returns a request
whose method is `GET`, not the given method. -/
theorem NewRequest_empty_method :
    ((exampleClient noTransport).NewRequest (lit "") (lit "") (none : Option Nil)
        (none : Option Nil)).toOption.map (fun req => req.Method) = some (lit "GET") ∧
    lit "GET" ≠ lit "" := by
  decide

/-- Claim C7, amended: every request that `NewRequest` returns carries the
given method, or `GET` when the given method is empty, a body that is the
JSON serialization of the body argument (empty for nil), and exactly the
headers `Content-Type` and `Accept` with `application/json` and
`Authorization` with `Basic ` and the base64 text of `:` ++ ApiKey. -/
theorem NewRequest_shape {β ω : Type} [Marshaler β] [Queryable ω] (c : client)
    (method urlStr : GoString) (body : Option β) (options : Option ω) (req : Request)
    (h : c.NewRequest method urlStr body options = .ok req) :
    req.Method = (if method = [] then lit "GET" else method) ∧
    (match body with
      | none => req.Body = []
      | some b => Marshaler.Marshal b = .ok req.Body) ∧
    req.Header =
      [(lit "Content-Type", [lit "application/json"]),
       (lit "Accept", [lit "application/json"]),
       (lit "Authorization",
         [lit "Basic " ++ EncodeToString (lit ":" ++ c.credential.ApiKey)])] := by
  unfold client.NewRequest at h
  cases hu : c.requestURL urlStr options with
  | error e => simp [hu] at h
  | ok u =>
    simp only [hu] at h
    have key : ∀ byt : GoString, (match http.NewRequest method u.String byt with
        | .error err => (.error err : Except Error Request)
        | .ok req =>
          .ok (Request.SetBasicAuth
            { req with Header := Header.Add (Header.Add req.Header (lit "Content-Type")
                (lit "application/json")) (lit "Accept") (lit "application/json") }
            [] c.credential.ApiKey)) = .ok req →
        req.Method = (if method = [] then lit "GET" else method) ∧ req.Body = byt ∧
        req.Header =
          [(lit "Content-Type", [lit "application/json"]),
           (lit "Accept", [lit "application/json"]),
           (lit "Authorization",
             [lit "Basic " ++ EncodeToString (lit ":" ++ c.credential.ApiKey)])] := by
      intro byt hb
      unfold http.NewRequest at hb
      simp only at hb
      split_ifs at hb with hm hv
      all_goals
        cases hp : Parse u.String with
        | error e => simp [hp] at hb
        | ok pu =>
          simp only [hp, Except.ok.injEq] at hb
          subst hb
          simp [Request.SetBasicAuth, Header.Add, Header.Set, Values.Add, lit, hm]
    cases body with
    | none =>
      have := key [] h
      exact ⟨this.1, this.2.1, this.2.2⟩
    | some b =>
      cases hb : (Marshaler.Marshal b : Except Error GoString) with
      | error e => simp [hb] at h
      | ok byt =>
        simp only [hb] at h
        have := key byt h
        exact ⟨this.1, by simp [this.2.1, hb], this.2.2⟩

set_option maxRecDepth 100000 in
/-- Witness of C7: `POST lists` with the body `struct{}{}` for the key
`myapikey-us20`. -/
theorem NewRequest_shape_witness :
    examplePost.Method = (if lit "POST" = [] then lit "GET" else lit "POST") ∧
    (Marshaler.Marshal EmptyBody.mk = .ok examplePost.Body) ∧
    examplePost.Header =
      [(lit "Content-Type", [lit "application/json"]),
       (lit "Accept", [lit "application/json"]),
       (lit "Authorization",
         [lit "Basic " ++ EncodeToString
           (lit ":" ++ (exampleClient noTransport).credential.ApiKey)])] :=
  NewRequest_shape (exampleClient noTransport) (lit "POST") (lit "lists")
    (some EmptyBody.mk) (none : Option Nil) examplePost (by rfl)

set_option maxRecDepth 100000 in
/-- Counterexample to C8: on the body `{"account_name":"Acme","account_id":123}`
`GetAccountInfo` returns an error, for the field `account_id` of the wrong
type, together with an `AccountInfo` whose `AccountName` is `Acme`. -/
theorem GetAccountInfo_partial :
    (accountServiceOp.GetAccountInfo
      ⟨exampleClient (bodyTransport (lit "\x7b\"account_name\":\"Acme\",\"account_id\":123\x7d"))⟩) =
      ({ AccountName := lit "Acme", AccountId := [], LoginId := [] },
        some (Error.jsonUnmarshalType (lit "account_id"))) := by
  decide

/-- Claim C8, amended: whenever `GetAccountInfo` returns an error that is
not the `UnmarshalTypeError` of a field (the request could not be built, the
transport failed, the body does not start with a JSON value, or the value is
not an object), the `AccountInfo` it returns is the zero value. When the
body starts with a JSON object, every field holds the last string that the
members with the key of the field, letter case aside, hold, whether or not
there is an error, and the error is the `UnmarshalTypeError` of the first
member that holds neither a string nor `null` for a field. -/
theorem GetAccountInfo_zero (s : accountServiceOp) :
    (∀ e, s.GetAccountInfo.2 = some e → (∀ f, f ≠ [] → e ≠ Error.jsonUnmarshalType f) →
      s.GetAccountInfo.1 = AccountInfo.zero) ∧
    (∀ req resp members,
      s.client.NewRequest (lit "GET") AccountRoute (none : Option Nil) (none : Option Nil) =
        .ok req →
      s.client.httpClient.Do req = .ok resp →
      readValue resp.Body = .ok (JSON.object members) →
      s.GetAccountInfo =
        ({ AccountName := lastString members (lit "account_name"),
           AccountId := lastString members (lit "account_id"),
           LoginId := lastString members (lit "login_id") },
         ((wrongTyped members).head?).map Error.jsonUnmarshalType)) := by
  refine ⟨fun e he hne => ?_, fun req resp members hreq hresp hbody => ?_⟩
  · cases hreq : s.client.NewRequest (lit "GET") AccountRoute (none : Option Nil)
        (none : Option Nil) with
    | error err =>
      simp [accountServiceOp.GetAccountInfo, client.Get, client.CreateAndDo, hreq]
    | ok req =>
      cases ht : s.client.httpClient.Do req with
      | error err =>
        simp [accountServiceOp.GetAccountInfo, client.Get, client.CreateAndDo, hreq,
          client.Do, ht]
      | ok resp =>
        rw [GetAccountInfo_of_body s req resp hreq ht] at he ⊢
        exact Decode_untouched resp.Body AccountInfo.zero e he hne
  · rw [GetAccountInfo_of_body s req resp hreq hresp, Decode_object _ _ hbody]

set_option maxRecDepth 100000 in
/-- Witness of C8: on the body `not json` the error is a syntax error and the
`AccountInfo` is zero; on the body `{"Account_Name":"Acme","login_id":5}` the
error is the type error of `login_id` and the `AccountName` is `Acme`. -/
theorem GetAccountInfo_zero_witness :
    ((accountServiceOp.GetAccountInfo ⟨exampleClient (bodyTransport (lit "not json"))⟩).2
        = some Error.jsonSyntax ∧
      (accountServiceOp.GetAccountInfo ⟨exampleClient (bodyTransport (lit "not json"))⟩).1
        = AccountInfo.zero) ∧
    accountServiceOp.GetAccountInfo
        ⟨exampleClient (bodyTransport (lit "\x7b\"Account_Name\":\"Acme\",\"login_id\":5\x7d"))⟩ =
      ({ AccountName := lit "Acme", AccountId := [], LoginId := [] },
        some (Error.jsonUnmarshalType (lit "login_id"))) :=
  ⟨⟨by decide, (GetAccountInfo_zero _).1 Error.jsonSyntax (by decide) (by simp)⟩,
    (GetAccountInfo_zero
      ⟨exampleClient (bodyTransport (lit "\x7b\"Account_Name\":\"Acme\",\"login_id\":5\x7d"))⟩).2
      exampleRequest
      { StatusCode := 200, Body := lit "\x7b\"Account_Name\":\"Acme\",\"login_id\":5\x7d" }
      [(lit "Account_Name", JSON.string (lit "Acme")), (lit "login_id", JSON.number (lit "5"))]
      (by rfl) (by rfl) (by rfl)⟩

set_option maxRecDepth 100000 in
/-- Counterexample to C9: the body `foldedBody` is a JSON object with the
string members `account_name` = `Acme`, `account_id` = `123` and `login_id`
= `l1`, and `GetAccountInfo` returns the `AccountName` `Zed`, which the
member with the key `ACCOUNT_NAME` holds. -/
theorem GetAccountInfo_folded_key :
    readValue foldedBody =
      .ok (JSON.object (exampleMembers ++ [(lit "ACCOUNT_NAME", JSON.string (lit "Zed"))])) ∧
    hasStringMember (exampleMembers ++ [(lit "ACCOUNT_NAME", JSON.string (lit "Zed"))])
      (lit "account_name") (lit "Acme") = true ∧
    accountServiceOp.GetAccountInfo ⟨exampleClient (bodyTransport foldedBody)⟩ =
      ({ AccountName := lit "Zed", AccountId := lit "123", LoginId := lit "l1" }, none) ∧
    accountServiceOp.GetAccountInfo ⟨exampleClient (bodyTransport foldedBody)⟩ ≠
      ({ AccountName := lit "Acme", AccountId := lit "123", LoginId := lit "l1" }, none) :=
  ⟨by rfl, by decide, by decide, by decide⟩

/-- Claim C9, amended: when the transport answers the account-info GET with
a body whose JSON value is an object that has the string members
`account_name` = a, `account_id` = b, `login_id` = c, `GetAccountInfo`
returns `AccountInfo{a, b, c}` and a nil error exactly when, for each of the
three names, the last string that the members with this key, letter case
aside, hold is the string of the name, and no member with such a key holds a
value that is neither a string nor `null`. -/
theorem GetAccountInfo_decodes (s : accountServiceOp) (req : Request) (resp : Response)
    (members : List (GoString × JSON)) (a b c : GoString)
    (hreq : s.client.NewRequest (lit "GET") AccountRoute (none : Option Nil)
      (none : Option Nil) = .ok req)
    (hresp : s.client.httpClient.Do req = .ok resp)
    (hbody : readValue resp.Body = .ok (JSON.object members))
    (ha : hasStringMember members (lit "account_name") a = true)
    (hb : hasStringMember members (lit "account_id") b = true)
    (hc : hasStringMember members (lit "login_id") c = true) :
    s.GetAccountInfo = ({ AccountName := a, AccountId := b, LoginId := c }, none) ↔
      ((stringValues members (lit "account_name")).getLast? = some a ∧
       (stringValues members (lit "account_id")).getLast? = some b ∧
       (stringValues members (lit "login_id")).getLast? = some c ∧
       wrongTyped members = []) := by
  rw [GetAccountInfo_of_body s req resp hreq hresp, Decode_object _ _ hbody]
  have key : ∀ (name x : GoString), hasStringMember members name x = true →
      (lastString members name = x ↔ (stringValues members name).getLast? = some x) := by
    intro name x hx
    have hne := stringValues_ne_nil members name x hx
    unfold lastString
    rw [List.getLast?_eq_getLast _ hne]
    simp
  rw [← key _ _ ha, ← key _ _ hb, ← key _ _ hc]
  constructor
  · intro h
    injection h with h1 h2
    injection h1 with h3 h4 h5
    refine ⟨h3, h4, h5, ?_⟩
    cases hw : wrongTyped members with
    | nil => rfl
    | cons f fs => simp [hw] at h2
  · rintro ⟨h1, h2, h3, h4⟩
    rw [h1, h2, h3, h4]
    rfl

set_option maxRecDepth 100000 in
/-- Witness of C9: the body of the specification gives `Acme`, `123`,
`l1`. -/
theorem GetAccountInfo_decodes_witness :
    accountServiceOp.GetAccountInfo ⟨exampleClient (bodyTransport exampleBody)⟩ =
      ({ AccountName := lit "Acme", AccountId := lit "123", LoginId := lit "l1" }, none) :=
  (GetAccountInfo_decodes ⟨exampleClient (bodyTransport exampleBody)⟩ exampleRequest
    { StatusCode := 200, Body := exampleBody } exampleMembers (lit "Acme") (lit "123")
    (lit "l1") (by rfl) (by rfl) (by rfl) (by decide) (by decide) (by decide)).mpr
    ⟨by decide, by decide, by decide, by decide⟩

/-- Claim C10: `CheckResponseError` returns nil for every response, so `Do`
returns an error exactly when the transport call failed or a destination was
given and decoding the body into it failed, whatever the status code; with a
nil destination and a transport call that succeeded `Do` returns nil. -/
theorem Do_error_iff {δ : Type} [Unmarshaler δ] (c : client) (req : Request) (v : Option δ) :
    (∀ r : Response, CheckResponseError r = none) ∧
    ((c.Do req v).2 ≠ none ↔
      (∃ e, c.httpClient.Do req = .error e) ∨
      (∃ resp dest, c.httpClient.Do req = .ok resp ∧ v = some dest ∧
        (Decode resp.Body dest).2 ≠ none)) ∧
    (∀ resp, c.httpClient.Do req = .ok resp → v = none → (c.Do req v).2 = none) := by
  refine ⟨fun _ => rfl, ?_, ?_⟩
  · unfold client.Do
    cases h : c.httpClient.Do req with
    | error e => simp
    | ok resp =>
      cases v with
      | none => simp [CheckResponseError]
      | some dest =>
        simp only [CheckResponseError]
        rcases hd : Decode resp.Body dest with ⟨d, _ | e⟩ <;> simp [hd]
  · intro resp h hv
    subst hv
    simp [client.Do, h, CheckResponseError]

end Mailchimp
